import Mathlib

/-!
# skkdic: candidate codec, headword classifier and merge engine

A shallow embedding of `candidate.go`, `utils.go`, `entry.go` and the merge part
of `skkdic.go`.

Modelling conventions.

* A Go `string` is a finite sequence of bytes: `Str := List Nat`, each element
  standing for one byte.  Literals are written as their byte values
  (`47` is `/`, `59` is `;`, `91` is `[`, `93` is `]`, `32` is the space).
* Go `for` loops over an index become recursive functions with a fuel argument;
  the entry points pass a fuel that is shown to be sufficient.
* `*Candidate` and `*entry` are modelled as values: a mutation of the pointee is
  an update of the value held in the list or store.  A candidate list handed in
  by a caller is a list value when its backing array is not one that the store
  holds.  `Lookup` returns the slice of the store itself; the call in which that
  slice comes back while the store shifts it, `SubCandidates(h, Lookup(h))`, is
  modelled on the shared array (`subLoopShared`, `Dictionary.SubLookup`).
* The encoders of `golang.org/x/text` are not part of the package: `Write` takes
  them as an argument, and `Read` is modelled where it uses none.
* `btree.BTreeG[*entry]` (an external package) is modelled by its contract: the
  list of items in ascending order of the comparator it was built with.
-/

namespace Skkdic

/-- A Go string: its bytes in order. -/
abbrev Str := List Nat

/-- The struct `Candidate` of `candidate.go`. -/
structure Candidate where
  Text : Str
  Annotation : Str
deriving DecidableEq, Repr

/-- The slice expression `s[p:q]`. -/
def slice (s : Str) (p q : Nat) : Str := (s.take q).drop p

/-- The loop `for q < len(s) && s[q] != c { q++ }`; returns the final `q`. -/
def scanUntil (s : Str) (c : Nat) : Nat → Nat → Nat
  | 0, q => q
  | fuel + 1, q =>
    if q < s.length ∧ s.getD q 0 ≠ c then scanUntil s c fuel (q + 1) else q

/-- Index of the first occurrence of the byte `sep` in `s`, as `strings.IndexByte`. -/
def indexByte (sep : Nat) : Str → Option Nat
  | [] => none
  | b :: rest => if b = sep then some 0 else (indexByte sep rest).map (· + 1)

/-- The call `strings.Cut(s, sep)` for a one-byte separator: the text before the
first `sep`, the text after it, and whether `sep` was found. -/
def cut (s : Str) (sep : Nat) : Str × Str × Bool :=
  match indexByte sep s with
  | some i => (s.take i, s.drop (i + 1), true)
  | none => (s, [], false)

/-- First loop of `parseCandidates` (lines 13 to 38): counts the candidates. -/
def countLoop (s : Str) : Nat → Nat → Nat → Nat
  | 0, _, count => count
  | fuel + 1, p, count =>
    if p < s.length ∧ s.getD p 0 ≥ 0x20 then
      if s.getD p 0 = 47 then
        let p1 := p + 1
        if p1 ≥ s.length ∨ s.getD p1 0 < 0x20 then count
        else if s.getD p1 0 = 91 then
          countLoop s fuel (scanUntil s 93 s.length p1) count
        else
          let q := scanUntil s 47 s.length p1
          if p1 = q then countLoop s fuel p1 count
          else countLoop s fuel q (count + 1)
      else countLoop s fuel (p + 1) count
    else count

/-- Second loop of `parseCandidates` (lines 47 to 77): materialises the candidates. -/
def collectLoop (s : Str) : Nat → Nat → List Candidate → List Candidate
  | 0, _, candidates => candidates
  | fuel + 1, p, candidates =>
    if p < s.length ∧ s.getD p 0 ≥ 0x20 then
      if s.getD p 0 = 47 then
        let p1 := p + 1
        if p1 ≥ s.length ∨ s.getD p1 0 < 0x20 then candidates
        else if s.getD p1 0 = 91 then
          collectLoop s fuel (scanUntil s 93 s.length p1) candidates
        else
          let q := scanUntil s 47 s.length p1
          if p1 = q then collectLoop s fuel p1 candidates
          else
            let r := cut (slice s p1 q) 59
            collectLoop s fuel q (candidates ++ [⟨r.1, r.2.1⟩])
      else collectLoop s fuel (p + 1) candidates
    else candidates

set_option linter.unusedVariables false in
/-- The function `parseCandidates` of `candidate.go`.  A `nil` result is the empty list. -/
def parseCandidates (midashi : Str) (s : Str) : List Candidate :=
  if countLoop s (s.length + 1) 0 0 = 0 then []
  else collectLoop s (s.length + 1) 0 []

/-- The method `(*Candidate).String`. -/
def Candidate.String (c : Candidate) : Str :=
  if c.Annotation = [] then c.Text else c.Text ++ [59] ++ c.Annotation

/-- The method `(*Candidate).joinAnnotation`; returns the updated candidate. -/
def Candidate.joinAnnotation (c : Candidate) ( annotation delimiter : Str) : Candidate :=
  if annotation = [] then c
  else if c.Annotation = [] then { c with Annotation := annotation }
  else if c.Annotation ≠ annotation then
    { c with Annotation := c.Annotation ++ (delimiter ++ annotation) }
  else c

/-- The writes of the `for` loop in `joinCandidates`: a `/` and the candidate, for each. -/
def joinLoop : List Candidate → Str
  | [] => []
  | c :: rest => [47] ++ c.String ++ joinLoop rest

/-- The function `joinCandidates` of `skkdic.go`. -/
def joinCandidates (candidates : List Candidate) : Str :=
  if candidates.length = 0 then [47, 47]
  else joinLoop candidates ++ [47]

/-- The bytes of an ASCII literal, for writing examples. -/
def ascii (s : String) : Str := s.toList.map Char.toNat

/-- The decoder as a function of the input that is still to be read: what the
second loop of `parseCandidates` appends from a position on, given the bytes from
that position.  It is used to reason about the index-based loops, to which it is
related by `collectLoop_eq` and `countLoop_eq`. -/
def parseRest : Str → List Candidate
  | [] => []
  | c :: r =>
    if c < 0x20 then []
    else if c = 47 then
      match r with
      | [] => []
      | d :: r' =>
        if d < 0x20 then []
        else if d = 91 then parseRest ((d :: r').dropWhile (· ≠ 93))
        else if d = 47 then parseRest (d :: r')
        else
          ⟨(cut ((d :: r').takeWhile (· ≠ 47)) 59).1, (cut ((d :: r').takeWhile (· ≠ 47)) 59).2.1⟩
            :: parseRest ((d :: r').dropWhile (· ≠ 47))
    else parseRest r
termination_by s => s.length
decreasing_by
  all_goals simp_wf
  · have := (List.dropWhile_sublist (l := d :: r') (fun x => !decide (x = 93))).length_le
    simp only [List.length_cons] at this
    omega
  · have := (List.dropWhile_sublist (l := d :: r') (fun x => !decide (x = 47))).length_le
    simp only [List.length_cons] at this
    omega

/-- A candidate that the line format can carry: its text is not empty, has no `/`,
no `;` and no control byte and does not open a skip block; its annotation has no
`/` and no control byte. -/
def Candidate.wellFormed (c : Candidate) : Prop :=
  c.Text ≠ [] ∧ (∀ b ∈ c.Text, b ≠ 47 ∧ b ≠ 59 ∧ 32 ≤ b) ∧ c.Text.head? ≠ some 91
    ∧ ∀ b ∈ c.Annotation, b ≠ 47 ∧ 32 ≤ b

instance (c : Candidate) : Decidable c.wellFormed := by
  unfold Candidate.wellFormed; infer_instance

/-- The longest prefix of `s` that has no byte below `0x20`. -/
def ctlFreePrefix (s : Str) : Str := s.takeWhile (fun b => decide (32 ≤ b))

/-! ### The classifier (`utils.go`) -/

/-- The constant `utf8.RuneError`, U+FFFD. -/
def RuneError : Nat := 0xFFFD

/-- Size in bytes of the encoding that the lead byte `s0` (from `0xC2` to `0xF4`)
announces: the low bits of the entry of the library's table `first`. -/
def leadSize (s0 : Nat) : Nat := if s0 < 0xE0 then 2 else if s0 < 0xF0 then 3 else 4

/-- Lowest second byte accepted after the lead byte `s0`: the library's `acceptRanges`. -/
def acceptLo (s0 : Nat) : Nat := if s0 = 0xE0 then 0xA0 else if s0 = 0xF0 then 0x90 else 0x80

/-- Highest second byte accepted after the lead byte `s0`: the library's `acceptRanges`. -/
def acceptHi (s0 : Nat) : Nat := if s0 = 0xED then 0x9F else if s0 = 0xF4 then 0x8F else 0xBF

/-- The function `utf8.DecodeRuneInString` of the Go standard library: the first
code point of `s` and its width in bytes; `(RuneError, 0)` for the empty string
and `(RuneError, 1)` for an invalid encoding. -/
def DecodeRuneInString (s : Str) : Nat × Nat :=
  match s with
  | [] => (RuneError, 0)
  | s0 :: t =>
    if s0 < 0x80 then (s0, 1)
    else if s0 < 0xC2 ∨ 0xF4 < s0 then (RuneError, 1)
    else
      let sz := leadSize s0
      if s.length < sz then (RuneError, 1)
      else
        let s1 := t.getD 0 0
        if s1 < acceptLo s0 ∨ acceptHi s0 < s1 then (RuneError, 1)
        else if sz ≤ 2 then ((s0 % 32) * 64 + s1 % 64, 2)
        else
          let s2 := t.getD 1 0
          if s2 < 0x80 ∨ 0xBF < s2 then (RuneError, 1)
          else if sz ≤ 3 then ((s0 % 16) * 4096 + (s1 % 64) * 64 + s2 % 64, 3)
          else
            let s3 := t.getD 2 0
            if s3 < 0x80 ∨ 0xBF < s3 then (RuneError, 1)
            else ((s0 % 8) * 262144 + (s1 % 64) * 4096 + (s2 % 64) * 64 + s3 % 64, 4)

/-- The loop `for _, r := range s { if r >= 'a' && r <= 'z' { return true } }` followed
by `return false`: a `range` over a string decodes one code point after the
other, as `DecodeRuneInString` does. -/
def rangeLower : Nat → Str → Bool
  | 0, _ => false
  | fuel + 1, s =>
    if s.length = 0 then false
    else
      let rn := DecodeRuneInString s
      if 97 ≤ rn.1 ∧ rn.1 ≤ 122 then true
      else rangeLower fuel (s.drop rn.2)

/-- The function `isOkuriAri` of `utils.go`. -/
def isOkuriAri (s : Str) : Bool :=
  let rn := DecodeRuneInString s
  if rn.2 = 0 then false
  else
    let s := if rn.1 = 62 ∨ rn.1 = 35 then s.drop rn.2 else s
    let rn := DecodeRuneInString s
    if rn.2 = 0 then false
    else if rn.1 ≤ 127 then false
    else rangeLower s.length s

/-- The headword without one leading marker `>` or `#`, if it has one. -/
def stripMarker (s : Str) : Str :=
  if s.head? = some 62 ∨ s.head? = some 35 then s.tail else s

/-- The characters (code points) of a string, read one after the other. -/
def runes : Nat → Str → List Nat
  | 0, _ => []
  | fuel + 1, s =>
    if s.length = 0 then []
    else (DecodeRuneInString s).1 :: runes fuel (s.drop (DecodeRuneInString s).2)

/-- The characters of a string. -/
def characters (s : Str) : List Nat := runes s.length s

/-! ### Entries (`entry.go`) -/

/-- The struct `entry` of `entry.go`.  The map `andSet` is `none` when it is `nil`,
and otherwise the list of its keys. -/
structure entry where
  Midashi : Str
  Candidates : List Candidate
  andSet : Option (List Str)
deriving DecidableEq, Repr

/-- The method `(*entry).IsOkuriAri`. -/
def entry.IsOkuriAri (e : entry) : Bool := isOkuriAri e.Midashi

/-- The loop of `(*entry).addCandidate` over the candidates of the entry, and the
`append` that follows it when no candidate has the text of `c`. -/
def addCandidateLoop (c : Candidate) (delimiter : Str) : List Candidate → List Candidate
  | [] => [c]
  | candidate :: rest =>
    if candidate.Text = c.Text then candidate.joinAnnotation c.Annotation delimiter :: rest
    else candidate :: addCandidateLoop c delimiter rest

/-- The method `(*entry).addCandidate`. -/
def entry.addCandidate (e : entry) (c : Candidate) (delimiter : Str) : entry :=
  { e with Candidates := addCandidateLoop c delimiter e.Candidates }

/-- The method `(*entry).removeCandidateAt`. -/
def entry.removeCandidateAt (e : entry) (i : Int) : entry :=
  if i < 0 ∨ i ≥ e.Candidates.length then e
  else { e with Candidates := e.Candidates.take i.toNat ++ e.Candidates.drop (i.toNat + 1) }

/-- The loop of `(*entry).removeCandidate`: `cs` is what remains to be visited of
the candidates and `i` the index of its head. -/
def removeCandidateLoop (e : entry) (candidate : Candidate) : List Candidate → Nat → entry
  | [], _ => e
  | c :: rest, i =>
    if c.Text = candidate.Text then e.removeCandidateAt (Int.ofNat i)
    else removeCandidateLoop e candidate rest (i + 1)

/-- The method `(*entry).removeCandidate`. -/
def entry.removeCandidate (e : entry) (candidate : Candidate) : entry :=
  removeCandidateLoop e candidate e.Candidates 0

/-- The statement `e.andSet[text] = struct{}{}`, after the lazy creation of the map. -/
def andSetInsert (m : Option (List Str)) (text : Str) : Option (List Str) :=
  match m with
  | none => some [text]
  | some keys => if text ∈ keys then some keys else some (keys ++ [text])

/-- The loop of `(*entry).andCandidate`. -/
def andCandidateLoop (e : entry) (c : Candidate) : List Candidate → entry
  | [] => e
  | candidate :: rest =>
    if candidate.Text = c.Text then { e with andSet := andSetInsert e.andSet candidate.Text }
    else andCandidateLoop e c rest

/-- The method `(*entry).andCandidate`. -/
def entry.andCandidate (e : entry) (c : Candidate) : entry :=
  andCandidateLoop e c e.Candidates

/-- The lookup `_, ok := e.andSet[text]`; a `nil` map has no key. -/
def andSetHas (m : Option (List Str)) (text : Str) : Bool :=
  match m with
  | none => false
  | some keys => decide (text ∈ keys)

/-- The loop `for i := 0; i < len(e.Candidates); { ... }` of `(*entry).clean`. -/
def cleanLoop : Nat → entry → Nat → entry
  | 0, e, _ => e
  | fuel + 1, e, i =>
    if i < e.Candidates.length then
      let c := e.Candidates.getD i ⟨[], []⟩
      if andSetHas e.andSet c.Text then cleanLoop fuel e (i + 1)
      else cleanLoop fuel (e.removeCandidateAt (Int.ofNat i)) i
    else e

/-- The method `(*entry).clean`. -/
def entry.clean (e : entry) : entry :=
  { cleanLoop e.Candidates.length e 0 with andSet := none }

/-- Comparison of Go strings with `<`: lexicographic on the bytes. -/
def strLt : Str → Str → Bool
  | [], [] => false
  | [], _ :: _ => true
  | _ :: _, [] => false
  | a :: as, b :: bs => if a < b then true else if b < a then false else strLt as bs

/-- The function `lessEntry`. -/
def lessEntry (a b : entry) : Bool := strLt a.Midashi b.Midashi

/-- The function `lessEntryReverse`. -/
def lessEntryReverse (a b : entry) : Bool := strLt b.Midashi a.Midashi

/-! ### The ordered store (`btree.BTreeG[*entry]`) -/

/-- A `btree.BTreeG[*entry]` built by `btree.NewG(2, less)`: its items, in
ascending order of `less`.  The package is external; the operations below follow
its documented contract. -/
structure BTree (less : entry → entry → Bool) where
  items : List entry

/-- Two items are the same key for the tree when neither is less than the other. -/
def sameKey (less : entry → entry → Bool) (a b : entry) : Bool := !less a b && !less b a

/-- `tree.Get(key)`: the item of the tree with the key of `key`, if there is one. -/
def BTree.Get {less : entry → entry → Bool} (tree : BTree less) (key : entry) : Option entry :=
  tree.items.find? (fun x => sameKey less x key)

/-- The items after `tree.ReplaceOrInsert(item)`. -/
def insertItem (less : entry → entry → Bool) (item : entry) : List entry → List entry
  | [] => [item]
  | x :: xs =>
    if less item x then item :: x :: xs
    else if less x item then x :: insertItem less item xs
    else item :: xs

/-- `tree.ReplaceOrInsert(item)`. -/
def BTree.ReplaceOrInsert {less : entry → entry → Bool} (tree : BTree less) (item : entry) :
    BTree less :=
  ⟨insertItem less item tree.items⟩

/-- `tree.Delete(key)`. -/
def BTree.Delete {less : entry → entry → Bool} (tree : BTree less) (key : entry) : BTree less :=
  ⟨tree.items.eraseP (fun x => sameKey less x key)⟩

/-- The items after a write through the pointer that `Get` returned. -/
def replaceItem (less : entry → entry → Bool) (ce : entry) : List entry → List entry
  | [] => []
  | x :: xs => if sameKey less x ce then ce :: xs else x :: replaceItem less ce xs

/-- The tree after the entry `ce`, held by the tree through a pointer, was mutated:
the item with the key of `ce` now reads `ce`. -/
def BTree.store {less : entry → entry → Bool} (tree : BTree less) (ce : entry) : BTree less :=
  ⟨replaceItem less ce tree.items⟩

/-! ### The dictionary (`skkdic.go`) -/

/-- The struct `Dictionary`: the delimiter and the two trees, built by
`btree.NewG(2, lessEntryReverse)` and `btree.NewG(2, lessEntry)`. -/
structure Dictionary where
  delimiter : Str
  okuriAriEntries : BTree lessEntryReverse
  okuriNashiEntries : BTree lessEntry

/-- The function `New`; each option `WithAnnotationDelimiter(d)` is given by its `d`. -/
def New (opts : List Str) : Dictionary :=
  { delimiter := opts.foldl (fun _ d => d) [44]
    okuriAriEntries := ⟨[]⟩
    okuriNashiEntries := ⟨[]⟩ }

/-- The type `MergeMode`, an `int`. -/
abbrev MergeMode := Int

/-- The constant `Add`. -/
def MergeMode.Add : MergeMode := 0

/-- The constant `Sub`. -/
def MergeMode.Sub : MergeMode := 1

/-- The constant `And`. -/
def MergeMode.And : MergeMode := 2

/-- The function `parseLine`. -/
def parseLine (s : Str) : Str × List Candidate :=
  let r := cut s 32
  let midashi := r.1
  if !r.2.2 || midashi = [] then ([], [])
  else
    let candidates := parseCandidates midashi r.2.1
    if candidates.length = 0 then ([], [])
    else (midashi, candidates)

/-- The loop `for _, c := range e.Candidates { ce.addCandidate(c, delimiter) }` of
`addEntry`. -/
def addAll (ce : entry) (cs : List Candidate) (delimiter : Str) : entry :=
  cs.foldl (fun ce c => ce.addCandidate c delimiter) ce

/-- The function `addEntry`. -/
def addEntry {less : entry → entry → Bool} (tree : BTree less) (e : entry) (delimiter : Str) :
    BTree less :=
  match tree.Get e with
  | some ce => tree.store (addAll ce e.Candidates delimiter)
  | none =>
    let ce : entry := { Midashi := e.Midashi, Candidates := [], andSet := none }
    (tree.ReplaceOrInsert ce).store (addAll ce e.Candidates delimiter)

/-- The loop of `subEntry` when the slice `e.Candidates` has a backing array of its
own, as the slices that `parseCandidates` returns and the ones a caller builds: the
removals from `ce` leave the cells that the loop reads as they are, so the loop
walks the candidates given. The result is the entry after the removals, and whether
the loop ended by deleting it from the tree. -/
def subLoop (ce : entry) : List Candidate → entry × Bool
  | [] => (ce, false)
  | c :: rest =>
    let ce := ce.removeCandidate c
    if ce.Candidates.length = 0 then (ce, true) else subLoop ce rest

/-- The function `subEntry`, for an `e.Candidates` with a backing array of its own. -/
def subEntry {less : entry → entry → Bool} (tree : BTree less) (e : entry) : BTree less :=
  match tree.Get e with
  | none => tree
  | some ce =>
    let r := subLoop ce e.Candidates
    if r.2 then (tree.store r.1).Delete r.1 else tree.store r.1

/-- The loop of `subEntry` when `e.Candidates` is the slice `ce.Candidates` itself,
which is what `Lookup` returns. `range` fixes the number of iterations at the start
and reads cell `i` of the backing array at iteration `i`; `arr` holds the cells
that the slice spanned at the start. `removeCandidateAt` moves the candidates after
the removed one a cell down in that array and shortens `ce.Candidates` by one, so
the cells past the new length keep what they held. The second argument counts the
iterations left; the cell `i` exists as long as it is not zero, since `arr` keeps
its length. -/
def subLoopShared (ce : entry) (arr : List Candidate) (i : Nat) : Nat → entry × Bool
  | 0 => (ce, false)
  | n + 1 =>
    match arr[i]? with
    | none => (ce, false)
    | some c =>
      let ce := ce.removeCandidate c
      if ce.Candidates.length = 0 then (ce, true)
      else subLoopShared ce (ce.Candidates ++ arr.drop ce.Candidates.length) (i + 1) n

/-- The function `subEntry`, for an `e.Candidates` that is the slice of the stored
entry. -/
def subEntryShared {less : entry → entry → Bool} (tree : BTree less) (e : entry) :
    BTree less :=
  match tree.Get e with
  | none => tree
  | some ce =>
    let r := subLoopShared ce ce.Candidates 0 e.Candidates.length
    if r.2 then (tree.store r.1).Delete r.1 else tree.store r.1

/-- The function `andEntry`. -/
def andEntry {less : entry → entry → Bool} (tree : BTree less) (e : entry) : BTree less :=
  match tree.Get e with
  | none => tree
  | some ce => tree.store (e.Candidates.foldl (fun ce c => ce.andCandidate c) ce)

/-- The function `cleanEntries`: every item is cleaned in place during the
traversal, then the items left without candidate are deleted. -/
def cleanEntries {less : entry → entry → Bool} (tree : BTree less) : BTree less :=
  let cleaned : BTree less := ⟨tree.items.map entry.clean⟩
  let removeEntries := cleaned.items.filter (fun e => e.Candidates.length = 0)
  removeEntries.foldl (fun t e => t.Delete e) cleaned

/-- The `switch mode` of `processCandidates`, on the tree that was chosen. -/
def mergeEntry {less : entry → entry → Bool} (tree : BTree less) (e : entry) (mode : MergeMode)
    (delimiter : Str) : BTree less :=
  if mode = MergeMode.Sub then subEntry tree e
  else if mode = MergeMode.And then andEntry tree e
  else addEntry tree e delimiter

/-- The method `(*Dictionary).processCandidates`. -/
def Dictionary.processCandidates (dic : Dictionary) (midashi : Str)
    (candidates : List Candidate) (mode : MergeMode) : Dictionary :=
  if midashi = [] ∨ candidates.length = 0 then dic
  else
    let e : entry := { Midashi := midashi, Candidates := candidates, andSet := none }
    if e.IsOkuriAri then
      { dic with okuriAriEntries := mergeEntry dic.okuriAriEntries e mode dic.delimiter }
    else
      { dic with okuriNashiEntries := mergeEntry dic.okuriNashiEntries e mode dic.delimiter }

/-- The method `(*Dictionary).AddCandidates`. -/
def Dictionary.AddCandidates (dic : Dictionary) (midashi : Str) (candidates : List Candidate) :
    Dictionary :=
  dic.processCandidates midashi candidates MergeMode.Add

/-- The method `(*Dictionary).SubCandidates`, for candidates in a backing array that
is not the one of the stored list (`Dictionary.SubLookup` is the other case). -/
def Dictionary.SubCandidates (dic : Dictionary) (midashi : Str) (candidates : List Candidate) :
    Dictionary :=
  dic.processCandidates midashi candidates MergeMode.Sub

/-- The method `(*Dictionary).AndCandidates`. -/
def Dictionary.AndCandidates (dic : Dictionary) (midashi : Str) (candidates : List Candidate) :
    Dictionary :=
  dic.processCandidates midashi candidates MergeMode.And

/-- The method `(*Dictionary).RemoveCandidates`. -/
def Dictionary.RemoveCandidates (dic : Dictionary) (midashi : Str) : Dictionary :=
  if isOkuriAri midashi then
    { dic with okuriAriEntries := dic.okuriAriEntries.Delete ⟨midashi, [], none⟩ }
  else
    { dic with okuriNashiEntries := dic.okuriNashiEntries.Delete ⟨midashi, [], none⟩ }

/-- The method `(*Dictionary).Lookup`; `none` is the `nil` returned when the
headword is not found. -/
def Dictionary.Lookup (dic : Dictionary) (midashi : Str) : Option (List Candidate) :=
  if isOkuriAri midashi then
    (dic.okuriAriEntries.Get ⟨midashi, [], none⟩).map (·.Candidates)
  else
    (dic.okuriNashiEntries.Get ⟨midashi, [], none⟩).map (·.Candidates)

/-- The call `dic.SubCandidates(midashi, dic.Lookup(midashi))`: `Lookup` returns the
slice of the stored entry, not a copy, and `processCandidates` hands it on as
`e.Candidates`, so `subEntry` removes from the slice that it ranges over. -/
def Dictionary.SubLookup (dic : Dictionary) (midashi : Str) : Dictionary :=
  match dic.Lookup midashi with
  | none => dic
  | some candidates =>
    if midashi = [] ∨ candidates.length = 0 then dic
    else
      let e : entry := { Midashi := midashi, Candidates := candidates, andSet := none }
      if e.IsOkuriAri then
        { dic with okuriAriEntries := subEntryShared dic.okuriAriEntries e }
      else
        { dic with okuriNashiEntries := subEntryShared dic.okuriNashiEntries e }

/-- One line of the loop of `Read`: `parseLine`, then `processCandidates`. -/
def Dictionary.mergeLine (dic : Dictionary) (line : Str) (mode : MergeMode) : Dictionary :=
  dic.processCandidates (parseLine line).1 (parseLine line).2 mode

/-- The cleanup pass that `Read` runs after its loop when the mode is `And`. -/
def Dictionary.cleanup (dic : Dictionary) : Dictionary :=
  { dic with
    okuriAriEntries := cleanEntries dic.okuriAriEntries
    okuriNashiEntries := cleanEntries dic.okuriNashiEntries }

/-- The operations that change a dictionary. -/
inductive Op where
  | AddCandidates (midashi : Str) (candidates : List Candidate)
  | SubCandidates (midashi : Str) (candidates : List Candidate)
  | SubLookup (midashi : Str)
  | AndCandidates (midashi : Str) (candidates : List Candidate)
  | RemoveCandidates (midashi : Str)
  | mergeLine (line : Str) (mode : MergeMode)
  | cleanup

/-- The dictionary after one operation. -/
def Dictionary.apply (dic : Dictionary) : Op → Dictionary
  | .AddCandidates m cs => dic.AddCandidates m cs
  | .SubCandidates m cs => dic.SubCandidates m cs
  | .SubLookup m => dic.SubLookup m
  | .AndCandidates m cs => dic.AndCandidates m cs
  | .RemoveCandidates m => dic.RemoveCandidates m
  | .mergeLine line mode => dic.mergeLine line mode
  | .cleanup => dic.cleanup

/-- The dictionaries that a program can hold: the one returned by `New`, and what
the operations make of it. -/
inductive Reachable : Dictionary → Prop where
  | new (opts : List Str) : Reachable (New opts)
  | step (dic : Dictionary) (op : Op) : Reachable dic → Reachable (dic.apply op)

/-- The texts of a list of candidates, in order. -/
def texts (cs : List Candidate) : List Str := cs.map (·.Text)

/-- The texts of `ts` that are not in `seen`, each once, in the order of their
first occurrence in `ts`. -/
def firstSeen (seen : List Str) : List Str → List Str
  | [] => []
  | t :: ts => if t ∈ seen then firstSeen seen ts else t :: firstSeen (t :: seen) ts

/-- What an item of a reachable tree satisfies: at least one candidate, no text
twice, and a headword of the class `P` of the tree. -/
def entry.Good (P : Str → Prop) (e : entry) : Prop :=
  e.Candidates ≠ [] ∧ (texts e.Candidates).Nodup ∧ P e.Midashi

/-- What the trees of a reachable dictionary satisfy: no two items with the same
headword, and every item good. -/
def TreeInv {less : entry → entry → Bool} (P : Str → Prop) (tree : BTree less) : Prop :=
  (tree.items.map (·.Midashi)).Nodup ∧ ∀ e ∈ tree.items, e.Good P

/-- The invariant of a dictionary: `TreeInv` for both trees, every item in the tree
of its class. -/
def Dictionary.Inv (dic : Dictionary) : Prop :=
  TreeInv (fun m => isOkuriAri m = true) dic.okuriAriEntries
    ∧ TreeInv (fun m => isOkuriAri m = false) dic.okuriNashiEntries

/-- What the trees need of their comparator: two items are the same key exactly
when they have the same headword. -/
def KeyLaw (less : entry → entry → Bool) : Prop :=
  ∀ a b : entry, sameKey less a b = true ↔ a.Midashi = b.Midashi

/-- The dictionary after a sequence of operations on the one that `New` returns. -/
def run (opts : List Str) (ops : List Op) : Dictionary :=
  ops.foldl Dictionary.apply (New opts)

/-! ### Writing, reading and completion (`skkdic.go`) -/

/-- The type `Encoding`, a string. -/
abbrev Encoding := Str

/-- The method `Encoding.isValid`. -/
def Encoding.isValid (e : Encoding) : Bool :=
  decide (e = ascii "euc-jp" ∨ e = ascii "euc-jis-2004" ∨ e = ascii "shift_jis"
    ∨ e = ascii "iso-2022-jp" ∨ e = ascii "utf-8")

/-- The encoding that `Write` announces: `utf-8`, or the last valid one of the
options `WithOutputEncoding(e)`, each given by its `e`. -/
def writeEncoding (opts : List Encoding) : Encoding :=
  opts.foldl (fun cur e => if Encoding.isValid e then e else cur) (ascii "utf-8")

/-- The function `writeEntry`, on a writer that accepts every write: the bytes written. -/
def writeEntry (e : entry) : Str :=
  e.Midashi ++ [32] ++ joinCandidates e.Candidates ++ [10]

/-- The traversal `tree.Ascend` with `writeEntry` as visitor, over the items in order. -/
def writeEntries : List entry → Str
  | [] => []
  | e :: rest => writeEntry e ++ writeEntries rest

/-- The encodings of the package `japanese` of `golang.org/x/text` that `toEncoding`
returns. -/
inductive japanese where
  | EUCJP
  | ShiftJIS
  | ISO2022JP
deriving DecidableEq

/-- The method `Encoding.toEncoding`; `none` is `nil`. -/
def Encoding.toEncoding (e : Encoding) : Option japanese :=
  if e = ascii "euc-jp" ∨ e = ascii "euc-jis-2004" then some japanese.EUCJP
  else if e = ascii "shift_jis" then some japanese.ShiftJIS
  else if e = ascii "iso-2022-jp" then some japanese.ISO2022JP
  else none

/-- The method `(*Dictionary).Write` on a writer `w` that accepts every write: the
bytes that `w` has received when `Write` returns `nil`, and `none` when `Write`
returns an error. The options are given by the `e` of each `WithOutputEncoding(e)`.
The encoders are not part of this package, so they are an argument: `encoder enc text`
is what `transform.NewWriter(w, enc.NewEncoder())` has written to `w` once `text` has
gone through it, and `none` when it reports an error, the only one that can reach
`Write` on such a writer. Without encoder (`enc == nil`) the text goes to `w` as it
is. -/
def Dictionary.Write (dic : Dictionary) (encoder : japanese → Str → Option Str)
    (opts : List Encoding) : Option Str :=
  let text := ascii ";; -*- coding: " ++ writeEncoding opts ++ ascii " -*-\n"
    ++ ascii ";; okuri-ari entries.\n" ++ writeEntries dic.okuriAriEntries.items
    ++ ascii ";; okuri-nasi entries.\n" ++ writeEntries dic.okuriNashiEntries.items
  match Encoding.toEncoding (writeEncoding opts) with
  | none => some text
  | some enc => encoder enc text

/-- The call `b.ReadBytes(10)` on a reader that holds `input`: the bytes up to the
first newline, which is included, and whether the error is `io.EOF`, that is
whether the input ended before a newline was found. -/
def readBytesLine (input : Str) : Str × Bool :=
  if 10 ∈ input then (input.takeWhile (fun b => decide (b ≠ 10)) ++ [10], false)
  else (input, true)

/-- The helper `dropCR` of `bufio.ScanLines`: one trailing carriage return is dropped. -/
def dropCR (line : Str) : Str :=
  if line.getLast? = some 13 then line.dropLast else line

/-- The constant `bufio.MaxScanTokenSize`, the largest buffer of a `bufio.Scanner`
made by `bufio.NewScanner`. -/
def MaxScanTokenSize : Nat := 64 * 1024

/-- The lines that a `bufio.Scanner` returns for `data`, read from a reader that
reports the end of its input after the last bytes: the text between the newlines
without a trailing carriage return, and what follows the last newline when it is
not empty. The scanner stops for good (`Scan` returns false with `ErrTooLong`,
which `Read` never looks at) when its buffer of `MaxScanTokenSize` bytes is full
and holds no newline, that is when the next `MaxScanTokenSize` bytes hold none. -/
def scanLines : Nat → Str → List Str
  | 0, _ => []
  | fuel + 1, data =>
    if data.length = 0 then []
    else if MaxScanTokenSize ≤ (data.takeWhile (fun b => decide (b ≠ 10))).length then []
    else
      dropCR (data.takeWhile (fun b => decide (b ≠ 10)))
        :: scanLines fuel ((data.dropWhile (fun b => decide (b ≠ 10))).drop 1)

/-- The body of the loop `for s.Scan()` of `Read`, for one line. -/
def readLine (mode : MergeMode) (dic : Dictionary) (line : Str) : Dictionary :=
  if line.length > 0 ∧ line.head? = some 59 then dic
  else dic.mergeLine line mode

/-- The method `(*Dictionary).Read` with no option (encoding `Auto`), on a reader
that does not fail and whose first line holds no coding declaration
(`extractEncoding` returns `nil`, so nothing is transcoded). -/
def Dictionary.Read (dic : Dictionary) (input : Str) (mode : MergeMode) : Dictionary :=
  if (readBytesLine input).2 then dic
  else
    let dic := (scanLines (input.length + 1) input).foldl (readLine mode) dic
    if mode = MergeMode.And then dic.cleanup else dic

/-- The function `strings.HasPrefix`. -/
def HasPrefix : Str → Str → Bool
  | _, [] => true
  | [], _ :: _ => false
  | a :: s, b :: p => decide (a = b) && HasPrefix s p

/-- The string `string(unicode.MaxRune)`: U+10FFFF in UTF-8. -/
def MaxRune : Str := [0xF4, 0x8F, 0xBF, 0xBF]

/-- The traversal `AscendRange(ge, lt, iterator)` of `Complete` over the items in
order: the items less than `ge` are passed over, the traversal ends at the first
item not less than `lt` or refused by the iterator, and the headwords accepted
are collected. -/
def completeLoop (midashi : Str) (ge lt : entry) : List entry → List Str
  | [] => []
  | e :: rest =>
    if lessEntry e ge then completeLoop midashi ge lt rest
    else if !lessEntry e lt then []
    else if HasPrefix e.Midashi midashi then e.Midashi :: completeLoop midashi ge lt rest
    else []

/-- The method `(*Dictionary).Complete`. -/
def Dictionary.Complete (dic : Dictionary) (midashi : Str) : List Str :=
  completeLoop midashi ⟨midashi, [], none⟩ ⟨midashi ++ MaxRune, [], none⟩
    dic.okuriNashiEntries.items

/-- The lines of a source merged in order, as the loop of `Read` does with the
lines that are not comments. -/
def Dictionary.mergeLines (dic : Dictionary) (lines : List Str) (mode : MergeMode) : Dictionary :=
  lines.foldl (fun dic line => dic.mergeLine line mode) dic

/-- No entry of the dictionary holds a mark of an intersection. -/
def Dictionary.noMarks (dic : Dictionary) : Prop :=
  (∀ e ∈ dic.okuriAriEntries.items, e.andSet.getD [] = [])
    ∧ (∀ e ∈ dic.okuriNashiEntries.items, e.andSet.getD [] = [])

instance (dic : Dictionary) : Decidable dic.noMarks := by
  unfold Dictionary.noMarks; infer_instance

/-- Some line of the source has the headword `h` and a candidate with the text `t`. -/
def mentioned (lines : List Str) (h t : Str) : Prop :=
  ∃ line ∈ lines, (parseLine line).1 = h ∧ t ∈ texts (parseLine line).2

instance (lines : List Str) (h t : Str) : Decidable (mentioned lines h t) := by
  unfold mentioned; infer_instance

/-- The entries that the lines of a source hand to the tree of the class `cls`. -/
def entriesOf (cls : Bool) : List Str → List entry
  | [] => []
  | line :: rest =>
    if (parseLine line).1 = [] ∨ (parseLine line).2.length = 0 then entriesOf cls rest
    else if isOkuriAri (parseLine line).1 = cls then
      ⟨(parseLine line).1, (parseLine line).2, none⟩ :: entriesOf cls rest
    else entriesOf cls rest

/-- What the trees need of their comparator to keep their items in order: it
compares the headwords by the relation `R`, which is transitive and irreflexive. -/
def SortLaw (less : entry → entry → Bool) (R : Str → Str → Prop) : Prop :=
  (∀ a b : entry, less a b = true ↔ R a.Midashi b.Midashi)
    ∧ (∀ a b c : Str, R a b → R b c → R a c) ∧ (∀ a : Str, ¬ R a a)

/-- The headwords of the items of a tree are in the order `R`, each before all the
ones that follow it. -/
def TreeSorted {less : entry → entry → Bool} (R : Str → Str → Prop) (tree : BTree less) : Prop :=
  (tree.items.map (·.Midashi)).Pairwise R

/-- The order of a dictionary: the okuri-ari headwords strictly descending, the
okuri-nashi headwords strictly ascending. -/
def Dictionary.Sorted (dic : Dictionary) : Prop :=
  TreeSorted (fun a b => strLt b a = true) dic.okuriAriEntries
    ∧ TreeSorted (fun a b => strLt a b = true) dic.okuriNashiEntries

end Skkdic

/-! ## The candidate codec -/

namespace Skkdic

theorem drop_eq_getD_cons (s : Str) (q : Nat) (hq : q < s.length) :
    s.drop q = s.getD q 0 :: s.drop (q + 1) := by
  rw [List.drop_eq_getElem_cons hq, List.getD_eq_getElem?_getD, List.getElem?_eq_getElem hq]
  rfl

theorem scanUntil_eq (s : Str) (c : Nat) :
    ∀ (fuel q : Nat), s.length - q ≤ fuel →
      scanUntil s c fuel q = q + ((s.drop q).takeWhile (· ≠ c)).length := by
  intro fuel
  induction fuel with
  | zero =>
    intro q h
    have : s.drop q = [] := List.drop_eq_nil_of_le (by omega)
    simp [scanUntil, this]
  | succ n ih =>
    intro q h
    unfold scanUntil
    by_cases hq : q < s.length
    · have hd := drop_eq_getD_cons s q hq
      generalize s.getD q 0 = b at hd ⊢
      by_cases hc : b = c
      · rw [if_neg (by simp [hc]), hd, List.takeWhile_cons]
        simp [hc]
      · rw [if_pos ⟨hq, hc⟩, ih (q + 1) (by omega), hd, List.takeWhile_cons]
        simp only [ne_eq, hc, not_false_eq_true, decide_True, if_true, List.length_cons]
        omega
    · have : s.drop q = [] := List.drop_eq_nil_of_le (by omega)
      simp [hq, this]

theorem take_length_takeWhile {α : Type} (p : α → Bool) (l : List α) :
    l.take (l.takeWhile p).length = l.takeWhile p := by
  induction l with
  | nil => rfl
  | cons a l ih =>
    by_cases h : p a
    · simp [List.takeWhile_cons, h, ih]
    · simp [List.takeWhile_cons, h]

theorem drop_length_takeWhile {α : Type} (p : α → Bool) (l : List α) :
    l.drop (l.takeWhile p).length = l.dropWhile p := by
  induction l with
  | nil => rfl
  | cons a l ih =>
    by_cases h : p a
    · simp [List.takeWhile_cons, List.dropWhile_cons, h, ih]
    · simp [List.takeWhile_cons, List.dropWhile_cons, h]

theorem slice_scan (s : Str) (q : Nat) (f : Nat → Bool) :
    slice s q (q + ((s.drop q).takeWhile f).length) = (s.drop q).takeWhile f := by
  unfold slice
  rw [List.drop_take, Nat.add_sub_cancel_left, take_length_takeWhile]

theorem drop_scan (s : Str) (q : Nat) (f : Nat → Bool) :
    s.drop (q + ((s.drop q).takeWhile f).length) = (s.drop q).dropWhile f := by
  rw [← drop_length_takeWhile, List.drop_drop, Nat.add_comm]

theorem parseRest_nil : parseRest [] = [] := by
  rw [parseRest]

theorem parseRest_ctl (c : Nat) (r : Str) (h : c < 32) : parseRest (c :: r) = [] := by
  cases r <;> (rw [parseRest]; simp [h])

theorem parseRest_other (c : Nat) (r : Str) (h : 32 ≤ c) (h47 : c ≠ 47) :
    parseRest (c :: r) = parseRest r := by
  have h32 : ¬ c < 32 := Nat.not_lt.mpr h
  rw [parseRest.eq_def]
  simp only [h32, h47, if_false]

theorem parseRest_slash_nil : parseRest [47] = [] := by
  rw [parseRest]; simp

theorem parseRest_slash_ctl (d : Nat) (r : Str) (h : d < 32) :
    parseRest (47 :: d :: r) = [] := by
  rw [parseRest]; simp [h]

theorem parseRest_slash_skip (r : Str) :
    parseRest (47 :: 91 :: r) = parseRest ((91 :: r).dropWhile (· ≠ 93)) := by
  rw [parseRest]; simp

theorem parseRest_slash_slash (r : Str) :
    parseRest (47 :: 47 :: r) = parseRest (47 :: r) := by
  rw [parseRest]; simp

theorem parseRest_slash_seg (d : Nat) (r : Str) (h : 32 ≤ d) (h91 : d ≠ 91) (h47 : d ≠ 47) :
    parseRest (47 :: d :: r)
      = ⟨(cut ((d :: r).takeWhile (· ≠ 47)) 59).1, (cut ((d :: r).takeWhile (· ≠ 47)) 59).2.1⟩
          :: parseRest ((d :: r).dropWhile (· ≠ 47)) := by
  rw [parseRest]
  simp [h91, h47, Nat.not_lt.mpr h]

theorem collectLoop_eq (s : Str) :
    ∀ (fuel p : Nat) (acc : List Candidate), s.length - p < fuel →
      collectLoop s fuel p acc = acc ++ parseRest (s.drop p) := by
  intro fuel
  induction fuel with
  | zero => intro p acc h; omega
  | succ n ih =>
    intro p acc h
    unfold collectLoop
    by_cases hp : p < s.length
    · have hd := drop_eq_getD_cons s p hp
      generalize s.getD p 0 = b at hd ⊢
      by_cases hb : b < 32
      · rw [if_neg (by omega), hd, parseRest_ctl b _ hb, List.append_nil]
      rw [if_pos ⟨hp, by omega⟩]
      by_cases hs : b = 47
      · subst hs
        rw [if_pos rfl]
        by_cases hp1 : p + 1 < s.length
        · have hd1 := drop_eq_getD_cons s (p + 1) hp1
          have sc93 := scanUntil_eq s 93 s.length (p + 1) (by omega)
          have sc47 := scanUntil_eq s 47 s.length (p + 1) (by omega)
          have dr93 := drop_scan s (p + 1) (· ≠ 93)
          have dr47 := drop_scan s (p + 1) (· ≠ 47)
          have sl47 := slice_scan s (p + 1) (· ≠ 47)
          simp only [] at sc93 sc47 dr93 dr47 sl47 ⊢
          rw [← sc93] at dr93
          rw [← sc47] at dr47 sl47
          generalize scanUntil s 93 s.length (p + 1) = q93 at sc93 dr93 ⊢
          generalize scanUntil s 47 s.length (p + 1) = q47 at sc47 dr47 sl47 ⊢
          rw [hd]
          generalize s.getD (p + 1) 0 = d at hd1 ⊢
          rw [hd1] at dr93 dr47 sl47 sc47 ⊢
          by_cases hdc : d < 32
          · rw [if_pos (Or.inr hdc), parseRest_slash_ctl d _ hdc, List.append_nil]
          rw [if_neg (by omega)]
          by_cases hd91 : d = 91
          · subst hd91
            rw [if_pos rfl, ih q93 acc (by omega), dr93, parseRest_slash_skip]
          rw [if_neg hd91]
          by_cases hd47 : d = 47
          · subst hd47
            have : q47 = p + 1 := by simpa using sc47
            rw [if_pos this.symm, ih (p + 1) acc (by omega), hd1, parseRest_slash_slash]
          · have hq : q47 ≠ p + 1 := by
              rw [sc47, List.takeWhile_cons]
              simp [hd47]
            rw [if_neg (fun h => hq h.symm), ih q47 _ (by omega), dr47, sl47,
              parseRest_slash_seg d _ (by omega) hd91 hd47, List.append_assoc]
            rfl
        · have : s.drop (p + 1) = [] := List.drop_eq_nil_of_le (by omega)
          rw [if_pos (Or.inl (by omega)), hd, this, parseRest_slash_nil, List.append_nil]
      · rw [if_neg hs, ih (p + 1) acc (by omega), hd, parseRest_other b _ (by omega) hs]
    · have : s.drop p = [] := List.drop_eq_nil_of_le (by omega)
      rw [if_neg (fun h => hp h.1), this, parseRest_nil, List.append_nil]

theorem countLoop_eq (s : Str) :
    ∀ (fuel p count : Nat), s.length - p < fuel →
      countLoop s fuel p count = count + (parseRest (s.drop p)).length := by
  intro fuel
  induction fuel with
  | zero => intro p acc h; omega
  | succ n ih =>
    intro p acc h
    unfold countLoop
    by_cases hp : p < s.length
    · have hd := drop_eq_getD_cons s p hp
      generalize s.getD p 0 = b at hd ⊢
      by_cases hb : b < 32
      · rw [if_neg (by omega), hd, parseRest_ctl b _ hb]; rfl
      rw [if_pos ⟨hp, by omega⟩]
      by_cases hs : b = 47
      · subst hs
        rw [if_pos rfl]
        by_cases hp1 : p + 1 < s.length
        · have hd1 := drop_eq_getD_cons s (p + 1) hp1
          have sc93 := scanUntil_eq s 93 s.length (p + 1) (by omega)
          have sc47 := scanUntil_eq s 47 s.length (p + 1) (by omega)
          have dr93 := drop_scan s (p + 1) (· ≠ 93)
          have dr47 := drop_scan s (p + 1) (· ≠ 47)
          simp only [] at sc93 sc47 dr93 dr47 ⊢
          rw [← sc93] at dr93
          rw [← sc47] at dr47
          generalize scanUntil s 93 s.length (p + 1) = q93 at sc93 dr93 ⊢
          generalize scanUntil s 47 s.length (p + 1) = q47 at sc47 dr47 ⊢
          rw [hd]
          generalize s.getD (p + 1) 0 = d at hd1 ⊢
          rw [hd1] at dr93 dr47 sc47 ⊢
          by_cases hdc : d < 32
          · rw [if_pos (Or.inr hdc), parseRest_slash_ctl d _ hdc]; rfl
          rw [if_neg (by omega)]
          by_cases hd91 : d = 91
          · subst hd91
            rw [if_pos rfl, ih q93 acc (by omega), dr93, parseRest_slash_skip]
          rw [if_neg hd91]
          by_cases hd47 : d = 47
          · subst hd47
            have : q47 = p + 1 := by simpa using sc47
            rw [if_pos this.symm, ih (p + 1) acc (by omega), hd1, parseRest_slash_slash]
          · have hq : q47 ≠ p + 1 := by
              rw [sc47, List.takeWhile_cons]
              simp [hd47]
            rw [if_neg (fun h => hq h.symm), ih q47 _ (by omega), dr47,
              parseRest_slash_seg d _ (by omega) hd91 hd47, List.length_cons]
            omega
        · have : s.drop (p + 1) = [] := List.drop_eq_nil_of_le (by omega)
          rw [if_pos (Or.inl (by omega)), hd, this, parseRest_slash_nil]; rfl
      · rw [if_neg hs, ih (p + 1) acc (by omega), hd, parseRest_other b _ (by omega) hs]
    · have : s.drop p = [] := List.drop_eq_nil_of_le (by omega)
      rw [if_neg (fun h => hp h.1), this, parseRest_nil]; rfl

/-- The two passes of `parseCandidates` agree: the result is the decoding of the
whole input, whatever the headword. -/
theorem parseCandidates_eq (midashi s : Str) : parseCandidates midashi s = parseRest s := by
  unfold parseCandidates
  rw [countLoop_eq s _ 0 0 (by omega), collectLoop_eq s _ 0 [] (by omega)]
  simp only [List.drop_zero, Nat.zero_add, List.nil_append]
  split
  · rename_i h
    exact (List.length_eq_zero.mp h).symm
  · rfl

theorem indexByte_none (sep : Nat) (t : Str) (h : ∀ b ∈ t, b ≠ sep) :
    indexByte sep t = none := by
  induction t with
  | nil => rfl
  | cons a t ih =>
    have ha : a ≠ sep := h a (List.mem_cons_self a t)
    simp [indexByte, ha, ih (fun b hb => h b (List.mem_cons_of_mem a hb))]

theorem indexByte_append (sep : Nat) (t r : Str) (h : ∀ b ∈ t, b ≠ sep) :
    indexByte sep (t ++ sep :: r) = some t.length := by
  induction t with
  | nil => simp [indexByte]
  | cons a t ih =>
    have ha : a ≠ sep := h a (List.mem_cons_self a t)
    simp [indexByte, ha, ih (fun b hb => h b (List.mem_cons_of_mem a hb))]

theorem cut_String (c : Candidate) (h : ∀ b ∈ c.Text, b ≠ 59) :
    (cut c.String 59).1 = c.Text ∧ (cut c.String 59).2.1 = c.Annotation := by
  unfold Candidate.String cut
  by_cases ha : c.Annotation = []
  · rw [if_pos ha, indexByte_none 59 _ h]
    exact ⟨rfl, ha.symm⟩
  · rw [if_neg ha, List.append_assoc, List.singleton_append, indexByte_append 59 _ _ h]
    simp

/-- What the decoder needs of a candidate to read its encoding back. -/
theorem parseRest_String (c : Candidate) (rest : Str)
    (hne : c.String ≠ []) (h47 : ∀ b ∈ c.String, b ≠ 47)
    (hhd : ∀ d, c.String.head? = some d → 32 ≤ d ∧ d ≠ 91)
    (h59 : ∀ b ∈ c.Text, b ≠ 59) :
    parseRest (47 :: (c.String ++ 47 :: rest)) = c :: parseRest (47 :: rest) := by
  have hc := cut_String c h59
  generalize c.String = seg at hne h47 hhd hc
  cases seg with
  | nil => exact absurd rfl hne
  | cons d t =>
    have hd := hhd d rfl
    have hd47 : d ≠ 47 := h47 d (List.mem_cons_self d t)
    have htw : List.takeWhile (fun x => decide (x ≠ 47)) (d :: t ++ 47 :: rest) = d :: t := by
      rw [List.takeWhile_append_of_pos (fun a ha => by simpa using h47 a ha)]
      simp
    have hdw : List.dropWhile (fun x => decide (x ≠ 47)) (d :: t ++ 47 :: rest) = 47 :: rest := by
      rw [List.dropWhile_append_of_pos (fun a ha => by simpa using h47 a ha)]
      simp
    rw [List.cons_append] at htw hdw ⊢
    rw [parseRest_slash_seg d _ hd.1 hd.2 hd47, htw, hdw, hc.1, hc.2]

theorem wellFormed_encodable (c : Candidate) (h : c.wellFormed) :
    c.String ≠ [] ∧ (∀ b ∈ c.String, b ≠ 47)
      ∧ (∀ d, c.String.head? = some d → 32 ≤ d ∧ d ≠ 91) ∧ (∀ b ∈ c.Text, b ≠ 59) := by
  obtain ⟨hne, ht, hhd, ha⟩ := h
  obtain ⟨d, t, hdt⟩ := List.exists_cons_of_ne_nil hne
  have hd : 32 ≤ d ∧ d ≠ 91 := by
    refine ⟨(ht d (by simp [hdt])).2.2, fun h91 => hhd ?_⟩
    simp [hdt, h91]
  unfold Candidate.String
  by_cases hA : c.Annotation = []
  · simp only [if_pos hA]
    refine ⟨hne, fun b hb => (ht b hb).1, ?_, fun b hb => (ht b hb).2.1⟩
    intro d' hd'
    rw [hdt] at hd'
    simp at hd'
    exact hd' ▸ hd
  · simp only [if_neg hA]
    refine ⟨by simp, ?_, ?_, fun b hb => (ht b hb).2.1⟩
    · intro b hb
      simp only [List.mem_append, List.mem_singleton] at hb
      rcases hb with (hb | hb) | hb
      · exact (ht b hb).1
      · omega
      · exact (ha b hb).1
    · intro d' hd'
      rw [hdt] at hd'
      simp at hd'
      exact hd' ▸ hd

theorem parseRest_joinLoop (cs : List Candidate) (rest : Str) (h : ∀ c ∈ cs, c.wellFormed) :
    parseRest (joinLoop cs ++ 47 :: rest) = cs ++ parseRest (47 :: rest) := by
  induction cs with
  | nil => rfl
  | cons c cs ih =>
    obtain ⟨h1, h2, h3, h4⟩ := wellFormed_encodable c (h c (List.mem_cons_self c cs))
    have ih' := ih (fun c hc => h c (List.mem_cons_of_mem _ hc))
    cases cs with
    | nil =>
      have := parseRest_String c rest h1 h2 h3 h4
      simpa [joinLoop] using this
    | cons c' cs' =>
      have := parseRest_String c (c'.String ++ joinLoop cs' ++ 47 :: rest) h1 h2 h3 h4
      simp only [joinLoop, List.singleton_append, List.cons_append, List.append_assoc,
        List.nil_append] at this ih' ⊢
      rw [this, ih']

theorem joinCandidates_of_ne_nil (cs : List Candidate) (h : cs ≠ []) :
    joinCandidates cs = joinLoop cs ++ [47] := by
  unfold joinCandidates
  rw [if_neg (by simpa using h)]

theorem parseRest_joinCandidates (cs : List Candidate) (hne : cs ≠ [])
    (h : ∀ c ∈ cs, c.wellFormed) : parseRest (joinCandidates cs) = cs := by
  rw [joinCandidates_of_ne_nil cs hne, parseRest_joinLoop cs [] h, parseRest_slash_nil,
    List.append_nil]

/-- C1 (as stated, refuted): the one candidate with text `a/b` and no annotation is a
non-empty sequence in which no text begins with `[`, yet decoding its encoding
`/a/b/` gives the two candidates `a` and `b`, not the candidate that was encoded. -/
theorem C1_roundtrip_counterexample :
    ([⟨[97, 47, 98], []⟩] : List Candidate) ≠ []
      ∧ (∀ c ∈ ([⟨[97, 47, 98], []⟩] : List Candidate), c.Text.head? ≠ some 91)
      ∧ parseCandidates [] (joinCandidates [⟨[97, 47, 98], []⟩]) = [⟨[97], []⟩, ⟨[98], []⟩]
      ∧ parseCandidates [] (joinCandidates [⟨[97, 47, 98], []⟩]) ≠ [⟨[97, 47, 98], []⟩] := by
  decide

/-- C1 (amended): for every non-empty sequence of candidates whose texts are not
empty, have no `/`, no `;` and no control byte and do not begin with `[`, and whose
annotations have no `/` and no control byte, decoding the encoded sequence gives
back the same candidates in the same order. -/
theorem C1_roundtrip_wellFormed (midashi : Str) (cs : List Candidate) (hne : cs ≠ [])
    (h : ∀ c ∈ cs, c.wellFormed) :
    parseCandidates midashi (joinCandidates cs) = cs := by
  rw [parseCandidates_eq, parseRest_joinCandidates cs hne h]

theorem C1_roundtrip_wellFormed_witness :
    parseCandidates [12354] (joinCandidates [⟨[97], [120, 59, 121]⟩, ⟨[98], []⟩])
      = [⟨[97], [120, 59, 121]⟩, ⟨[98], []⟩] :=
  C1_roundtrip_wellFormed [12354] [⟨[97], [120, 59, 121]⟩, ⟨[98], []⟩] (by decide) (by decide)

/-- C2 (the code at the failing input): on `/a\x01b/` the decoder returns one
candidate whose text `a\x01b` holds the control byte and the `b` after it, while
on the longest prefix without control byte, `/a`, it returns the candidate `a`. -/
theorem C2_control_inside_segment :
    parseCandidates [] [47, 97, 1, 98, 47] = [⟨[97, 1, 98], []⟩]
      ∧ ctlFreePrefix [47, 97, 1, 98, 47] = [47, 97]
      ∧ parseCandidates [] (ctlFreePrefix [47, 97, 1, 98, 47]) = [⟨[97], []⟩] := by
  decide

/-- C3: for non-empty sequences `xs` and `ys` of well-formed candidates and every
skip content `k` without `]`, decoding the encoding of `xs`, the skip block `[k]`
and the encoding of `ys` in a row gives exactly `xs ++ ys`. -/
theorem C3_skip_block_transparent (midashi : Str) (xs ys : List Candidate) (k : Str)
    (hx : xs ≠ []) (hy : ys ≠ [])
    (hxs : ∀ c ∈ xs, c.wellFormed) (hys : ∀ c ∈ ys, c.wellFormed) (hk : ∀ b ∈ k, b ≠ 93) :
    parseCandidates midashi (joinCandidates xs ++ [91] ++ k ++ [93] ++ joinCandidates ys)
      = xs ++ ys := by
  rw [parseCandidates_eq, joinCandidates_of_ne_nil xs hx]
  have e : joinLoop xs ++ [47] ++ [91] ++ k ++ [93] ++ joinCandidates ys
      = joinLoop xs ++ 47 :: (91 :: (k ++ 93 :: joinCandidates ys)) := by simp
  rw [e, parseRest_joinLoop xs _ hxs, parseRest_slash_skip]
  have hdw : List.dropWhile (fun x => decide (x ≠ 93)) (91 :: (k ++ 93 :: joinCandidates ys))
      = 93 :: joinCandidates ys := by
    rw [List.dropWhile_cons, if_pos (by decide),
      List.dropWhile_append_of_pos (fun a ha => by simpa using hk a ha)]
    simp
  rw [hdw, parseRest_other 93 _ (by decide) (by decide), parseRest_joinCandidates ys hy hys]

theorem C3_skip_block_transparent_witness :
    parseCandidates [] (ascii "/a/[skip/content]/b/") = [⟨ascii "a", []⟩, ⟨ascii "b", []⟩] :=
  C3_skip_block_transparent [] [⟨ascii "a", []⟩] [⟨ascii "b", []⟩] (ascii "skip/content")
    (by decide) (by decide) (by decide) (by decide) (by decide)

theorem span_append {α : Type} (p : α → Bool) (l X : List α) (h : ¬ ∀ a ∈ l, p a = true) :
    List.takeWhile p (l ++ X) = List.takeWhile p l
      ∧ List.dropWhile p (l ++ X) = List.dropWhile p l ++ X := by
  induction l with
  | nil => exact absurd (fun a ha => absurd ha (List.not_mem_nil a)) h
  | cons a l ih =>
    by_cases ha : p a = true
    · have h' : ¬ ∀ b ∈ l, p b = true := by
        intro hl
        apply h
        intro b hb
        rcases List.mem_cons.mp hb with rfl | hb
        · exact ha
        · exact hl b hb
      obtain ⟨h1, h2⟩ := ih h'
      simp [List.takeWhile_cons, List.dropWhile_cons, ha, h1, h2]
    · simp [List.takeWhile_cons, List.dropWhile_cons, ha]

theorem parseRest_double_slash (v : Str) :
    ∀ (n : Nat) (u : Str), u.length = n →
      parseRest (u ++ 47 :: 47 :: v) = parseRest (u ++ 47 :: v) := by
  intro n
  induction n using Nat.strong_induction_on with
  | _ n ih =>
    intro u hu
    cases u with
    | nil => exact parseRest_slash_slash v
    | cons c u' =>
      simp only [List.length_cons] at hu
      simp only [List.cons_append]
      by_cases hc : c < 32
      · rw [parseRest_ctl c _ hc, parseRest_ctl c _ hc]
      by_cases h47 : c = 47
      · subst h47
        cases u' with
        | nil =>
          simp only [List.nil_append]
          rw [parseRest_slash_slash, parseRest_slash_slash]
        | cons d u'' =>
          simp only [List.length_cons] at hu
          have hlen : (d :: u'').length < n := by simp only [List.length_cons]; omega
          simp only [List.cons_append]
          by_cases hd : d < 32
          · rw [parseRest_slash_ctl d _ hd, parseRest_slash_ctl d _ hd]
          by_cases hd47 : d = 47
          · subst hd47
            rw [parseRest_slash_slash, parseRest_slash_slash]
            exact ih _ hlen (47 :: u'') rfl
          by_cases hd91 : d = 91
          · subst hd91
            rw [parseRest_slash_skip, parseRest_slash_skip]
            by_cases hall : ∀ a ∈ (91 :: u''), (fun x => decide (x ≠ 93)) a = true
            · rw [← List.cons_append, ← List.cons_append,
                List.dropWhile_append_of_pos hall, List.dropWhile_append_of_pos hall]
              simp [List.dropWhile_cons]
            · obtain ⟨-, h2⟩ := span_append _ (91 :: u'') (47 :: 47 :: v) hall
              obtain ⟨-, h3⟩ := span_append _ (91 :: u'') (47 :: v) hall
              rw [List.cons_append] at h2 h3
              rw [h2, h3]
              have hle := (List.dropWhile_sublist (l := 91 :: u'')
                (fun x => decide (x ≠ 93))).length_le
              exact ih _ (by omega) _ rfl
          · rw [parseRest_slash_seg d _ (by omega) hd91 hd47,
              parseRest_slash_seg d _ (by omega) hd91 hd47]
            by_cases hall : ∀ a ∈ (d :: u''), (fun x => decide (x ≠ 47)) a = true
            · rw [← List.cons_append, ← List.cons_append,
                List.dropWhile_append_of_pos hall, List.dropWhile_append_of_pos hall,
                List.takeWhile_append_of_pos hall, List.takeWhile_append_of_pos hall]
              simp only [List.takeWhile_cons, List.dropWhile_cons, ne_eq, not_true_eq_false,
                decide_False, Bool.false_eq_true, if_false]
              rw [parseRest_slash_slash]
            · obtain ⟨h1, h2⟩ := span_append _ (d :: u'') (47 :: 47 :: v) hall
              obtain ⟨h3, h4⟩ := span_append _ (d :: u'') (47 :: v) hall
              rw [List.cons_append] at h1 h2 h3 h4
              rw [h1, h2, h3, h4]
              have hle := (List.dropWhile_sublist (l := d :: u'')
                (fun x => decide (x ≠ 47))).length_le
              rw [ih _ (by omega) _ rfl]
      · rw [parseRest_other c _ (by omega) h47, parseRest_other c _ (by omega) h47]
        exact ih _ (by omega) u' rfl

/-- C4: doubling a `/` anywhere in the input does not change what is decoded, and
the input `//` decodes to no candidate. -/
theorem C4_empty_segment_tolerance (midashi u v : Str) :
    parseCandidates midashi (u ++ [47, 47] ++ v) = parseCandidates midashi (u ++ [47] ++ v)
      ∧ parseCandidates midashi [47, 47] = [] := by
  refine ⟨?_, ?_⟩
  · rw [parseCandidates_eq, parseCandidates_eq]
    simpa using parseRest_double_slash v u.length u rfl
  · rw [parseCandidates_eq, parseRest_slash_slash, parseRest_slash_nil]

/-! ## The classifier -/

theorem leadSize_spec (b : Nat) :
    2 ≤ leadSize b ∧ leadSize b ≤ 4 ∧ (leadSize b ≤ 2 ↔ b < 224) ∧ (leadSize b ≤ 3 ↔ b < 240) := by
  unfold leadSize
  split_ifs <;> omega

theorem acceptLo_spec (b : Nat) :
    128 ≤ acceptLo b ∧ (b = 224 → acceptLo b = 160) ∧ (b = 240 → acceptLo b = 144) := by
  unfold acceptLo
  split_ifs <;> omega

theorem acceptHi_spec (b : Nat) : acceptHi b ≤ 191 := by
  unfold acceptHi
  split_ifs <;> omega

theorem decode_ascii (b : Nat) (t : Str) (h : b < 128) :
    DecodeRuneInString (b :: t) = (b, 1) := by
  simp [DecodeRuneInString, h]

theorem decode_width_pos (b : Nat) (t : Str) : 1 ≤ (DecodeRuneInString (b :: t)).2 := by
  unfold DecodeRuneInString
  dsimp only
  split_ifs <;> simp

theorem decode_width_le (s : Str) : (DecodeRuneInString s).2 ≤ s.length := by
  cases s with
  | nil => simp [DecodeRuneInString]
  | cons b t =>
    unfold DecodeRuneInString
    have := leadSize_spec b
    dsimp only
    generalize leadSize b = sz at *
    simp only [List.length_cons]
    split_ifs <;> simp only [] <;> omega

theorem decode_nonascii (b : Nat) (t : Str) (h : 128 ≤ b) :
    128 ≤ (DecodeRuneInString (b :: t)).1 := by
  unfold DecodeRuneInString
  have h1 := leadSize_spec b
  have h2 := acceptLo_spec b
  have h3 := acceptHi_spec b
  dsimp only [RuneError]
  generalize leadSize b = sz at *
  generalize acceptLo b = lo at *
  generalize acceptHi b = hi at *
  generalize t.getD 0 0 = s1
  generalize t.getD 1 0 = s2
  generalize t.getD 2 0 = s3
  split_ifs <;> simp only [] <;> omega

/-- The first code point is one of the markers exactly when the first byte is. -/
theorem decode_marker (s : Str) (m : Nat) (hm : m < 128) :
    (DecodeRuneInString s).1 = m ↔ s.head? = some m := by
  cases s with
  | nil => simp [DecodeRuneInString, RuneError]; omega
  | cons b t =>
    by_cases hb : b < 128
    · rw [decode_ascii b t hb]; simp
    · have := decode_nonascii b t (by omega)
      simp only [List.head?_cons, Option.some.injEq]
      omega

theorem strip_eq (s : Str) :
    (if (DecodeRuneInString s).1 = 62 ∨ (DecodeRuneInString s).1 = 35
      then s.drop (DecodeRuneInString s).2 else s) = stripMarker s := by
  unfold stripMarker
  have h62 := decode_marker s 62 (by decide)
  have h35 := decode_marker s 35 (by decide)
  by_cases h : s.head? = some 62 ∨ s.head? = some 35
  · rw [if_pos h, if_pos (by rw [h62, h35]; exact h)]
    cases s with
    | nil => simp at h
    | cons b t =>
      have hb : b < 128 := by
        simp only [List.head?_cons, Option.some.injEq] at h
        omega
      rw [decode_ascii b t hb]
      rfl
  · rw [if_neg h, if_neg (by rw [h62, h35]; exact h)]

theorem rangeLower_iff (fuel : Nat) :
    ∀ s : Str, rangeLower fuel s = true ↔ ∃ r ∈ runes fuel s, 97 ≤ r ∧ r ≤ 122 := by
  induction fuel with
  | zero => intro s; simp [rangeLower, runes]
  | succ n ih =>
    intro s
    unfold rangeLower runes
    by_cases hs : s.length = 0
    · simp [hs]
    · simp only [hs, if_false, List.mem_cons, exists_eq_or_imp]
      by_cases hr : 97 ≤ (DecodeRuneInString s).1 ∧ (DecodeRuneInString s).1 ≤ 122
      · simp [hr]
      · simp only [hr, if_false, false_or]
        exact ih _

theorem runes_fuel (fuel : Nat) :
    ∀ (fuel' : Nat) (s : Str), s.length ≤ fuel → s.length ≤ fuel' →
      runes fuel s = runes fuel' s := by
  induction fuel with
  | zero =>
    intro fuel' s h _
    have : s.length = 0 := by omega
    cases fuel' <;> simp [runes, this]
  | succ n ih =>
    intro fuel' s h h'
    cases s with
    | nil => cases fuel' <;> simp [runes]
    | cons b t =>
      have hw := decode_width_pos b t
      have hlen : ((b :: t).drop (DecodeRuneInString (b :: t)).2).length ≤ t.length := by
        simp only [List.length_drop, List.length_cons]; omega
      simp only [List.length_cons] at h h'
      cases fuel' with
      | zero => omega
      | succ m =>
        simp only [runes, List.length_cons, Nat.succ_ne_zero, if_false]
        rw [ih m _ (by omega) (by omega)]

/-- The fuel given to `runes` by `characters` lets it read the whole string: more
fuel reads the same characters. -/
theorem characters_fuel (s : Str) (fuel : Nat) (h : s.length ≤ fuel) :
    runes fuel s = characters s :=
  runes_fuel fuel s.length s h (Nat.le_refl _)

/-- The characters of a non-empty string: the first code point, then the
characters of what follows it. -/
theorem characters_cons (b : Nat) (t : Str) :
    characters (b :: t) = (DecodeRuneInString (b :: t)).1
      :: characters ((b :: t).drop (DecodeRuneInString (b :: t)).2) := by
  have hw := decode_width_pos b t
  have hlen : ((b :: t).drop (DecodeRuneInString (b :: t)).2).length ≤ t.length := by
    simp only [List.length_drop, List.length_cons]; omega
  unfold characters
  simp only [runes, List.length_cons, Nat.succ_ne_zero, if_false]
  rw [runes_fuel t.length _ _ hlen (Nat.le_refl _)]

theorem decode_width_zero (s : Str) : (DecodeRuneInString s).2 = 0 ↔ s = [] := by
  cases s with
  | nil => simp [DecodeRuneInString]
  | cons b t =>
    have := decode_width_pos b t
    simp only [reduceCtorEq, iff_false]
    omega

/-- The classifier is a function of the headword without its marker. -/
theorem isOkuriAri_eq (s : Str) :
    isOkuriAri s =
      (if (DecodeRuneInString (stripMarker s)).2 = 0 then false
       else if (DecodeRuneInString (stripMarker s)).1 ≤ 127 then false
       else rangeLower (stripMarker s).length (stripMarker s)) := by
  unfold isOkuriAri
  simp only [strip_eq]
  by_cases h : (DecodeRuneInString s).2 = 0
  · have hs : s = [] := (decode_width_zero s).mp h
    subst hs
    rfl
  · rw [if_neg h]

theorem isOkuriAri_iff (s : Str) :
    isOkuriAri s = true ↔
      stripMarker s ≠ []
        ∧ (∃ r, (characters (stripMarker s)).head? = some r ∧ 127 < r)
        ∧ ∃ r ∈ characters (stripMarker s), 97 ≤ r ∧ r ≤ 122 := by
  rw [isOkuriAri_eq]
  generalize stripMarker s = s'
  cases s' with
  | nil => simp [DecodeRuneInString]
  | cons b t =>
    have hw := decode_width_pos b t
    rw [if_neg (by omega)]
    have hch : (characters (b :: t)).head? = some (DecodeRuneInString (b :: t)).1 := by
      rw [characters_cons]; rfl
    rw [hch]
    by_cases hr : (DecodeRuneInString (b :: t)).1 ≤ 127
    · rw [if_pos hr]
      simp only [Bool.false_eq_true, ne_eq, reduceCtorEq, not_false_eq_true, Option.some.injEq,
        exists_eq_left', true_and, false_iff, not_and]
      intro h
      omega
    · rw [if_neg hr, rangeLower_iff]
      unfold characters
      simp only [ne_eq, reduceCtorEq, not_false_eq_true, Option.some.injEq, exists_eq_left',
        true_and, iff_and_self]
      intro _
      omega

/-- C5: a headword is okuri-ari exactly when, one leading `>` or `#` removed, it is
not empty, its first character is above 127 and one of its characters is in
`a`..`z`; so a headword whose first character after the marker is ASCII is not, nor
are the empty string, a lone marker and `あ`, while `あr` is. -/
theorem C5_classifier (s : Str) :
    (isOkuriAri s = true ↔
      stripMarker s ≠ []
        ∧ (∃ r, (characters (stripMarker s)).head? = some r ∧ 127 < r)
        ∧ ∃ r ∈ characters (stripMarker s), 97 ≤ r ∧ r ≤ 122)
      ∧ (∀ b t, stripMarker s = b :: t → b ≤ 127 → isOkuriAri s = false)
      ∧ isOkuriAri [] = false ∧ isOkuriAri [62] = false ∧ isOkuriAri [35] = false
      ∧ isOkuriAri [0xE3, 0x81, 0x82] = false
      ∧ isOkuriAri [0xE3, 0x81, 0x82, 114] = true := by
  refine ⟨isOkuriAri_iff s, ?_, by decide, by decide, by decide, by decide, by decide⟩
  intro b t hs hb
  rw [isOkuriAri_eq, hs, decode_ascii b t (by omega)]
  simp [hb]

theorem characters_head_marker (s : Str) (m : Nat) (hm : m < 128) :
    (characters s).head? = some m ↔ s.head? = some m := by
  cases s with
  | nil => simp [characters, runes]
  | cons b t =>
    rw [characters_cons, List.head?_cons, Option.some.injEq, decode_marker _ m hm]

/-- C6: when the first character of `s` is neither `>` nor `#`, putting either
marker in front of `s` does not change its class. -/
theorem C6_marker_invariance (s : Str)
    (h62 : (characters s).head? ≠ some 62) (h35 : (characters s).head? ≠ some 35) :
    isOkuriAri (62 :: s) = isOkuriAri s ∧ isOkuriAri (35 :: s) = isOkuriAri s := by
  rw [Ne, characters_head_marker s 62 (by decide)] at h62
  rw [Ne, characters_head_marker s 35 (by decide)] at h35
  have hs : stripMarker s = s := by
    unfold stripMarker
    rw [if_neg (by simp [h62, h35])]
  have e62 : stripMarker (62 :: s) = s := by simp [stripMarker]
  have e35 : stripMarker (35 :: s) = s := by simp [stripMarker]
  rw [isOkuriAri_eq (62 :: s), isOkuriAri_eq (35 :: s), isOkuriAri_eq s, e62, e35, hs]
  exact ⟨rfl, rfl⟩

theorem C6_marker_invariance_witness :
    (isOkuriAri (62 :: [0xE3, 0x81, 0x82, 114]) = isOkuriAri [0xE3, 0x81, 0x82, 114]
      ∧ isOkuriAri (35 :: [0xE3, 0x81, 0x82, 114]) = isOkuriAri [0xE3, 0x81, 0x82, 114])
      ∧ isOkuriAri [0xE3, 0x81, 0x82, 114] = true :=
  ⟨C6_marker_invariance [0xE3, 0x81, 0x82, 114] (by decide) (by decide), by decide⟩

/-! ## Entries -/

/-- The annotation after `joinAnnotation`, case by case. -/
theorem joinAnnotation_eq (c : Candidate) (b d : Str) :
    c.joinAnnotation b d =
      ⟨c.Text, if b = [] ∨ b = c.Annotation then c.Annotation
                else if c.Annotation = [] then b else c.Annotation ++ d ++ b⟩ := by
  unfold Candidate.joinAnnotation
  by_cases hb : b = []
  · simp [hb]
  · by_cases ha : c.Annotation = []
    · have : ¬ b = c.Annotation := fun h => hb (h.trans ha)
      simp [hb, ha]
    · by_cases hab : c.Annotation = b
      · subst hab
        simp [hb]
      · have : ¬ b = c.Annotation := fun h => hab h.symm
        simp [hb, ha, hab, this]

theorem addCandidateLoop_split (c : Candidate) (d : Str) (pre post : List Candidate)
    (x : Candidate) (hx : x.Text = c.Text) (hpre : ∀ y ∈ pre, y.Text ≠ c.Text) :
    addCandidateLoop c d (pre ++ x :: post) = pre ++ x.joinAnnotation c.Annotation d :: post := by
  induction pre with
  | nil => simp [addCandidateLoop, hx]
  | cons y pre ih =>
    have hy : y.Text ≠ c.Text := hpre y (List.mem_cons_self y pre)
    have ih' := ih (fun z hz => hpre z (List.mem_cons_of_mem y hz))
    rw [List.cons_append, addCandidateLoop, if_neg hy, ih', List.cons_append]

/-- C7 (as stated, refuted): the entry holds the text `t` with an empty annotation,
the incoming candidate has the same text and the annotation `x`, which is neither
empty nor equal to the stored one; the stored annotation becomes `x`, not the
stored annotation followed by the delimiter and `x`. -/
theorem C7_join_counterexample :
    ((⟨[107], [⟨[116], []⟩], none⟩ : entry).addCandidate ⟨[116], [120]⟩ [44]).Candidates
        = [⟨[116], [120]⟩]
      ∧ ([120] : Str) ≠ [] ∧ ([120] : Str) ≠ ([] : Str)
      ∧ ((⟨[107], [⟨[116], []⟩], none⟩ : entry).addCandidate ⟨[116], [120]⟩ [44]).Candidates
        ≠ [⟨[116], ([] : Str) ++ [44] ++ [120]⟩] := by
  decide

/-- C7 (amended): when the first candidate of the entry with the text `t` has the
annotation `a`, adding the candidate `(t, b)` with delimiter `d` keeps the number
and the order of the candidates and changes only that annotation, which stays `a`
when `b` is empty or equal to `a`, becomes `b` when `a` is empty, and `a ++ d ++ b`
in every other case; headword and marks are unchanged. -/
theorem C7_join_on_union (e : entry) (pre post : List Candidate) (t a b d : Str)
    (he : e.Candidates = pre ++ ⟨t, a⟩ :: post) (hpre : ∀ y ∈ pre, y.Text ≠ t) :
    (e.addCandidate ⟨t, b⟩ d).Candidates
        = pre ++ ⟨t, if b = [] ∨ b = a then a else if a = [] then b else a ++ d ++ b⟩ :: post
      ∧ (e.addCandidate ⟨t, b⟩ d).Midashi = e.Midashi
      ∧ (e.addCandidate ⟨t, b⟩ d).andSet = e.andSet := by
  refine ⟨?_, rfl, rfl⟩
  unfold entry.addCandidate
  simp only [he]
  rw [addCandidateLoop_split ⟨t, b⟩ d pre post ⟨t, a⟩ rfl hpre, joinAnnotation_eq]

theorem C7_join_on_union_witness :
    ((⟨[107], [⟨[1], []⟩, ⟨[116], [97]⟩, ⟨[2], []⟩], none⟩ : entry).addCandidate
        ⟨[116], [98]⟩ [44]).Candidates
      = [⟨[1], []⟩, ⟨[116], [97, 44, 98]⟩, ⟨[2], []⟩] :=
  (C7_join_on_union ⟨[107], [⟨[1], []⟩, ⟨[116], [97]⟩, ⟨[2], []⟩], none⟩
    [⟨[1], []⟩] [⟨[2], []⟩] [116] [97] [98] [44] rfl (by decide)).1

/-! ## The ordered store -/

theorem strLt_irrefl (a : Str) : strLt a a = false := by
  induction a with
  | nil => rfl
  | cons x xs ih => simp [strLt, ih]

theorem strLt_eq_of_not_lt : ∀ a b : Str, strLt a b = false → strLt b a = false → a = b := by
  intro a
  induction a with
  | nil =>
    intro b h1 _
    cases b with
    | nil => rfl
    | cons y ys => simp [strLt] at h1
  | cons x xs ih =>
    intro b h1 h2
    cases b with
    | nil => simp [strLt] at h2
    | cons y ys =>
      simp only [strLt] at h1 h2
      by_cases hxy : x < y
      · simp [hxy] at h1
      · by_cases hyx : y < x
        · simp [hyx] at h2
        · simp only [hxy, hyx, if_false] at h1 h2
          have : x = y := by omega
          rw [this, ih ys h1 h2]

theorem keyLaw_lessEntry : KeyLaw lessEntry := by
  intro a b
  unfold sameKey lessEntry
  constructor
  · intro h
    simp only [Bool.and_eq_true, Bool.not_eq_true', ] at h
    exact strLt_eq_of_not_lt _ _ h.1 h.2
  · intro h
    rw [h, strLt_irrefl]
    rfl

theorem keyLaw_lessEntryReverse : KeyLaw lessEntryReverse := by
  intro a b
  unfold sameKey lessEntryReverse
  constructor
  · intro h
    simp only [Bool.and_eq_true, Bool.not_eq_true', ] at h
    exact strLt_eq_of_not_lt _ _ h.2 h.1
  · intro h
    rw [h, strLt_irrefl]
    rfl

theorem find_replaceItem {less : entry → entry → Bool} (hk : KeyLaw less) (ce key : entry)
    (h : ce.Midashi = key.Midashi) (items : List entry) :
    (replaceItem less ce items).find? (fun x => sameKey less x key)
      = (items.find? (fun x => sameKey less x key)).map (fun _ => ce) := by
  induction items with
  | nil => rfl
  | cons x xs ih =>
    unfold replaceItem
    by_cases hx : x.Midashi = key.Midashi
    · have h1 : sameKey less x ce = true := (hk x ce).mpr (hx.trans h.symm)
      have h2 : sameKey less x key = true := (hk x key).mpr hx
      have h3 : sameKey less ce key = true := (hk ce key).mpr h
      simp [h1, h2, h3, List.find?_cons]
    · have h1 : sameKey less x ce = false := by
        rw [Bool.eq_false_iff]; exact fun hh => hx (((hk x ce).mp hh).trans h)
      have h2 : sameKey less x key = false := by
        rw [Bool.eq_false_iff]; exact fun hh => hx ((hk x key).mp hh)
      simp [h1, h2, List.find?_cons, ih]

theorem find_insertItem {less : entry → entry → Bool} (hk : KeyLaw less) (item : entry)
    (items : List entry) (h : items.find? (fun x => sameKey less x item) = none) :
    (insertItem less item items).find? (fun x => sameKey less x item) = some item := by
  have hself : sameKey less item item = true := (hk item item).mpr rfl
  induction items with
  | nil => simp [insertItem, hself]
  | cons x xs ih =>
    rw [List.find?_cons] at h
    by_cases hx : sameKey less x item = true
    · simp [hx] at h
    · simp only [hx] at h
      unfold insertItem
      by_cases h1 : less item x = true
      · simp [h1, hself]
      · by_cases h2 : less x item = true
        · simp [h1, h2, hx, List.find?_cons, ih h]
        · exact absurd (by simp [sameKey, h1, h2]) hx

theorem keys_replaceItem {less : entry → entry → Bool} (hk : KeyLaw less) (ce : entry)
    (items : List entry) :
    (replaceItem less ce items).map (·.Midashi) = items.map (·.Midashi) := by
  induction items with
  | nil => rfl
  | cons x xs ih =>
    unfold replaceItem
    by_cases hx : sameKey less x ce = true
    · simp [hx, ((hk x ce).mp hx)]
    · simp [hx, ih]

theorem mem_replaceItem {less : entry → entry → Bool} (hk : KeyLaw less) (ce : entry)
    (items : List entry) (hnd : (items.map (·.Midashi)).Nodup) :
    ∀ e ∈ replaceItem less ce items, e = ce ∨ (e ∈ items ∧ e.Midashi ≠ ce.Midashi) := by
  induction items with
  | nil => intro e he; simp [replaceItem] at he
  | cons x xs ih =>
    intro e he
    rw [List.map_cons, List.nodup_cons] at hnd
    unfold replaceItem at he
    by_cases hx : sameKey less x ce = true
    · rw [if_pos hx, List.mem_cons] at he
      rcases he with rfl | he
      · exact Or.inl rfl
      · refine Or.inr ⟨List.mem_cons_of_mem _ he, fun hm => hnd.1 ?_⟩
        rw [(hk x ce).mp hx, ← hm]
        exact List.mem_map_of_mem _ he
    · rw [if_neg hx, List.mem_cons] at he
      rcases he with rfl | he
      · exact Or.inr ⟨List.mem_cons_self _ _, fun hm => hx ((hk _ _).mpr hm)⟩
      · rcases ih hnd.2 e he with h | h
        · exact Or.inl h
        · exact Or.inr ⟨List.mem_cons_of_mem _ h.1, h.2⟩

theorem perm_insertItem {less : entry → entry → Bool} (item : entry)
    (items : List entry) (h : items.find? (fun x => sameKey less x item) = none) :
    (insertItem less item items).Perm (item :: items) := by
  induction items with
  | nil => simp [insertItem]
  | cons x xs ih =>
    rw [List.find?_cons] at h
    by_cases hx : sameKey less x item = true
    · simp [hx] at h
    · simp only [hx] at h
      unfold insertItem
      by_cases h1 : less item x = true
      · simp [h1]
      · by_cases h2 : less x item = true
        · simp only [h1, h2, if_true, if_false]
          exact ((ih h).cons x).trans (List.Perm.swap item x xs)
        · exact absurd (by simp [sameKey, h1, h2]) hx

theorem find_none_iff {less : entry → entry → Bool} (hk : KeyLaw less) (key : entry)
    (items : List entry) :
    items.find? (fun x => sameKey less x key) = none ↔ ∀ e ∈ items, e.Midashi ≠ key.Midashi := by
  rw [List.find?_eq_none]
  constructor
  · intro h e he hm
    exact h e he ((hk e key).mpr hm)
  · intro h e he hs
    exact h e he ((hk e key).mp hs)

theorem eraseP_eq_filter {less : entry → entry → Bool} (hk : KeyLaw less) (key : entry)
    (items : List entry) (hnd : (items.map (·.Midashi)).Nodup) :
    items.eraseP (fun x => sameKey less x key)
      = items.filter (fun x => decide (x.Midashi ≠ key.Midashi)) := by
  induction items with
  | nil => rfl
  | cons x xs ih =>
    rw [List.map_cons, List.nodup_cons] at hnd
    by_cases hx : x.Midashi = key.Midashi
    · have h1 : sameKey less x key = true := (hk x key).mpr hx
      rw [List.eraseP_cons_of_pos (p := fun x => sameKey less x key) h1,
        List.filter_cons_of_neg (by simp [hx])]
      symm
      rw [List.filter_eq_self]
      intro e he
      have : e.Midashi ≠ key.Midashi := by
        intro hm
        apply hnd.1
        rw [hx, ← hm]
        exact List.mem_map_of_mem _ he
      simpa using this
    · have h1 : ¬ sameKey less x key = true := fun hh => hx ((hk x key).mp hh)
      rw [List.eraseP_cons_of_neg (p := fun x => sameKey less x key) h1,
        List.filter_cons_of_pos (by simpa using hx), ih hnd.2]

/-! ## Union -/

theorem joinAnnotation_Text (c : Candidate) (b d : Str) : (c.joinAnnotation b d).Text = c.Text := by
  rw [joinAnnotation_eq]

theorem addCandidateLoop_ne_nil (c : Candidate) (d : Str) (l : List Candidate) :
    addCandidateLoop c d l ≠ [] := by
  cases l with
  | nil => simp [addCandidateLoop]
  | cons x xs =>
    unfold addCandidateLoop
    split <;> simp

theorem texts_addCandidateLoop (c : Candidate) (d : Str) (l : List Candidate) :
    texts (addCandidateLoop c d l)
      = if c.Text ∈ texts l then texts l else texts l ++ [c.Text] := by
  induction l with
  | nil => simp [addCandidateLoop, texts]
  | cons x xs ih =>
    unfold addCandidateLoop
    by_cases hx : x.Text = c.Text
    · rw [if_pos hx]
      simp [texts, joinAnnotation_Text, hx]
    · rw [if_neg hx]
      have hx' : ¬ c.Text = x.Text := fun h => hx h.symm
      simp only [texts, List.map_cons, List.mem_cons, hx', false_or, List.cons_append] at ih ⊢
      rw [ih]
      split <;> rfl

theorem firstSeen_cons (seen : List Str) (t : Str) (ts : List Str) :
    firstSeen seen (t :: ts)
      = if t ∈ seen then firstSeen seen ts else t :: firstSeen (t :: seen) ts := rfl

theorem firstSeen_congr (ts : List Str) :
    ∀ s1 s2 : List Str, (∀ x, x ∈ s1 ↔ x ∈ s2) → firstSeen s1 ts = firstSeen s2 ts := by
  induction ts with
  | nil => intro _ _ _; rfl
  | cons t ts ih =>
    intro s1 s2 h
    unfold firstSeen
    by_cases ht : t ∈ s1
    · rw [if_pos ht, if_pos ((h t).mp ht)]
      exact ih s1 s2 h
    · rw [if_neg ht, if_neg (fun h2 => ht ((h t).mpr h2))]
      rw [ih (t :: s1) (t :: s2) (fun x => by simp [h x])]

theorem mem_firstSeen (ts : List Str) :
    ∀ (seen : List Str) (t : Str), t ∈ firstSeen seen ts ↔ t ∈ ts ∧ t ∉ seen := by
  induction ts with
  | nil => intro seen t; simp [firstSeen]
  | cons x xs ih =>
    intro seen t
    unfold firstSeen
    by_cases hx : x ∈ seen
    · rw [if_pos hx, ih, List.mem_cons]
      constructor
      · exact fun h => ⟨Or.inr h.1, h.2⟩
      · rintro ⟨rfl | h, hn⟩
        · exact absurd hx hn
        · exact ⟨h, hn⟩
    · rw [if_neg hx, List.mem_cons, ih, List.mem_cons, List.mem_cons]
      constructor
      · rintro (rfl | ⟨h, hn⟩)
        · exact ⟨Or.inl rfl, hx⟩
        · exact ⟨Or.inr h, fun hs => hn (Or.inr hs)⟩
      · rintro ⟨rfl | h, hn⟩
        · exact Or.inl rfl
        · by_cases htx : t = x
          · exact Or.inl htx
          · exact Or.inr ⟨h, fun hs => hs.elim htx hn⟩

theorem nodup_firstSeen (ts : List Str) : ∀ seen : List Str, (firstSeen seen ts).Nodup := by
  induction ts with
  | nil => intro seen; simp [firstSeen]
  | cons x xs ih =>
    intro seen
    unfold firstSeen
    by_cases hx : x ∈ seen
    · rw [if_pos hx]; exact ih seen
    · rw [if_neg hx, List.nodup_cons]
      refine ⟨?_, ih _⟩
      rw [mem_firstSeen]
      exact fun h => h.2 (List.mem_cons_self _ _)

theorem addAll_fields (cs : List Candidate) (d : Str) :
    ∀ ce : entry, (addAll ce cs d).Midashi = ce.Midashi ∧ (addAll ce cs d).andSet = ce.andSet := by
  induction cs with
  | nil => intro ce; exact ⟨rfl, rfl⟩
  | cons c cs ih =>
    intro ce
    exact ih (ce.addCandidate c d)

theorem texts_addAll (cs : List Candidate) (d : Str) :
    ∀ ce : entry, texts (addAll ce cs d).Candidates
      = texts ce.Candidates ++ firstSeen (texts ce.Candidates) (texts cs) := by
  induction cs with
  | nil => intro ce; simp [addAll, firstSeen, texts]
  | cons c cs ih =>
    intro ce
    have step : addAll ce (c :: cs) d = addAll (ce.addCandidate c d) cs d := rfl
    have ht : texts (c :: cs) = c.Text :: texts cs := rfl
    rw [step, ih, ht, firstSeen_cons]
    have hadd : texts (ce.addCandidate c d).Candidates
        = if c.Text ∈ texts ce.Candidates then texts ce.Candidates
          else texts ce.Candidates ++ [c.Text] := texts_addCandidateLoop c d ce.Candidates
    by_cases hc : c.Text ∈ texts ce.Candidates
    · rw [if_pos hc] at hadd
      rw [if_pos hc, hadd]
    · rw [if_neg hc] at hadd
      rw [if_neg hc, hadd, List.append_assoc, List.singleton_append]
      rw [firstSeen_congr (texts cs) (texts ce.Candidates ++ [c.Text]) (c.Text :: texts ce.Candidates)
        (fun x => by simp [or_comm])]

theorem nodup_addAll (ce : entry) (cs : List Candidate) (d : Str)
    (h : (texts ce.Candidates).Nodup) : (texts (addAll ce cs d).Candidates).Nodup := by
  rw [texts_addAll, List.nodup_append]
  refine ⟨h, nodup_firstSeen _ _, ?_⟩
  intro t ht hf
  exact ((mem_firstSeen _ _ _).mp hf).2 ht

theorem addAll_ne_nil (ce : entry) (cs : List Candidate) (d : Str)
    (h : cs ≠ [] ∨ ce.Candidates ≠ []) : (addAll ce cs d).Candidates ≠ [] := by
  intro hnil
  have ht := texts_addAll cs d ce
  rw [hnil] at ht
  have h0 : texts ce.Candidates ++ firstSeen (texts ce.Candidates) (texts cs) = [] := ht.symm
  rw [List.append_eq_nil] at h0
  have hce : ce.Candidates = [] := by simpa [texts] using h0.1
  rcases h with h | h
  · obtain ⟨c, cs', rfl⟩ := List.exists_cons_of_ne_nil h
    have hm : c.Text ∈ firstSeen (texts ce.Candidates) (texts (c :: cs')) := by
      rw [mem_firstSeen, hce]
      simp [texts]
    rw [h0.2] at hm
    exact absurd hm (List.not_mem_nil _)
  · exact h hce

theorem get_congr {less : entry → entry → Bool} (hk : KeyLaw less) (tree : BTree less)
    (k1 k2 : entry) (h : k1.Midashi = k2.Midashi) : tree.Get k1 = tree.Get k2 := by
  unfold BTree.Get
  congr 1
  funext x
  rw [Bool.eq_iff_iff, hk x k1, hk x k2, h]

theorem get_midashi {less : entry → entry → Bool} (hk : KeyLaw less) (tree : BTree less)
    (key ce : entry) (h : tree.Get key = some ce) : ce.Midashi = key.Midashi ∧ ce ∈ tree.items := by
  unfold BTree.Get at h
  exact ⟨(hk ce key).mp (List.find?_some (p := fun x => sameKey less x key) h),
    List.mem_of_find?_eq_some h⟩

theorem get_store {less : entry → entry → Bool} (hk : KeyLaw less) (tree : BTree less)
    (ce key : entry) (h : ce.Midashi = key.Midashi) :
    (tree.store ce).Get key = (tree.Get key).map (fun _ => ce) :=
  find_replaceItem hk ce key h tree.items

/-- The entry of the headword after `addEntry`: the candidates of the line added to
the entry that was there, or to a new one. -/
theorem get_addEntry {less : entry → entry → Bool} (hk : KeyLaw less) (tree : BTree less)
    (e key : entry) (d : Str) (hkey : key.Midashi = e.Midashi) :
    (addEntry tree e d).Get key
      = some (addAll ((tree.Get key).getD ⟨e.Midashi, [], none⟩) e.Candidates d) := by
  have hg : tree.Get key = tree.Get e := get_congr hk tree key e hkey
  unfold addEntry
  rw [hg]
  cases hget : tree.Get e with
  | some ce =>
    have hm := (get_midashi hk tree e ce hget).1
    simp only [Option.getD_some]
    rw [get_store hk tree _ key (((addAll_fields e.Candidates d ce).1.trans hm).trans hkey.symm),
      hg, hget]
    rfl
  | none =>
    simp only [Option.getD_none]
    have h0 : (tree.ReplaceOrInsert ⟨e.Midashi, [], none⟩).Get key
        = some ⟨e.Midashi, [], none⟩ := by
      rw [get_congr hk _ key ⟨e.Midashi, [], none⟩ hkey]
      apply find_insertItem hk
      have := get_congr hk tree ⟨e.Midashi, [], none⟩ e rfl
      rw [hget] at this
      exact this
    rw [get_store hk (tree.ReplaceOrInsert ⟨e.Midashi, [], none⟩)
      (addAll ⟨e.Midashi, [], none⟩ e.Candidates d) key
      ((addAll_fields e.Candidates d _).1.trans hkey.symm), h0]
    rfl

/-- C8: after `AddCandidates(h, cs)` with `h` and `cs` not empty, the texts that
`Lookup(h)` returns are the texts stored before (none if `h` was absent), unchanged
and in the same order, followed by the texts of `cs` not stored before, each once,
in the order of their first occurrence in `cs`. -/
theorem C8_union_first_seen (dic : Dictionary) (h : Str) (cs : List Candidate)
    (hh : h ≠ []) (hcs : cs ≠ []) :
    ((dic.AddCandidates h cs).Lookup h).map texts
        = some (((dic.Lookup h).map texts).getD []
            ++ firstSeen (((dic.Lookup h).map texts).getD []) (texts cs))
      ∧ (firstSeen (((dic.Lookup h).map texts).getD []) (texts cs)).Nodup
      ∧ ∀ t, t ∈ firstSeen (((dic.Lookup h).map texts).getD []) (texts cs)
          ↔ t ∈ texts cs ∧ t ∉ ((dic.Lookup h).map texts).getD [] := by
  refine ⟨?_, nodup_firstSeen _ _, fun t => mem_firstSeen _ _ t⟩
  have hlen : ¬ (h = [] ∨ cs.length = 0) := by
    rintro (h1 | h1)
    · exact hh h1
    · exact hcs (List.length_eq_zero.mp h1)
  have hmode : ¬ MergeMode.Add = MergeMode.Sub := by decide
  have hmode' : ¬ MergeMode.Add = MergeMode.And := by decide
  unfold Dictionary.AddCandidates Dictionary.processCandidates Dictionary.Lookup
  rw [if_neg hlen]
  simp only [entry.IsOkuriAri, mergeEntry, if_neg hmode, if_neg hmode']
  cases hoa : isOkuriAri h with
  | true =>
    simp only [if_true]
    rw [get_addEntry keyLaw_lessEntryReverse dic.okuriAriEntries ⟨h, cs, none⟩ ⟨h, [], none⟩
      dic.delimiter rfl]
    cases dic.okuriAriEntries.Get ⟨h, [], none⟩ with
    | none => simp [texts_addAll]; rfl
    | some ce => simp [texts_addAll]
  | false =>
    simp only [Bool.false_eq_true, if_false]
    rw [get_addEntry keyLaw_lessEntry dic.okuriNashiEntries ⟨h, cs, none⟩ ⟨h, [], none⟩
      dic.delimiter rfl]
    cases dic.okuriNashiEntries.Get ⟨h, [], none⟩ with
    | none => simp [texts_addAll]; rfl
    | some ce => simp [texts_addAll]

theorem C8_union_first_seen_witness :
    (((New []).AddCandidates [107] [⟨[1], []⟩, ⟨[2], []⟩]).AddCandidates [107]
        [⟨[3], []⟩, ⟨[2], [9]⟩, ⟨[3], [8]⟩, ⟨[4], []⟩]).Lookup [107]
      = some [⟨[1], []⟩, ⟨[2], [9]⟩, ⟨[3], [8]⟩, ⟨[4], []⟩]
    ∧ (((((New []).AddCandidates [107] [⟨[1], []⟩, ⟨[2], []⟩]).AddCandidates [107]
        [⟨[3], []⟩, ⟨[2], [9]⟩, ⟨[3], [8]⟩, ⟨[4], []⟩]).Lookup [107]).map texts
      = some ((((((New []).AddCandidates [107] [⟨[1], []⟩, ⟨[2], []⟩]).Lookup [107]).map
            texts).getD [])
          ++ firstSeen (((((New []).AddCandidates [107] [⟨[1], []⟩, ⟨[2], []⟩]).Lookup
            [107]).map texts).getD []) (texts [⟨[3], []⟩, ⟨[2], [9]⟩, ⟨[3], [8]⟩, ⟨[4], []⟩]))) :=
  ⟨by decide,
   (C8_union_first_seen ((New []).AddCandidates [107] [⟨[1], []⟩, ⟨[2], []⟩]) [107]
      [⟨[3], []⟩, ⟨[2], [9]⟩, ⟨[3], [8]⟩, ⟨[4], []⟩] (by decide) (by decide)).1⟩

/-! ## Removal and intersection on an entry -/

theorem drop_getD_cons {α : Type} (l : List α) (q : Nat) (d : α) (hq : q < l.length) :
    l.drop q = l.getD q d :: l.drop (q + 1) := by
  rw [List.drop_eq_getElem_cons hq, List.getD_eq_getElem?_getD, List.getElem?_eq_getElem hq]
  rfl

theorem removeCandidateAt_eq (e : entry) (n : Nat) (h : n < e.Candidates.length) :
    e.removeCandidateAt (Int.ofNat n)
      = { e with Candidates := e.Candidates.take n ++ e.Candidates.drop (n + 1) } := by
  unfold entry.removeCandidateAt
  have : ¬ (Int.ofNat n < 0 ∨ Int.ofNat n ≥ (e.Candidates.length : Int)) := by
    simp only [Int.ofNat_eq_coe]
    omega
  rw [if_neg this]
  rfl

theorem removeCandidateLoop_eq (e : entry) (c : Candidate) :
    ∀ (rest pre : List Candidate), e.Candidates = pre ++ rest →
      removeCandidateLoop e c rest pre.length
        = { e with Candidates := pre ++ rest.eraseP (fun x => decide (x.Text = c.Text)) } := by
  intro rest
  induction rest with
  | nil =>
    intro pre h
    simp only [removeCandidateLoop, List.eraseP_nil]
    rw [← h]
  | cons x rest ih =>
    intro pre h
    unfold removeCandidateLoop
    by_cases hx : x.Text = c.Text
    · rw [if_pos hx, removeCandidateAt_eq e pre.length (by rw [h]; simp),
        List.eraseP_cons_of_pos (by simpa using hx)]
      simp [h]
    · rw [if_neg hx, List.eraseP_cons_of_neg (by simpa using hx)]
      have := ih (pre ++ [x]) (by rw [h]; simp)
      simp only [List.length_append, List.length_singleton, List.append_assoc,
        List.singleton_append] at this
      exact this

theorem removeCandidate_eq (e : entry) (c : Candidate) :
    e.removeCandidate c
      = { e with Candidates := e.Candidates.eraseP (fun x => decide (x.Text = c.Text)) } := by
  have := removeCandidateLoop_eq e c e.Candidates [] rfl
  simpa [entry.removeCandidate] using this

theorem eraseP_text_eq_filter (t : Str) (l : List Candidate) (hnd : (texts l).Nodup) :
    l.eraseP (fun x => decide (x.Text = t)) = l.filter (fun x => decide (x.Text ≠ t)) := by
  induction l with
  | nil => rfl
  | cons x xs ih =>
    simp only [texts, List.map_cons, List.nodup_cons] at hnd
    by_cases hx : x.Text = t
    · rw [List.eraseP_cons_of_pos (by simpa using hx), List.filter_cons_of_neg (by simp [hx])]
      symm
      rw [List.filter_eq_self]
      intro e he
      have : e.Text ≠ t := by
        intro hm
        apply hnd.1
        rw [hx, ← hm]
        exact List.mem_map_of_mem _ he
      simpa using this
    · rw [List.eraseP_cons_of_neg (by simpa using hx),
        List.filter_cons_of_pos (by simpa using hx), ih hnd.2]

theorem nodup_texts_sublist {l1 l2 : List Candidate} (h : l1.Sublist l2)
    (hnd : (texts l2).Nodup) : (texts l1).Nodup :=
  List.Nodup.sublist (List.Sublist.map _ h) hnd

/-- What the loop of `subEntry` leaves of an entry with distinct texts: when it ends
by deleting the entry no candidate has a text outside the ones given, and otherwise
the candidates left are the ones with such a text. -/
theorem subLoop_spec (cs : List Candidate) :
    ∀ ce : entry, (texts ce.Candidates).Nodup →
      (subLoop ce cs).1.Midashi = ce.Midashi
      ∧ ((subLoop ce cs).2 = true →
          ce.Candidates.filter (fun c => decide (c.Text ∉ texts cs)) = [])
      ∧ ((subLoop ce cs).2 = false →
          (subLoop ce cs).1.Candidates = ce.Candidates.filter (fun c => decide (c.Text ∉ texts cs))
          ∧ (subLoop ce cs).1.andSet = ce.andSet
          ∧ (cs ≠ [] → ce.Candidates.filter (fun c => decide (c.Text ∉ texts cs)) ≠ [])) := by
  induction cs with
  | nil =>
    intro ce _
    simp [subLoop, texts]
  | cons c cs ih =>
    intro ce hnd
    have hrm : (ce.removeCandidate c).Candidates
        = ce.Candidates.filter (fun x => decide (x.Text ≠ c.Text)) := by
      rw [removeCandidate_eq, eraseP_text_eq_filter c.Text _ hnd]
    have hfil : ∀ l : List Candidate,
        (l.filter (fun x => decide (x.Text ≠ c.Text))).filter (fun x => decide (x.Text ∉ texts cs))
          = l.filter (fun x => decide (x.Text ∉ texts (c :: cs))) := by
      intro l
      rw [List.filter_filter]
      congr 1
      funext x
      by_cases h1 : x.Text = c.Text <;>
        by_cases h2 : x.Text ∈ List.map (fun x => x.Text) cs <;> simp [texts, h1, h2]
    have hm : (ce.removeCandidate c).Midashi = ce.Midashi := by rw [removeCandidate_eq]
    have ha : (ce.removeCandidate c).andSet = ce.andSet := by rw [removeCandidate_eq]
    have hnd' : (texts (ce.removeCandidate c).Candidates).Nodup := by
      rw [hrm]
      exact nodup_texts_sublist (List.filter_sublist _) hnd
    unfold subLoop
    by_cases hz : (ce.removeCandidate c).Candidates.length = 0
    · simp only [hz, if_true]
      refine ⟨hm, fun _ => ?_, fun h => absurd h (by simp)⟩
      have h0 : (ce.removeCandidate c).Candidates = [] := List.length_eq_zero.mp hz
      rw [← hfil, ← hrm, h0]
      rfl
    · simp only [hz, if_false]
      obtain ⟨h1, h2, h3⟩ := ih (ce.removeCandidate c) hnd'
      rw [hrm, hfil] at h2 h3
      refine ⟨h1.trans hm, h2, fun h => ?_⟩
      obtain ⟨h4, h5, h6⟩ := h3 h
      refine ⟨h4, h5.trans ha, fun _ => ?_⟩
      by_cases hcs : cs = []
      · subst hcs
        rw [← hfil, ← hrm]
        simp only [texts, List.map_nil, List.not_mem_nil, not_false_eq_true, decide_True,
          List.filter_true]
        exact fun h0 => hz (by rw [h0]; rfl)
      · exact h6 hcs

theorem cleanLoop_eq :
    ∀ (fuel : Nat) (e : entry) (i : Nat), e.Candidates.length - i ≤ fuel →
      i ≤ e.Candidates.length →
      cleanLoop fuel e i
        = { e with Candidates := e.Candidates.take i
              ++ (e.Candidates.drop i).filter (fun c => andSetHas e.andSet c.Text) } := by
  intro fuel
  induction fuel with
  | zero =>
    intro e i h1 h2
    have hi : i = e.Candidates.length := by omega
    subst hi
    simp [cleanLoop]
  | succ n ih =>
    intro e i h1 h2
    unfold cleanLoop
    by_cases hi : i < e.Candidates.length
    · rw [if_pos hi]
      have hd := drop_getD_cons e.Candidates i ⟨[], []⟩ hi
      have ht : e.Candidates.take (i + 1) = e.Candidates.take i ++ [e.Candidates.getD i ⟨[], []⟩] := by
        rw [List.take_succ, List.getD_eq_getElem?_getD, List.getElem?_eq_getElem hi]
        rfl
      generalize e.Candidates.getD i ⟨[], []⟩ = c at hd ht ⊢
      by_cases hc : andSetHas e.andSet c.Text = true
      · have hf : ∀ rest : List Candidate,
            List.filter (fun x => andSetHas e.andSet x.Text) (c :: rest)
              = c :: List.filter (fun x => andSetHas e.andSet x.Text) rest :=
          fun rest => by simp [List.filter_cons, hc]
        rw [if_pos hc, ih e (i + 1) (by omega) (by omega), hd, ht, hf]
        simp
      · have hf : ∀ rest : List Candidate,
            List.filter (fun x => andSetHas e.andSet x.Text) (c :: rest)
              = List.filter (fun x => andSetHas e.andSet x.Text) rest :=
          fun rest => by simp [List.filter_cons, hc]
        rw [if_neg hc, removeCandidateAt_eq e i hi, hd, hf]
        have hlen : (e.Candidates.take i ++ e.Candidates.drop (i + 1)).length
            = e.Candidates.length - 1 := by
          simp only [List.length_append, List.length_take, List.length_drop]
          omega
        rw [ih _ i (by simp only [hlen]; omega) (by simp only [hlen]; omega)]
        have hti : (e.Candidates.take i).length = i := by
          rw [List.length_take]; omega
        simp only [List.take_append_eq_append_take, List.drop_append_eq_append_drop, hti,
          Nat.sub_self, List.take_zero, List.append_nil, List.drop_zero]
        rw [List.take_take, Nat.min_self, List.drop_eq_nil_of_le (by omega : _ ≤ i),
          List.nil_append]
    · rw [if_neg hi]
      have hi' : i = e.Candidates.length := by omega
      subst hi'
      simp

/-- The entry after `clean`: the candidates whose text is marked, in order, and no
mark. -/
theorem clean_eq (e : entry) :
    e.clean = ⟨e.Midashi, e.Candidates.filter (fun c => andSetHas e.andSet c.Text), none⟩ := by
  unfold entry.clean
  rw [cleanLoop_eq e.Candidates.length e 0 (by omega) (by omega)]
  simp

theorem andCandidateLoop_fields (e : entry) (c : Candidate) (l : List Candidate) :
    (andCandidateLoop e c l).Midashi = e.Midashi
      ∧ (andCandidateLoop e c l).Candidates = e.Candidates := by
  induction l with
  | nil => exact ⟨rfl, rfl⟩
  | cons x xs ih =>
    unfold andCandidateLoop
    split
    · exact ⟨rfl, rfl⟩
    · exact ih

theorem andAll_fields (cs : List Candidate) :
    ∀ ce : entry, (cs.foldl (fun ce c => ce.andCandidate c) ce).Midashi = ce.Midashi
      ∧ (cs.foldl (fun ce c => ce.andCandidate c) ce).Candidates = ce.Candidates := by
  induction cs with
  | nil => intro ce; exact ⟨rfl, rfl⟩
  | cons c cs ih =>
    intro ce
    obtain ⟨h1, h2⟩ := ih (ce.andCandidate c)
    obtain ⟨h3, h4⟩ := andCandidateLoop_fields ce c ce.Candidates
    exact ⟨h1.trans h3, h2.trans h4⟩

/-! ## The invariant of the store -/

theorem treeInv_store {less : entry → entry → Bool} (hk : KeyLaw less) (P : Str → Prop)
    (tree : BTree less) (ce : entry) (hnd : (tree.items.map (·.Midashi)).Nodup)
    (hitems : ∀ e ∈ tree.items, e.Midashi ≠ ce.Midashi → e.Good P) (hce : ce.Good P) :
    TreeInv P (tree.store ce) := by
  refine ⟨?_, ?_⟩
  · show ((replaceItem less ce tree.items).map (·.Midashi)).Nodup
    rw [keys_replaceItem hk]
    exact hnd
  · intro e he
    rcases mem_replaceItem hk ce tree.items hnd e he with rfl | ⟨h1, h2⟩
    · exact hce
    · exact hitems e h1 h2

theorem treeInv_delete {less : entry → entry → Bool} (hk : KeyLaw less) (P : Str → Prop)
    (tree : BTree less) (key : entry) (hnd : (tree.items.map (·.Midashi)).Nodup)
    (hitems : ∀ e ∈ tree.items, e.Midashi ≠ key.Midashi → e.Good P) :
    TreeInv P (tree.Delete key) ∧ ∀ e ∈ (tree.Delete key).items, e.Midashi ≠ key.Midashi := by
  have hit : (tree.Delete key).items
      = tree.items.filter (fun x => decide (x.Midashi ≠ key.Midashi)) :=
    eraseP_eq_filter hk key tree.items hnd
  refine ⟨⟨?_, ?_⟩, ?_⟩
  · rw [hit]
    exact List.Nodup.sublist (List.Sublist.map _ (List.filter_sublist _)) hnd
  · intro e he
    rw [hit, List.mem_filter] at he
    exact hitems e he.1 (by simpa using he.2)
  · intro e he
    rw [hit, List.mem_filter] at he
    simpa using he.2

theorem treeInv_addEntry {less : entry → entry → Bool} (hk : KeyLaw less) (P : Str → Prop)
    (tree : BTree less) (e : entry) (d : Str) (hT : TreeInv P tree)
    (hne : e.Candidates ≠ []) (hP : P e.Midashi) : TreeInv P (addEntry tree e d) := by
  unfold addEntry
  cases hget : tree.Get e with
  | some ce =>
    obtain ⟨hm, hmem⟩ := get_midashi hk tree e ce hget
    obtain ⟨h1, h2, h3⟩ := hT.2 ce hmem
    refine treeInv_store hk P tree _ hT.1 (fun x hx _ => hT.2 x hx) ⟨?_, ?_, ?_⟩
    · exact addAll_ne_nil ce e.Candidates d (Or.inl hne)
    · exact nodup_addAll ce e.Candidates d h2
    · rw [(addAll_fields e.Candidates d ce).1]; exact h3
  | none =>
    have hfind : tree.items.find? (fun x => sameKey less x ⟨e.Midashi, [], none⟩) = none := by
      have := get_congr hk tree ⟨e.Midashi, [], none⟩ e rfl
      rw [hget] at this
      exact this
    have hperm := @perm_insertItem less ⟨e.Midashi, [], none⟩ tree.items hfind
    have hnotin := (find_none_iff hk _ _).mp hfind
    refine treeInv_store hk P _ _ ?_ ?_ ⟨?_, ?_, ?_⟩
    · show ((insertItem less ⟨e.Midashi, [], none⟩ tree.items).map (·.Midashi)).Nodup
      rw [List.Perm.nodup_iff (hperm.map _), List.map_cons, List.nodup_cons]
      refine ⟨?_, hT.1⟩
      intro hin
      obtain ⟨x, hx, hxm⟩ := List.mem_map.mp hin
      exact hnotin x hx hxm
    · intro x hx hxm
      have hx' : x ∈ insertItem less ⟨e.Midashi, [], none⟩ tree.items := hx
      rw [List.Perm.mem_iff hperm, List.mem_cons] at hx'
      rcases hx' with rfl | hx'
      · exact absurd (addAll_fields e.Candidates d _).1.symm hxm
      · exact hT.2 x hx'
    · exact addAll_ne_nil _ e.Candidates d (Or.inl hne)
    · exact nodup_addAll _ e.Candidates d (by simp [texts])
    · rw [(addAll_fields e.Candidates d _).1]; exact hP

theorem treeInv_subEntry {less : entry → entry → Bool} (hk : KeyLaw less) (P : Str → Prop)
    (tree : BTree less) (e : entry) (hT : TreeInv P tree) : TreeInv P (subEntry tree e) := by
  unfold subEntry
  cases hget : tree.Get e with
  | none => exact hT
  | some ce =>
    obtain ⟨-, hmem⟩ := get_midashi hk tree e ce hget
    obtain ⟨h1, h2, h3⟩ := hT.2 ce hmem
    obtain ⟨s1, -, s3⟩ := subLoop_spec e.Candidates ce h2
    simp only []
    cases hr : (subLoop ce e.Candidates).2 with
    | true =>
      simp only [if_true]
      refine (treeInv_delete hk P _ _ ?_ ?_).1
      · show ((replaceItem less _ tree.items).map (·.Midashi)).Nodup
        rw [keys_replaceItem hk]
        exact hT.1
      · intro x hx hxm
        rcases mem_replaceItem hk _ tree.items hT.1 x hx with rfl | ⟨hx1, -⟩
        · exact absurd rfl hxm
        · exact hT.2 x hx1
    | false =>
      simp only [Bool.false_eq_true, if_false]
      obtain ⟨s4, -, s6⟩ := s3 hr
      refine treeInv_store hk P tree _ hT.1 (fun x hx _ => hT.2 x hx) ⟨?_, ?_, ?_⟩
      · by_cases hcs : e.Candidates = []
        · rw [hcs]; exact h1
        · rw [s4]; exact s6 hcs
      · rw [s4]; exact nodup_texts_sublist (List.filter_sublist _) h2
      · rw [s1]; exact h3

/-- What the loop of `subEntry` over the stored slice leaves of an entry: headword
and marks as they were, candidates taken from the ones stored in their order, none
when it ends by deleting the entry and at least one otherwise. -/
theorem subLoopShared_spec (n : Nat) :
    ∀ (ce : entry) (arr : List Candidate) (i : Nat),
      (subLoopShared ce arr i n).1.Midashi = ce.Midashi
      ∧ (subLoopShared ce arr i n).1.andSet = ce.andSet
      ∧ (subLoopShared ce arr i n).1.Candidates.Sublist ce.Candidates
      ∧ ((subLoopShared ce arr i n).2 = true → (subLoopShared ce arr i n).1.Candidates = [])
      ∧ ((subLoopShared ce arr i n).2 = false → ce.Candidates ≠ [] →
          (subLoopShared ce arr i n).1.Candidates ≠ []) := by
  induction n with
  | zero =>
    intro ce arr i
    exact ⟨rfl, rfl, List.Sublist.refl _, fun h => absurd h (by simp [subLoopShared]),
      fun _ h => h⟩
  | succ n ih =>
    intro ce arr i
    unfold subLoopShared
    cases hc : arr[i]? with
    | none =>
      exact ⟨rfl, rfl, List.Sublist.refl _, fun h => absurd h (by simp), fun _ h => h⟩
    | some c =>
      simp only []
      have hm : (ce.removeCandidate c).Midashi = ce.Midashi := by rw [removeCandidate_eq]
      have ha : (ce.removeCandidate c).andSet = ce.andSet := by rw [removeCandidate_eq]
      have hs : (ce.removeCandidate c).Candidates.Sublist ce.Candidates := by
        rw [removeCandidate_eq]
        exact List.eraseP_sublist _
      by_cases hz : (ce.removeCandidate c).Candidates.length = 0
      · rw [if_pos hz]
        exact ⟨hm, ha, hs, fun _ => List.length_eq_zero.mp hz, fun h => absurd h (by simp)⟩
      · rw [if_neg hz]
        obtain ⟨h1, h2, h3, h4, h5⟩ := ih (ce.removeCandidate c)
          ((ce.removeCandidate c).Candidates ++ arr.drop (ce.removeCandidate c).Candidates.length)
          (i + 1)
        exact ⟨h1.trans hm, h2.trans ha, h3.trans hs, h4,
          fun h _ => h5 h (fun h0 => hz (by rw [h0]; rfl))⟩

theorem treeInv_subEntryShared {less : entry → entry → Bool} (hk : KeyLaw less)
    (P : Str → Prop) (tree : BTree less) (e : entry) (hT : TreeInv P tree) :
    TreeInv P (subEntryShared tree e) := by
  unfold subEntryShared
  cases hget : tree.Get e with
  | none => exact hT
  | some ce =>
    obtain ⟨-, hmem⟩ := get_midashi hk tree e ce hget
    obtain ⟨h1, h2, h3⟩ := hT.2 ce hmem
    obtain ⟨s1, -, s3, -, s5⟩ := subLoopShared_spec e.Candidates.length ce ce.Candidates 0
    simp only []
    cases hr : (subLoopShared ce ce.Candidates 0 e.Candidates.length).2 with
    | true =>
      simp only [if_true]
      refine (treeInv_delete hk P _ _ ?_ ?_).1
      · show ((replaceItem less _ tree.items).map (·.Midashi)).Nodup
        rw [keys_replaceItem hk]
        exact hT.1
      · intro x hx hxm
        rcases mem_replaceItem hk _ tree.items hT.1 x hx with rfl | ⟨hx1, -⟩
        · exact absurd rfl hxm
        · exact hT.2 x hx1
    | false =>
      simp only [Bool.false_eq_true, if_false]
      refine treeInv_store hk P tree _ hT.1 (fun x hx _ => hT.2 x hx) ⟨?_, ?_, ?_⟩
      · exact s5 hr h1
      · exact nodup_texts_sublist s3 h2
      · rw [s1]; exact h3

theorem treeInv_andEntry {less : entry → entry → Bool} (hk : KeyLaw less) (P : Str → Prop)
    (tree : BTree less) (e : entry) (hT : TreeInv P tree) : TreeInv P (andEntry tree e) := by
  unfold andEntry
  cases hget : tree.Get e with
  | none => exact hT
  | some ce =>
    obtain ⟨-, hmem⟩ := get_midashi hk tree e ce hget
    obtain ⟨h1, h2, h3⟩ := hT.2 ce hmem
    obtain ⟨a1, a2⟩ := andAll_fields e.Candidates ce
    refine treeInv_store hk P tree _ hT.1 (fun x hx _ => hT.2 x hx) ⟨?_, ?_, ?_⟩
    · rw [a2]; exact h1
    · rw [a2]; exact h2
    · rw [a1]; exact h3

theorem treeInv_mergeEntry {less : entry → entry → Bool} (hk : KeyLaw less) (P : Str → Prop)
    (tree : BTree less) (e : entry) (mode : MergeMode) (d : Str) (hT : TreeInv P tree)
    (hne : e.Candidates ≠ []) (hP : P e.Midashi) : TreeInv P (mergeEntry tree e mode d) := by
  unfold mergeEntry
  split
  · exact treeInv_subEntry hk P tree e hT
  · split
    · exact treeInv_andEntry hk P tree e hT
    · exact treeInv_addEntry hk P tree e d hT hne hP

theorem foldl_delete {less : entry → entry → Bool} (hk : KeyLaw less) (R : List entry) :
    ∀ t : BTree less, (t.items.map (·.Midashi)).Nodup →
      (R.foldl (fun t e => t.Delete e) t).items
        = t.items.filter (fun x => decide (∀ r ∈ R, x.Midashi ≠ r.Midashi)) := by
  induction R with
  | nil => intro t _; simp
  | cons r R ih =>
    intro t hnd
    have hit : (t.Delete r).items = t.items.filter (fun x => decide (x.Midashi ≠ r.Midashi)) :=
      eraseP_eq_filter hk r t.items hnd
    have hnd' : ((t.Delete r).items.map (·.Midashi)).Nodup := by
      rw [hit]
      exact List.Nodup.sublist (List.Sublist.map _ (List.filter_sublist _)) hnd
    rw [List.foldl_cons, ih (t.Delete r) hnd', hit, List.filter_filter]
    congr 1
    funext x
    rw [Bool.eq_iff_iff]
    simp only [List.mem_cons, forall_eq_or_imp, ne_eq, Bool.and_eq_true, decide_eq_true_eq,
      decide_not, Bool.not_eq_true', decide_eq_false_iff_not]
    exact and_comm

theorem treeInv_cleanEntries {less : entry → entry → Bool} (hk : KeyLaw less) (P : Str → Prop)
    (tree : BTree less) (hT : TreeInv P tree) : TreeInv P (cleanEntries tree) := by
  have hkeys : (tree.items.map entry.clean).map (·.Midashi) = tree.items.map (·.Midashi) := by
    rw [List.map_map]
    congr 1
    funext x
    simp [clean_eq]
  have hnd : ((tree.items.map entry.clean).map (·.Midashi)).Nodup := by
    rw [hkeys]; exact hT.1
  have hit := foldl_delete hk ((tree.items.map entry.clean).filter
    (fun e => decide (e.Candidates.length = 0))) ⟨tree.items.map entry.clean⟩ hnd
  unfold cleanEntries
  simp only [] at hit ⊢
  refine ⟨?_, ?_⟩
  · rw [hit]
    exact List.Nodup.sublist (List.Sublist.map _ (List.filter_sublist _)) hnd
  · intro x hx
    rw [hit, List.mem_filter] at hx
    obtain ⟨hx1, hx2⟩ := hx
    have hx2' : ∀ r ∈ (tree.items.map entry.clean).filter
        (fun e => decide (e.Candidates.length = 0)), x.Midashi ≠ r.Midashi := by
      simpa using hx2
    obtain ⟨y, hy, rfl⟩ := List.mem_map.mp hx1
    obtain ⟨-, h2, h3⟩ := hT.2 y hy
    refine ⟨?_, ?_, ?_⟩
    · intro hnil
      refine hx2' y.clean (List.mem_filter.mpr ⟨hx1, ?_⟩) rfl
      simp [hnil]
    · rw [clean_eq]
      exact nodup_texts_sublist (List.filter_sublist _) h2
    · rw [clean_eq]; exact h3

theorem inv_New (opts : List Str) : (New opts).Inv := by
  refine ⟨⟨?_, ?_⟩, ⟨?_, ?_⟩⟩ <;> simp [New]

theorem inv_processCandidates (dic : Dictionary) (midashi : Str) (candidates : List Candidate)
    (mode : MergeMode) (h : dic.Inv) : (dic.processCandidates midashi candidates mode).Inv := by
  unfold Dictionary.processCandidates
  by_cases hg : midashi = [] ∨ candidates.length = 0
  · rw [if_pos hg]; exact h
  · rw [if_neg hg]
    have hne : candidates ≠ [] := fun hc => hg (Or.inr (by rw [hc]; rfl))
    simp only [entry.IsOkuriAri]
    by_cases hoa : isOkuriAri midashi = true
    · rw [if_pos hoa]
      exact ⟨treeInv_mergeEntry keyLaw_lessEntryReverse _ _ ⟨midashi, candidates, none⟩ mode _
        h.1 hne hoa, h.2⟩
    · rw [if_neg hoa]
      exact ⟨h.1, treeInv_mergeEntry keyLaw_lessEntry _ _ ⟨midashi, candidates, none⟩ mode _
        h.2 hne (by simpa using hoa)⟩

theorem inv_RemoveCandidates (dic : Dictionary) (midashi : Str) (h : dic.Inv) :
    (dic.RemoveCandidates midashi).Inv := by
  unfold Dictionary.RemoveCandidates
  split
  · exact ⟨(treeInv_delete keyLaw_lessEntryReverse _ _ _ h.1.1 (fun e he _ => h.1.2 e he)).1, h.2⟩
  · exact ⟨h.1, (treeInv_delete keyLaw_lessEntry _ _ _ h.2.1 (fun e he _ => h.2.2 e he)).1⟩

theorem inv_cleanup (dic : Dictionary) (h : dic.Inv) : dic.cleanup.Inv :=
  ⟨treeInv_cleanEntries keyLaw_lessEntryReverse _ _ h.1,
   treeInv_cleanEntries keyLaw_lessEntry _ _ h.2⟩

theorem inv_SubLookup (dic : Dictionary) (midashi : Str) (h : dic.Inv) :
    (dic.SubLookup midashi).Inv := by
  unfold Dictionary.SubLookup
  split
  · exact h
  · split
    · exact h
    · simp only []
      split
      · exact ⟨treeInv_subEntryShared keyLaw_lessEntryReverse _ _ _ h.1, h.2⟩
      · exact ⟨h.1, treeInv_subEntryShared keyLaw_lessEntry _ _ _ h.2⟩

theorem inv_apply (dic : Dictionary) (op : Op) (h : dic.Inv) : (dic.apply op).Inv := by
  cases op with
  | AddCandidates m cs => exact inv_processCandidates dic m cs _ h
  | SubCandidates m cs => exact inv_processCandidates dic m cs _ h
  | SubLookup m => exact inv_SubLookup dic m h
  | AndCandidates m cs => exact inv_processCandidates dic m cs _ h
  | RemoveCandidates m => exact inv_RemoveCandidates dic m h
  | mergeLine line mode => exact inv_processCandidates dic _ _ mode h
  | cleanup => exact inv_cleanup dic h

theorem inv_foldl (ops : List Op) :
    ∀ dic : Dictionary, dic.Inv → (ops.foldl Dictionary.apply dic).Inv := by
  induction ops with
  | nil => intro dic h; exact h
  | cons op ops ih => intro dic h; exact ih _ (inv_apply dic op h)

/-- Every dictionary that a program can hold satisfies the invariant. -/
theorem inv_reachable (dic : Dictionary) (h : Reachable dic) : dic.Inv := by
  induction h with
  | new opts => exact inv_New opts
  | step dic op _ ih => exact inv_apply dic op ih

theorem reachable_foldl (ops : List Op) :
    ∀ dic : Dictionary, Reachable dic → Reachable (ops.foldl Dictionary.apply dic) := by
  induction ops with
  | nil => intro dic h; exact h
  | cons op ops ih => intro dic h; exact ih _ (Reachable.step dic op h)

/-- The reachable dictionaries are the results of the sequences of operations. -/
theorem reachable_iff_run (dic : Dictionary) :
    Reachable dic ↔ ∃ (opts : List Str) (ops : List Op), dic = run opts ops := by
  constructor
  · intro h
    induction h with
    | new opts => exact ⟨opts, [], rfl⟩
    | step dic op _ ih =>
      obtain ⟨opts, ops, rfl⟩ := ih
      exact ⟨opts, ops ++ [op], by simp [run, List.foldl_append]⟩
  · rintro ⟨opts, ops, rfl⟩
    exact reachable_foldl ops _ (Reachable.new opts)

/-- C9: after any sequence of `AddCandidates`, `SubCandidates`, `AndCandidates`,
`RemoveCandidates`, line merges in any mode and cleanup passes on the dictionary
that `New` returns, no entry of either tree holds a text twice. -/
theorem C9_texts_unique (opts : List Str) (ops : List Op) :
    (∀ e ∈ (run opts ops).okuriAriEntries.items, (texts e.Candidates).Nodup)
      ∧ (∀ e ∈ (run opts ops).okuriNashiEntries.items, (texts e.Candidates).Nodup) := by
  have h := inv_foldl ops (New opts) (inv_New opts)
  exact ⟨fun e he => (h.1.2 e he).2.1, fun e he => (h.2.2 e he).2.1⟩

/-! ## Difference -/

theorem delete_items {less : entry → entry → Bool} (hk : KeyLaw less) (tree : BTree less)
    (key : entry) (hnd : (tree.items.map (·.Midashi)).Nodup) :
    (tree.Delete key).items = tree.items.filter (fun x => decide (x.Midashi ≠ key.Midashi)) :=
  eraseP_eq_filter hk key tree.items hnd

theorem get_delete {less : entry → entry → Bool} (hk : KeyLaw less) (tree : BTree less)
    (key k : entry) (hnd : (tree.items.map (·.Midashi)).Nodup) (h : key.Midashi = k.Midashi) :
    (tree.Delete key).Get k = none := by
  unfold BTree.Get
  rw [find_none_iff hk, delete_items hk tree key hnd]
  intro x hx
  rw [List.mem_filter] at hx
  rw [← h]
  simpa using hx.2

theorem get_subEntry {less : entry → entry → Bool} (hk : KeyLaw less) (P : Str → Prop)
    (tree : BTree less) (hT : TreeInv P tree) (e key : entry) (hkey : key.Midashi = e.Midashi)
    (hcs : e.Candidates ≠ []) :
    ((subEntry tree e).Get key).map (·.Candidates)
      = (tree.Get key).bind (fun ce =>
          if ce.Candidates.filter (fun c => decide (c.Text ∉ texts e.Candidates)) = [] then none
          else some (ce.Candidates.filter (fun c => decide (c.Text ∉ texts e.Candidates)))) := by
  have hg : tree.Get key = tree.Get e := get_congr hk tree key e hkey
  unfold subEntry
  rw [hg]
  cases hget : tree.Get e with
  | none =>
    simp only [Option.none_bind]
    rw [hg, hget]
    rfl
  | some ce =>
    obtain ⟨hm, hmem⟩ := get_midashi hk tree e ce hget
    obtain ⟨-, h2, -⟩ := hT.2 ce hmem
    obtain ⟨s1, s2, s3⟩ := subLoop_spec e.Candidates ce h2
    have hmk : (subLoop ce e.Candidates).1.Midashi = key.Midashi := (s1.trans hm).trans hkey.symm
    simp only [Option.some_bind]
    cases hr : (subLoop ce e.Candidates).2 with
    | true =>
      simp only [if_true]
      rw [if_pos (s2 hr)]
      have hnd : (((tree.store (subLoop ce e.Candidates).1).items).map (·.Midashi)).Nodup := by
        show ((replaceItem less _ tree.items).map (·.Midashi)).Nodup
        rw [keys_replaceItem hk]
        exact hT.1
      rw [get_delete hk _ _ key hnd hmk]
      rfl
    | false =>
      simp only [Bool.false_eq_true, if_false]
      obtain ⟨s4, -, s6⟩ := s3 hr
      rw [get_store hk tree _ key hmk, hg, hget, if_neg (s6 hcs)]
      simp [s4]

/-- C10 (as stated, refuted): the headword `k` holds the candidates `1`, `2`, `3`, and
the list given to `SubCandidates` is the one that `Lookup("k")` returns, which is
the stored slice. The loop removes `1`, reads `3` from the second cell, to which
the removal has moved it, removes it, and reads `3` again from the third cell: the
candidate `2` is left, although its text is among the texts given. The same call
with a list of the same candidates in an array of its own removes the entry. -/
theorem C10_difference_counterexample :
    (run [] [.AddCandidates (ascii "k") [⟨ascii "1", []⟩, ⟨ascii "2", []⟩, ⟨ascii "3", []⟩]]).Lookup
        (ascii "k") = some [⟨ascii "1", []⟩, ⟨ascii "2", []⟩, ⟨ascii "3", []⟩]
      ∧ ((run [] [.AddCandidates (ascii "k")
          [⟨ascii "1", []⟩, ⟨ascii "2", []⟩, ⟨ascii "3", []⟩]]).SubLookup (ascii "k")).Lookup
        (ascii "k") = some [⟨ascii "2", []⟩]
      ∧ ascii "2" ∈ texts [⟨ascii "1", []⟩, ⟨ascii "2", []⟩, ⟨ascii "3", []⟩]
      ∧ ((run [] [.AddCandidates (ascii "k")
          [⟨ascii "1", []⟩, ⟨ascii "2", []⟩, ⟨ascii "3", []⟩]]).SubCandidates (ascii "k")
            [⟨ascii "1", []⟩, ⟨ascii "2", []⟩, ⟨ascii "3", []⟩]).Lookup (ascii "k") = none := by
  decide

/-- C10 (amended): on a reachable dictionary, after `SubCandidates(h, cs)` with `h`
and `cs` not empty and `cs` in a backing array that is not the one of the stored
list, `Lookup(h)` returns the candidates stored before whose text is not a text of
`cs`, in their order and with their annotations, and returns nothing when `h` was
not stored or no such candidate is left; then no tree holds an entry for `h`. -/
theorem C10_difference (dic : Dictionary) (h : Str) (cs : List Candidate)
    (hr : Reachable dic) (hh : h ≠ []) (hcs : cs ≠ []) :
    (dic.SubCandidates h cs).Lookup h
        = (dic.Lookup h).bind (fun stored =>
            if stored.filter (fun c => decide (c.Text ∉ texts cs)) = [] then none
            else some (stored.filter (fun c => decide (c.Text ∉ texts cs))))
      ∧ ((dic.SubCandidates h cs).Lookup h = none →
          (∀ e ∈ (dic.SubCandidates h cs).okuriAriEntries.items, e.Midashi ≠ h)
          ∧ (∀ e ∈ (dic.SubCandidates h cs).okuriNashiEntries.items, e.Midashi ≠ h)) := by
  have hinv := inv_reachable dic hr
  have hinv' : (dic.SubCandidates h cs).Inv := inv_processCandidates dic h cs _ hinv
  refine ⟨?_, ?_⟩
  · have hlen : ¬ (h = [] ∨ cs.length = 0) := by
      rintro (h1 | h1)
      · exact hh h1
      · exact hcs (List.length_eq_zero.mp h1)
    unfold Dictionary.SubCandidates Dictionary.processCandidates Dictionary.Lookup
    rw [if_neg hlen]
    simp only [entry.IsOkuriAri, mergeEntry, if_pos]
    by_cases hoa : isOkuriAri h = true
    · simp only [if_pos hoa]
      rw [get_subEntry keyLaw_lessEntryReverse _ dic.okuriAriEntries hinv.1 ⟨h, cs, none⟩
        ⟨h, [], none⟩ rfl hcs]
      cases dic.okuriAriEntries.Get ⟨h, [], none⟩ <;> rfl
    · simp only [if_neg hoa]
      rw [get_subEntry keyLaw_lessEntry _ dic.okuriNashiEntries hinv.2 ⟨h, cs, none⟩
        ⟨h, [], none⟩ rfl hcs]
      cases dic.okuriNashiEntries.Get ⟨h, [], none⟩ <;> rfl
  · intro hnone
    unfold Dictionary.Lookup at hnone
    by_cases hoa : isOkuriAri h = true
    · rw [if_pos hoa, Option.map_eq_none'] at hnone
      refine ⟨(find_none_iff keyLaw_lessEntryReverse ⟨h, [], none⟩ _).mp hnone, ?_⟩
      intro e he hm
      have := (hinv'.2.2 e he).2.2
      rw [hm, hoa] at this
      exact absurd this (by decide)
    · rw [if_neg hoa, Option.map_eq_none'] at hnone
      refine ⟨?_, (find_none_iff keyLaw_lessEntry ⟨h, [], none⟩ _).mp hnone⟩
      intro e he hm
      have := (hinv'.1.2 e he).2.2
      rw [hm] at this
      exact hoa this

theorem C10_difference_witness :
    ((((New []).apply (.AddCandidates [0xE3, 0x81, 0x82] [⟨[49], [120]⟩, ⟨[50], [121]⟩])).SubCandidates
        [0xE3, 0x81, 0x82] [⟨[49], []⟩]).Lookup [0xE3, 0x81, 0x82]
      = (((New []).apply (.AddCandidates [0xE3, 0x81, 0x82] [⟨[49], [120]⟩, ⟨[50], [121]⟩])).Lookup
          [0xE3, 0x81, 0x82]).bind (fun stored =>
            if stored.filter (fun c => decide (c.Text ∉ texts [⟨[49], []⟩])) = [] then none
            else some (stored.filter (fun c => decide (c.Text ∉ texts [⟨[49], []⟩])))))
    ∧ (((New []).apply (.AddCandidates [0xE3, 0x81, 0x82] [⟨[49], [120]⟩, ⟨[50], [121]⟩])).SubCandidates
        [0xE3, 0x81, 0x82] [⟨[49], []⟩]).Lookup [0xE3, 0x81, 0x82] = some [⟨[50], [121]⟩]
    ∧ ((((New []).apply (.AddCandidates [0xE3, 0x81, 0x82] [⟨[49], [120]⟩, ⟨[50], [121]⟩])).SubCandidates
        [0xE3, 0x81, 0x82] [⟨[49], []⟩]).SubCandidates [0xE3, 0x81, 0x82] [⟨[50], []⟩]).Lookup
          [0xE3, 0x81, 0x82] = none :=
  ⟨(C10_difference _ [0xE3, 0x81, 0x82] [⟨[49], []⟩]
      (Reachable.step _ (.AddCandidates [0xE3, 0x81, 0x82] [⟨[49], [120]⟩, ⟨[50], [121]⟩])
        (Reachable.new [])) (by decide) (by decide)).1,
   by decide, by decide⟩

/-! ## Intersection finalisation, round trip and malformed lines -/

theorem andSetHas_eq (m : Option (List Str)) (t : Str) :
    andSetHas m t = decide (t ∈ m.getD []) := by
  cases m <;> simp [andSetHas]

/-- C16: `clean` ends (the fuel it is given is enough: more fuel gives the same
entry) and leaves as candidates the candidates whose text is in the mark set, in
their order, with the mark set cleared; an unset or empty mark set leaves no
candidate. -/
theorem C16_clean (e : entry) :
    e.clean = ⟨e.Midashi, e.Candidates.filter (fun c => decide (c.Text ∈ e.andSet.getD [])), none⟩
      ∧ (∀ fuel, e.Candidates.length ≤ fuel →
          cleanLoop fuel e 0 = cleanLoop e.Candidates.length e 0)
      ∧ ((e.andSet = none ∨ e.andSet = some []) → e.clean.Candidates = []) := by
  have h1 : e.clean
      = ⟨e.Midashi, e.Candidates.filter (fun c => decide (c.Text ∈ e.andSet.getD [])), none⟩ := by
    rw [clean_eq]
    simp only [andSetHas_eq]
  refine ⟨h1, ?_, ?_⟩
  · intro fuel hf
    rw [cleanLoop_eq fuel e 0 (by omega) (by omega),
      cleanLoop_eq e.Candidates.length e 0 (by omega) (by omega)]
  · intro h
    rw [h1]
    rcases h with h | h <;> simp [h]

/-- C17: for every non-empty sequence of candidates whose texts are not empty, have
no `/`, no `;` and no byte below `0x20` and do not begin with `[`, and whose
annotations have no `/` and no byte below `0x20` (they may hold `;`), decoding the
encoded sequence gives back the same candidates in the same order. -/
theorem C17_roundtrip_explicit (midashi : Str) (cs : List Candidate) (hne : cs ≠ [])
    (h : ∀ c ∈ cs, c.Text ≠ [] ∧ (∀ b ∈ c.Text, b ≠ 47 ∧ b ≠ 59 ∧ 32 ≤ b)
      ∧ c.Text.head? ≠ some 91 ∧ ∀ b ∈ c.Annotation, b ≠ 47 ∧ 32 ≤ b) :
    parseCandidates midashi (joinCandidates cs) = cs := by
  rw [parseCandidates_eq]
  exact parseRest_joinCandidates cs hne h

theorem C17_roundtrip_explicit_witness :
    parseCandidates [] (joinCandidates [⟨ascii "a", ascii "x;y;"⟩, ⟨ascii "b]", []⟩,
        ⟨ascii "c", ascii ";"⟩])
      = [⟨ascii "a", ascii "x;y;"⟩, ⟨ascii "b]", []⟩, ⟨ascii "c", ascii ";"⟩] :=
  C17_roundtrip_explicit [] [⟨ascii "a", ascii "x;y;"⟩, ⟨ascii "b]", []⟩, ⟨ascii "c", ascii ";"⟩]
    (by decide) (by decide)

theorem indexByte_eq (sep : Nat) (s : Str) :
    indexByte sep s
      = if sep ∈ s then some (s.takeWhile (fun b => decide (b ≠ sep))).length else none := by
  induction s with
  | nil => rfl
  | cons b t ih =>
    unfold indexByte
    by_cases hb : b = sep
    · simp [hb]
    · have hb' : ¬ sep = b := fun h => hb h.symm
      rw [if_neg hb, ih]
      by_cases hm : sep ∈ t
      · simp [hm, hb, List.takeWhile_cons]
      · simp [hm, hb, hb']

/-- The call `strings.Cut(s, sep)`: the text before the first `sep` and the text
after it, or the whole of `s` when it has no `sep`. -/
theorem cut_eq (s : Str) (sep : Nat) :
    cut s sep
      = if sep ∈ s then
          (s.takeWhile (fun b => decide (b ≠ sep)),
            (s.dropWhile (fun b => decide (b ≠ sep))).drop 1, true)
        else (s, [], false) := by
  unfold cut
  rw [indexByte_eq]
  by_cases hm : sep ∈ s
  · simp only [hm, if_true]
    rw [take_length_takeWhile, ← List.drop_drop, drop_length_takeWhile]
  · simp only [hm, if_false]

/-- C14: a line without space, or beginning with a space, or whose text after the
first space decodes to no candidate, gives the empty headword and no candidate, and
merging it in any mode leaves the dictionary as it was; every other line gives the
text before its first space and the decoded candidates of the rest, which are not
none. -/
theorem C14_malformed_lines (s : Str) :
    ((32 ∉ s ∨ s.head? = some 32
        ∨ parseCandidates (s.takeWhile (fun b => decide (b ≠ 32)))
            ((s.dropWhile (fun b => decide (b ≠ 32))).drop 1) = []) →
      parseLine s = ([], [])
        ∧ ∀ (dic : Dictionary) (mode : MergeMode), dic.mergeLine s mode = dic)
    ∧ (¬ (32 ∉ s ∨ s.head? = some 32
        ∨ parseCandidates (s.takeWhile (fun b => decide (b ≠ 32)))
            ((s.dropWhile (fun b => decide (b ≠ 32))).drop 1) = []) →
      parseLine s
          = (s.takeWhile (fun b => decide (b ≠ 32)),
              parseCandidates (s.takeWhile (fun b => decide (b ≠ 32)))
                ((s.dropWhile (fun b => decide (b ≠ 32))).drop 1))
        ∧ parseCandidates (s.takeWhile (fun b => decide (b ≠ 32)))
            ((s.dropWhile (fun b => decide (b ≠ 32))).drop 1) ≠ []) := by
  have hempty : s.takeWhile (fun b => decide (b ≠ 32)) = [] ↔ (s = [] ∨ s.head? = some 32) := by
    cases s with
    | nil => simp
    | cons b t =>
      by_cases hb : b = 32
      · simp [List.takeWhile_cons, hb]
      · simp [List.takeWhile_cons, hb]
  have hpl : parseLine s
      = if 32 ∉ s ∨ s.head? = some 32
          ∨ parseCandidates (s.takeWhile (fun b => decide (b ≠ 32)))
              ((s.dropWhile (fun b => decide (b ≠ 32))).drop 1) = [] then ([], [])
        else (s.takeWhile (fun b => decide (b ≠ 32)),
              parseCandidates (s.takeWhile (fun b => decide (b ≠ 32)))
                ((s.dropWhile (fun b => decide (b ≠ 32))).drop 1)) := by
    unfold parseLine
    rw [cut_eq]
    by_cases hm : 32 ∈ s
    · simp only [hm, if_true, not_true_eq_false, false_or, Bool.not_true, Bool.false_or,
        decide_eq_true_eq]
      by_cases hh : s.head? = some 32
      · have := hempty.mpr (Or.inr hh)
        rw [if_pos this, if_pos (Or.inl hh)]
      · have hne : ¬ s.takeWhile (fun b => decide (b ≠ 32)) = [] := by
          rw [hempty]
          rintro (h | h)
          · rw [h] at hm; exact absurd hm (List.not_mem_nil _)
          · exact hh h
        rw [if_neg hne]
        simp only [hh, false_or, List.length_eq_zero]
    · simp [hm]
  refine ⟨fun h => ?_, fun h => ?_⟩
  · rw [if_pos h] at hpl
    refine ⟨hpl, fun dic mode => ?_⟩
    unfold Dictionary.mergeLine Dictionary.processCandidates
    rw [hpl, if_pos (Or.inl rfl)]
  · rw [if_neg h] at hpl
    exact ⟨hpl, fun h0 => h (Or.inr (Or.inr h0))⟩

/-! ## Re-serialisation of decoded candidates -/

theorem String_eq_nil (c : Candidate) : c.String = [] ↔ c.Text = [] ∧ c.Annotation = [] := by
  unfold Candidate.String
  by_cases ha : c.Annotation = []
  · simp [ha]
  · simp [ha]

/-- The encoding of a candidate cut out of a segment is a prefix of the segment, and
its text has no `;`. -/
theorem cut_segment (seg : Str) :
    (Candidate.String ⟨(cut seg 59).1, (cut seg 59).2.1⟩) <+: seg
      ∧ ∀ b ∈ (cut seg 59).1, b ≠ 59 := by
  rw [cut_eq]
  by_cases hm : 59 ∈ seg
  · simp only [hm, if_true]
    refine ⟨?_, ?_⟩
    · unfold Candidate.String
      simp only []
      split
      · exact List.takeWhile_prefix _
      · rename_i hne
        have hdw : ∃ r, seg.dropWhile (fun b => decide (b ≠ 59)) = 59 :: r := by
          cases hd : seg.dropWhile (fun b => decide (b ≠ 59)) with
          | nil => rw [hd] at hne; exact absurd rfl hne
          | cons x r =>
            have hx := List.head_dropWhile_not (fun b => decide (b ≠ 59)) seg
              (by rw [hd]; exact List.cons_ne_nil _ _)
            simp only [hd, List.head_cons] at hx
            have : x = 59 := by simpa using hx
            exact ⟨r, by rw [this]⟩
        obtain ⟨r, hr⟩ := hdw
        have hsplit := List.takeWhile_append_dropWhile (fun b => decide (b ≠ 59)) seg
        rw [hr] at hsplit ⊢
        simp only [List.drop_one, List.tail_cons, List.append_assoc, List.singleton_append]
        rw [hsplit]
    · intro b hb
      have := List.mem_takeWhile_imp hb
      simpa using this
  · simp only [hm, if_false]
    refine ⟨?_, fun b hb h59 => hm (h59 ▸ hb)⟩
    unfold Candidate.String
    simp

/-- Every decoded candidate can be encoded and read back, unless its encoding is
empty: its encoding has no `/`, does not begin with a control byte or `[`, and
its text has no `;`. -/
theorem parseRest_decodable :
    ∀ (n : Nat) (s : Str), s.length = n → ∀ c ∈ parseRest s,
      (∀ b ∈ c.String, b ≠ 47) ∧ (∀ d, c.String.head? = some d → 32 ≤ d ∧ d ≠ 91)
        ∧ (∀ b ∈ c.Text, b ≠ 59) := by
  intro n
  induction n using Nat.strong_induction_on with
  | _ n ih =>
    intro s hs c hc
    cases s with
    | nil => rw [parseRest_nil] at hc; exact absurd hc (List.not_mem_nil _)
    | cons x r =>
      simp only [List.length_cons] at hs
      by_cases hx : x < 32
      · rw [parseRest_ctl x r hx] at hc; exact absurd hc (List.not_mem_nil _)
      by_cases h47 : x = 47
      · subst h47
        cases r with
        | nil => rw [parseRest_slash_nil] at hc; exact absurd hc (List.not_mem_nil _)
        | cons d r' =>
          simp only [List.length_cons] at hs
          by_cases hd : d < 32
          · rw [parseRest_slash_ctl d r' hd] at hc; exact absurd hc (List.not_mem_nil _)
          by_cases hd47 : d = 47
          · subst hd47
            rw [parseRest_slash_slash] at hc
            exact ih (r'.length + 1) (by omega) (47 :: r') rfl c hc
          by_cases hd91 : d = 91
          · subst hd91
            rw [parseRest_slash_skip] at hc
            have hle := (List.dropWhile_sublist (l := 91 :: r')
              (fun x => decide (x ≠ 93))).length_le
            simp only [List.length_cons] at hle
            exact ih _ (by omega) _ rfl c hc
          · rw [parseRest_slash_seg d r' (by omega) hd91 hd47, List.mem_cons] at hc
            rcases hc with rfl | hc
            · obtain ⟨hpre, h59⟩ := cut_segment ((d :: r').takeWhile (fun x => decide (x ≠ 47)))
              have htw : (d :: r').takeWhile (fun x => decide (x ≠ 47))
                  = d :: r'.takeWhile (fun x => decide (x ≠ 47)) := by
                rw [List.takeWhile_cons, if_pos (by simpa using hd47)]
              refine ⟨?_, ?_, h59⟩
              · intro b hb
                have := List.mem_takeWhile_imp (hpre.subset hb)
                simpa using this
              · intro d' hd'
                obtain ⟨t, ht⟩ := hpre
                have ht' := ht.trans htw
                generalize Candidate.String _ = str at hd' ht'
                cases str with
                | nil => simp at hd'
                | cons y ys =>
                  simp only [List.head?_cons, Option.some.injEq] at hd'
                  simp only [List.cons_append, List.cons.injEq] at ht'
                  rw [← hd', ht'.1]
                  exact ⟨by omega, hd91⟩
            · have hle := (List.dropWhile_sublist (l := d :: r')
                (fun x => decide (x ≠ 47))).length_le
              simp only [List.length_cons] at hle
              exact ih _ (by omega) _ rfl c hc
      · rw [parseRest_other x r (by omega) h47] at hc
        exact ih r.length (by omega) r rfl c hc

theorem joinLoop_slash (cs : List Candidate) (rest : Str) :
    ∃ X, joinLoop cs ++ 47 :: rest = 47 :: X := by
  cases cs with
  | nil => exact ⟨rest, rfl⟩
  | cons c cs => exact ⟨c.String ++ joinLoop cs ++ 47 :: rest, by simp [joinLoop]⟩

theorem parseRest_joinLoop_filter (cs : List Candidate) (rest : Str)
    (h : ∀ c ∈ cs, (∀ b ∈ c.String, b ≠ 47) ∧ (∀ d, c.String.head? = some d → 32 ≤ d ∧ d ≠ 91)
        ∧ (∀ b ∈ c.Text, b ≠ 59)) :
    parseRest (joinLoop cs ++ 47 :: rest)
      = cs.filter (fun c => decide (¬ (c.Text = [] ∧ c.Annotation = [])))
          ++ parseRest (47 :: rest) := by
  induction cs with
  | nil => rfl
  | cons c cs ih =>
    obtain ⟨h1, h2, h3⟩ := h c (List.mem_cons_self c cs)
    have ih' := ih (fun c hc => h c (List.mem_cons_of_mem _ hc))
    obtain ⟨X, hX⟩ := joinLoop_slash cs rest
    have e : joinLoop (c :: cs) ++ 47 :: rest = 47 :: (c.String ++ (joinLoop cs ++ 47 :: rest)) := by
      simp [joinLoop]
    rw [e, hX]
    rw [hX] at ih'
    by_cases hs : c.String = []
    · have hf : ¬ ¬ (c.Text = [] ∧ c.Annotation = []) := not_not.mpr ((String_eq_nil c).mp hs)
      rw [hs, List.nil_append, parseRest_slash_slash, ih', List.filter_cons_of_neg (by rw [decide_eq_true_eq]; exact hf)]
    · have hf : ¬ (c.Text = [] ∧ c.Annotation = []) := fun hh => hs ((String_eq_nil c).mpr hh)
      rw [parseRest_String c X hs h1 h2 h3, ih', List.filter_cons_of_pos (by rw [decide_eq_true_eq]; exact hf)]
      rfl

/-- C18 (as stated, refuted): the input `/;/` decodes to one candidate with empty text
and empty annotation; its encoding is `//`, which decodes to no candidate. -/
theorem C18_reserialise_counterexample :
    parseCandidates [] [47, 59, 47] = [⟨[], []⟩]
      ∧ joinCandidates (parseCandidates [] [47, 59, 47]) = [47, 47]
      ∧ parseCandidates [] (joinCandidates (parseCandidates [] [47, 59, 47])) = []
      ∧ parseCandidates [] (joinCandidates (parseCandidates [] [47, 59, 47]))
          ≠ parseCandidates [] [47, 59, 47] := by
  decide

/-- C18 (amended): decoding the encoding of what was decoded from `s` gives the
decoded candidates except those whose text and annotation are both empty (decoded
from a segment `;`), in the same order; so it gives exactly the decoded candidates
when none of them is empty. -/
theorem C18_reserialise (midashi s : Str) :
    parseCandidates midashi (joinCandidates (parseCandidates midashi s))
        = (parseCandidates midashi s).filter
            (fun c => decide (¬ (c.Text = [] ∧ c.Annotation = [])))
      ∧ ((∀ c ∈ parseCandidates midashi s, ¬ (c.Text = [] ∧ c.Annotation = [])) →
          parseCandidates midashi (joinCandidates (parseCandidates midashi s))
            = parseCandidates midashi s) := by
  have main : parseCandidates midashi (joinCandidates (parseCandidates midashi s))
      = (parseCandidates midashi s).filter
          (fun c => decide (¬ (c.Text = [] ∧ c.Annotation = []))) := by
    rw [parseCandidates_eq, parseCandidates_eq]
    by_cases hnil : parseRest s = []
    · rw [hnil]
      show parseRest [47, 47] = []
      rw [parseRest_slash_slash, parseRest_slash_nil]
    · rw [joinCandidates_of_ne_nil _ hnil,
        parseRest_joinLoop_filter _ [] (parseRest_decodable s.length s rfl),
        parseRest_slash_nil, List.append_nil]
  refine ⟨main, fun h => ?_⟩
  rw [main, List.filter_eq_self]
  intro c hc
  rw [decide_eq_true_eq]
  exact h c hc

/-! ## Union twice -/

theorem firstSeen_eq_nil (ts seen : List Str) (h : ∀ t ∈ ts, t ∈ seen) :
    firstSeen seen ts = [] := by
  induction ts with
  | nil => rfl
  | cons t ts ih =>
    rw [firstSeen_cons, if_pos (h t (List.mem_cons_self t ts))]
    exact ih (fun x hx => h x (List.mem_cons_of_mem t hx))

theorem map_replaceItem {less : entry → entry → Bool} (hk : KeyLaw less) {β : Type}
    (f : entry → β) (ce key x : entry) (items : List entry)
    (hfind : items.find? (fun y => sameKey less y key) = some x)
    (hm : ce.Midashi = key.Midashi) (hf : f ce = f x) :
    (replaceItem less ce items).map f = items.map f := by
  induction items with
  | nil => rfl
  | cons y ys ih =>
    rw [List.find?_cons] at hfind
    unfold replaceItem
    by_cases hy : sameKey less y key = true
    · rw [hy] at hfind
      have hyx : y = x := by simpa using hfind
      have hyce : sameKey less y ce = true :=
        (hk y ce).mpr (((hk y key).mp hy).trans hm.symm)
      rw [if_pos hyce, List.map_cons, List.map_cons, hf, hyx]
    · have hy' : sameKey less y key = false := by simpa using hy
      rw [hy'] at hfind
      have hyce : ¬ sameKey less y ce = true :=
        fun hh => hy ((hk y key).mpr (((hk y ce).mp hh).trans hm))
      rw [if_neg hyce, List.map_cons, List.map_cons, ih hfind]

theorem addCandidateLoop_noop (c : Candidate) (d : Str) (l : List Candidate)
    (ha : c.Annotation = []) (ht : c.Text ∈ texts l) : addCandidateLoop c d l = l := by
  induction l with
  | nil => simp [texts] at ht
  | cons x xs ih =>
    unfold addCandidateLoop
    by_cases hx : x.Text = c.Text
    · rw [if_pos hx, joinAnnotation_eq]
      simp [ha]
    · rw [if_neg hx, ih]
      simp only [texts, List.map_cons, List.mem_cons] at ht
      rcases ht with h | h
      · exact absurd h.symm hx
      · exact h

theorem addAll_noop (cs : List Candidate) (d : Str) (ce : entry)
    (h : ∀ c ∈ cs, c.Annotation = [] ∧ c.Text ∈ texts ce.Candidates) : addAll ce cs d = ce := by
  induction cs with
  | nil => rfl
  | cons c cs ih =>
    have hc := h c (List.mem_cons_self c cs)
    have step : addAll ce (c :: cs) d = addAll (ce.addCandidate c d) cs d := rfl
    have hce : ce.addCandidate c d = ce := by
      unfold entry.addCandidate
      rw [addCandidateLoop_noop c d _ hc.1 hc.2]
    rw [step, hce]
    exact ih (fun x hx => h x (List.mem_cons_of_mem c hx))

theorem texts_subset_addAll (ce : entry) (cs : List Candidate) (d : Str) :
    ∀ t ∈ texts cs, t ∈ texts (addAll ce cs d).Candidates := by
  intro t ht
  rw [texts_addAll, List.mem_append, mem_firstSeen]
  by_cases h : t ∈ texts ce.Candidates
  · exact Or.inl h
  · exact Or.inr ⟨ht, h⟩

theorem addEntry_of_get {less : entry → entry → Bool} (tree : BTree less) (e ce : entry)
    (d : Str) (h : tree.Get e = some ce) :
    addEntry tree e d = tree.store (addAll ce e.Candidates d) := by
  unfold addEntry
  rw [h]

/-- Adding the same line to a tree a second time changes no headword, no text and
no mark, and changes nothing at all when the line has no annotation. -/
theorem addEntry_twice {less : entry → entry → Bool} (hk : KeyLaw less) (tree : BTree less)
    (e : entry) (d : Str) :
    (addEntry (addEntry tree e d) e d).items.map (fun x => (x.Midashi, texts x.Candidates))
        = (addEntry tree e d).items.map (fun x => (x.Midashi, texts x.Candidates))
      ∧ ((∀ c ∈ e.Candidates, c.Annotation = []) →
          addEntry (addEntry tree e d) e d = addEntry tree e d) := by
  have hget := get_addEntry hk tree e e d rfl
  have hsub := texts_subset_addAll ((tree.Get e).getD ⟨e.Midashi, [], none⟩) e.Candidates d
  generalize addAll ((tree.Get e).getD ⟨e.Midashi, [], none⟩) e.Candidates d = ce1 at hget hsub
  have hm1 := (get_midashi hk _ e ce1 hget).1
  have hstep := addEntry_of_get (addEntry tree e d) e ce1 d hget
  have hfields := addAll_fields e.Candidates d ce1
  refine ⟨?_, fun h => ?_⟩
  · rw [hstep]
    refine map_replaceItem hk _ (addAll ce1 e.Candidates d) e ce1 _ hget
      (hfields.1.trans hm1) ?_
    simp only [hfields.1, texts_addAll, firstSeen_eq_nil _ _ hsub, List.append_nil]
  · rw [hstep, addAll_noop e.Candidates d ce1 (fun c hc => ⟨h c hc, hsub _ (List.mem_map_of_mem _ hc)⟩)]
    have := map_replaceItem hk id ce1 e ce1 (addEntry tree e d).items hget hm1 rfl
    simp only [List.map_id] at this
    show (⟨replaceItem less ce1 (addEntry tree e d).items⟩ : BTree less) = addEntry tree e d
    rw [this]

/-- C19 (as stated, refuted): the entry `k` holds the text `t` with annotation `a`;
merging the line `(k, [(t, b)])` once gives the annotation `a,b`, merging it a second
time gives `a,b,b`. -/
theorem C19_idempotent_counterexample :
    (((New []).AddCandidates [107] [⟨[116], [97]⟩]).AddCandidates [107]
        [⟨[116], [98]⟩]).Lookup [107] = some [⟨[116], [97, 44, 98]⟩]
      ∧ ((((New []).AddCandidates [107] [⟨[116], [97]⟩]).AddCandidates [107]
        [⟨[116], [98]⟩]).AddCandidates [107] [⟨[116], [98]⟩]).Lookup [107]
          = some [⟨[116], [97, 44, 98, 44, 98]⟩]
      ∧ ((((New []).AddCandidates [107] [⟨[116], [97]⟩]).AddCandidates [107]
        [⟨[116], [98]⟩]).AddCandidates [107] [⟨[116], [98]⟩]).okuriNashiEntries.items
          ≠ (((New []).AddCandidates [107] [⟨[116], [97]⟩]).AddCandidates [107]
              [⟨[116], [98]⟩]).okuriNashiEntries.items := by
  decide

theorem AddCandidates_eq (dic : Dictionary) (h : Str) (cs : List Candidate) :
    dic.AddCandidates h cs
      = if h = [] ∨ cs.length = 0 then dic
        else if isOkuriAri h = true then
          { dic with okuriAriEntries := addEntry dic.okuriAriEntries ⟨h, cs, none⟩ dic.delimiter }
        else
          { dic with okuriNashiEntries :=
              addEntry dic.okuriNashiEntries ⟨h, cs, none⟩ dic.delimiter } := by
  have hmode : ¬ MergeMode.Add = MergeMode.Sub := by decide
  have hmode' : ¬ MergeMode.Add = MergeMode.And := by decide
  unfold Dictionary.AddCandidates Dictionary.processCandidates
  simp only [entry.IsOkuriAri, mergeEntry, if_neg hmode, if_neg hmode']

/-- C19 (amended): merging `(h, cs)` in Add mode twice in a row leaves in both trees
the same headwords with the same candidate texts in the same order as merging it
once; it leaves the whole dictionary, annotations included, as merging it once does
when no candidate of `cs` has an annotation. -/
theorem C19_union_twice (dic : Dictionary) (h : Str) (cs : List Candidate) :
    ((dic.AddCandidates h cs).AddCandidates h cs).okuriAriEntries.items.map
          (fun x => (x.Midashi, texts x.Candidates))
        = (dic.AddCandidates h cs).okuriAriEntries.items.map
          (fun x => (x.Midashi, texts x.Candidates))
      ∧ ((dic.AddCandidates h cs).AddCandidates h cs).okuriNashiEntries.items.map
          (fun x => (x.Midashi, texts x.Candidates))
        = (dic.AddCandidates h cs).okuriNashiEntries.items.map
          (fun x => (x.Midashi, texts x.Candidates))
      ∧ ((∀ c ∈ cs, c.Annotation = []) →
          (dic.AddCandidates h cs).AddCandidates h cs = dic.AddCandidates h cs) := by
  by_cases hg : h = [] ∨ cs.length = 0
  · have e1 : dic.AddCandidates h cs = dic := by rw [AddCandidates_eq, if_pos hg]
    rw [e1, e1]
    exact ⟨rfl, rfl, fun _ => rfl⟩
  · by_cases hoa : isOkuriAri h = true
    · have e1 : ∀ dic : Dictionary, dic.AddCandidates h cs
          = { dic with okuriAriEntries :=
                addEntry dic.okuriAriEntries ⟨h, cs, none⟩ dic.delimiter } := by
        intro dic
        rw [AddCandidates_eq, if_neg hg, if_pos hoa]
      obtain ⟨h1, h2⟩ := addEntry_twice keyLaw_lessEntryReverse dic.okuriAriEntries
        ⟨h, cs, none⟩ dic.delimiter
      rw [e1 (dic.AddCandidates h cs), e1 dic]
      exact ⟨h1, rfl, fun ha => by rw [h2 ha]⟩
    · have e1 : ∀ dic : Dictionary, dic.AddCandidates h cs
          = { dic with okuriNashiEntries :=
                addEntry dic.okuriNashiEntries ⟨h, cs, none⟩ dic.delimiter } := by
        intro dic
        rw [AddCandidates_eq, if_neg hg, if_neg hoa]
      obtain ⟨h1, h2⟩ := addEntry_twice keyLaw_lessEntry dic.okuriNashiEntries
        ⟨h, cs, none⟩ dic.delimiter
      rw [e1 (dic.AddCandidates h cs), e1 dic]
      exact ⟨rfl, h1, fun ha => by rw [h2 ha]⟩

/-! ## Completion, reading and empty entries -/

/-- C12 (the code at the failing input): the okuri-nashi tree holds the headword
`a` followed by U+10FFFF, which has the prefix `a`; `Complete("a")` returns nothing,
because the headword is not less than the upper bound of the range scan. -/
theorem C12_complete_misses_headword :
    ((New []).AddCandidates [97, 0xF4, 0x8F, 0xBF, 0xBF] [⟨[120], []⟩]).okuriNashiEntries.items
        = [⟨[97, 0xF4, 0x8F, 0xBF, 0xBF], [⟨[120], []⟩], none⟩]
      ∧ HasPrefix [97, 0xF4, 0x8F, 0xBF, 0xBF] [97] = true
      ∧ ((New []).AddCandidates [97, 0xF4, 0x8F, 0xBF, 0xBF] [⟨[120], []⟩]).Complete [97] = [] := by
  decide

/-- C20 (the code at the failing inputs): the input `k /a/`, one well-formed line
without newline, is not merged by `Read`, while merging the line stores it; and an
And-mode `Read` of the empty input leaves an entry that the cleanup pass removes. -/
theorem C20_read_without_newline :
    ((New []).Read (ascii "k /a/") MergeMode.Add).Lookup (ascii "k") = none
      ∧ ((New []).mergeLine (ascii "k /a/") MergeMode.Add).Lookup (ascii "k")
          = some [⟨ascii "a", []⟩]
      ∧ ((New []).Read (ascii "k /a/\n") MergeMode.Add).Lookup (ascii "k")
          = some [⟨ascii "a", []⟩]
      ∧ (((New []).mergeLine (ascii "k /a/") MergeMode.Add).Read [] MergeMode.And).Lookup
          (ascii "k") = some [⟨ascii "a", []⟩]
      ∧ (((New []).mergeLine (ascii "k /a/") MergeMode.Add).cleanup).Lookup (ascii "k") = none := by
  decide

theorem joinLoop_eq_nil (cs : List Candidate) : joinLoop cs = [] ↔ cs = [] := by
  cases cs with
  | nil => simp [joinLoop]
  | cons c cs => simp [joinLoop]

/-- The encoding of a non-empty list is `//` only for the list of one candidate
without text and annotation. -/
theorem joinCandidates_eq_slashes (cs : List Candidate) (hne : cs ≠ []) :
    joinCandidates cs = [47, 47] ↔ cs = [⟨[], []⟩] := by
  rw [joinCandidates_of_ne_nil cs hne]
  constructor
  · intro h
    obtain ⟨c, rest, rfl⟩ := List.exists_cons_of_ne_nil hne
    simp only [joinLoop, List.singleton_append, List.cons_append, List.cons.injEq, true_and] at h
    have h' : c.String ++ (joinLoop rest ++ [47]) = [] ++ [47] := by simpa using h
    have hlen := congrArg List.length h'
    simp only [List.length_append, List.length_singleton, List.length_nil] at hlen
    have h1 : c.String = [] := List.length_eq_zero.mp (by omega)
    have h2 : joinLoop rest = [] := List.length_eq_zero.mp (by omega)
    have h3 := (String_eq_nil c).mp h1
    rw [(joinLoop_eq_nil rest).mp h2]
    cases c
    simp only [Candidate.mk.injEq] at h3 ⊢
    simpa using h3
  · intro h
    rw [h]
    rfl

/-- C15 (as stated, refuted): merging the line `k /;/` into the dictionary that `New`
returns stores for `k` one candidate without text and annotation, and `Write` emits
the entry line `k //`. -/
theorem C15_write_counterexample :
    (run [] [Op.mergeLine (ascii "k /;/") MergeMode.Add]).okuriNashiEntries.items
        = [⟨ascii "k", [⟨[], []⟩], none⟩]
      ∧ (run [] [Op.mergeLine (ascii "k /;/") MergeMode.Add]).Write (fun _ _ => none) []
        = some (ascii
            ";; -*- coding: utf-8 -*-\n;; okuri-ari entries.\n;; okuri-nasi entries.\nk //\n") := by
  decide

/-- C15 (amended): after any sequence of operations on the dictionary that `New`
returns, every entry of either tree has at least one candidate, `Lookup` never
returns a list without candidate, and the encoded candidate list of an entry is
`//` only when the entry holds a single candidate without text and annotation. -/
theorem C15_no_empty_entries (opts : List Str) (ops : List Op) :
    (∀ e ∈ (run opts ops).okuriAriEntries.items, e.Candidates ≠ [])
      ∧ (∀ e ∈ (run opts ops).okuriNashiEntries.items, e.Candidates ≠ [])
      ∧ (∀ h, (run opts ops).Lookup h ≠ some [])
      ∧ (∀ e, e ∈ (run opts ops).okuriAriEntries.items ∨ e ∈ (run opts ops).okuriNashiEntries.items →
          (joinCandidates e.Candidates = [47, 47] ↔ e.Candidates = [⟨[], []⟩])) := by
  have hinv := inv_foldl ops (New opts) (inv_New opts)
  have hA : ∀ e ∈ (run opts ops).okuriAriEntries.items, e.Candidates ≠ [] :=
    fun e he => (hinv.1.2 e he).1
  have hN : ∀ e ∈ (run opts ops).okuriNashiEntries.items, e.Candidates ≠ [] :=
    fun e he => (hinv.2.2 e he).1
  refine ⟨hA, hN, ?_, ?_⟩
  · intro h hl
    unfold Dictionary.Lookup at hl
    split at hl
    · obtain ⟨ce, hce, hnil⟩ := Option.map_eq_some'.mp hl
      exact hA ce (get_midashi keyLaw_lessEntryReverse _ _ ce hce).2 hnil
    · obtain ⟨ce, hce, hnil⟩ := Option.map_eq_some'.mp hl
      exact hN ce (get_midashi keyLaw_lessEntry _ _ ce hce).2 hnil
  · rintro e (he | he)
    · exact joinCandidates_eq_slashes _ (hA e he)
    · exact joinCandidates_eq_slashes _ (hN e he)

/-! ## Intersection -/

theorem get_store_ne {less : entry → entry → Bool} (hk : KeyLaw less) (tree : BTree less)
    (ce key : entry) (h : ce.Midashi ≠ key.Midashi) : (tree.store ce).Get key = tree.Get key := by
  unfold BTree.store BTree.Get
  simp only []
  induction tree.items with
  | nil => rfl
  | cons x xs ih =>
    unfold replaceItem
    have hce : sameKey less ce key = false := by
      rw [Bool.eq_false_iff]; exact fun hh => h ((hk ce key).mp hh)
    by_cases hx : sameKey less x ce = true
    · have hxk : sameKey less x key = false := by
        rw [Bool.eq_false_iff]
        exact fun hh => h (((hk x ce).mp hx).symm.trans ((hk x key).mp hh))
      rw [if_pos hx, List.find?_cons, List.find?_cons, hce, hxk]
    · rw [if_neg hx, List.find?_cons, List.find?_cons, ih]

theorem andSetHas_insert (m : Option (List Str)) (x t : Str) :
    andSetHas (andSetInsert m x) t = true ↔ andSetHas m t = true ∨ t = x := by
  cases m with
  | none => simp [andSetInsert, andSetHas]
  | some keys =>
    unfold andSetInsert
    by_cases hx : x ∈ keys
    · simp only [hx, if_true, andSetHas, decide_eq_true_eq]
      constructor
      · exact Or.inl
      · rintro (h | h)
        · exact h
        · exact h ▸ hx
    · simp only [hx, if_false, andSetHas, decide_eq_true_eq, List.mem_append, List.mem_singleton]

theorem andCandidateLoop_marks (e : entry) (c : Candidate) (l : List Candidate) (t : Str) :
    andSetHas (andCandidateLoop e c l).andSet t = true
      ↔ andSetHas e.andSet t = true ∨ (t = c.Text ∧ c.Text ∈ texts l) := by
  induction l with
  | nil => simp [andCandidateLoop, texts]
  | cons x xs ih =>
    unfold andCandidateLoop
    by_cases hx : x.Text = c.Text
    · rw [if_pos hx]
      simp only [andSetHas_insert, hx, texts, List.map_cons, List.mem_cons, true_or, and_true]
    · rw [if_neg hx, ih]
      have hx' : ¬ c.Text = x.Text := fun h => hx h.symm
      simp only [texts, List.map_cons, List.mem_cons, hx', false_or]

theorem andAll_marks (cs : List Candidate) :
    ∀ (ce : entry) (t : Str),
      andSetHas (cs.foldl (fun ce c => ce.andCandidate c) ce).andSet t = true
        ↔ andSetHas ce.andSet t = true ∨ (t ∈ texts cs ∧ t ∈ texts ce.Candidates) := by
  induction cs with
  | nil => intro ce t; simp [texts]
  | cons c cs ih =>
    intro ce t
    have hc : (ce.andCandidate c).Candidates = ce.Candidates :=
      (andCandidateLoop_fields ce c ce.Candidates).2
    have hmk : andSetHas (ce.andCandidate c).andSet t = true
        ↔ andSetHas ce.andSet t = true ∨ (t = c.Text ∧ c.Text ∈ texts ce.Candidates) :=
      andCandidateLoop_marks ce c ce.Candidates t
    rw [List.foldl_cons, ih, hc, hmk]
    simp only [texts, List.map_cons, List.mem_cons]
    constructor
    · rintro ((h | ⟨rfl, h⟩) | ⟨h1, h2⟩)
      · exact Or.inl h
      · exact Or.inr ⟨Or.inl rfl, h⟩
      · exact Or.inr ⟨Or.inr h1, h2⟩
    · rintro (h | ⟨rfl | h1, h2⟩)
      · exact Or.inl (Or.inl h)
      · exact Or.inl (Or.inr ⟨rfl, h2⟩)
      · exact Or.inr ⟨h1, h2⟩

/-- The entry of a headword after `andEntry`: marked with the texts it shares with
the line when the line has that headword, and as it was otherwise. -/
theorem get_andEntry {less : entry → entry → Bool} (hk : KeyLaw less) (tree : BTree less)
    (e key : entry) :
    (andEntry tree e).Get key
      = if key.Midashi = e.Midashi then
          (tree.Get key).map (fun ce => e.Candidates.foldl (fun ce c => ce.andCandidate c) ce)
        else tree.Get key := by
  unfold andEntry
  cases hget : tree.Get e with
  | none =>
    simp only []
    split
    · rename_i hkey
      rw [get_congr hk tree key e hkey, hget]
      rfl
    · rfl
  | some ce =>
    obtain ⟨hm, -⟩ := get_midashi hk tree e ce hget
    have hf := (andAll_fields e.Candidates ce).1
    simp only []
    split
    · rename_i hkey
      rw [get_store hk tree _ key ((hf.trans hm).trans hkey.symm), get_congr hk tree key e hkey,
        hget]
      rfl
    · rename_i hkey
      exact get_store_ne hk tree _ key (fun h => hkey ((h.symm.trans hf).trans hm))

/-- The entry of a headword after the lines of a source were marked on a tree: the
same candidates, and as marks the marks it had and the texts it shares with a line
of that headword. -/
theorem get_foldl_andEntry {less : entry → entry → Bool} (hk : KeyLaw less) (es : List entry) :
    ∀ (tree : BTree less) (key : entry),
      ((es.foldl andEntry tree).Get key = none ↔ tree.Get key = none)
      ∧ ∀ ce, tree.Get key = some ce →
          ∃ ce', (es.foldl andEntry tree).Get key = some ce'
            ∧ ce'.Midashi = ce.Midashi ∧ ce'.Candidates = ce.Candidates
            ∧ ∀ t, (andSetHas ce'.andSet t = true
                ↔ andSetHas ce.andSet t = true
                  ∨ (t ∈ texts ce.Candidates
                      ∧ ∃ e ∈ es, e.Midashi = key.Midashi ∧ t ∈ texts e.Candidates)) := by
  induction es with
  | nil =>
    intro tree key
    refine ⟨Iff.rfl, fun ce hce => ⟨ce, hce, rfl, rfl, fun t => ?_⟩⟩
    simp
  | cons e es ih =>
    intro tree key
    obtain ⟨ih1, ih2⟩ := ih (andEntry tree e) key
    have hstep := get_andEntry hk tree e key
    rw [List.foldl_cons]
    refine ⟨?_, fun ce hce => ?_⟩
    · rw [ih1, hstep]
      split
      · simp
      · exact Iff.rfl
    · by_cases hkey : key.Midashi = e.Midashi
      · rw [if_pos hkey, hce] at hstep
        obtain ⟨ce', h1, h2, h3, h4⟩ := ih2 _ hstep
        obtain ⟨f1, f2⟩ := andAll_fields e.Candidates ce
        refine ⟨ce', h1, h2.trans f1, h3.trans f2, fun t => ?_⟩
        rw [h4 t, andAll_marks, f2]
        simp only [List.mem_cons, exists_eq_or_imp]
        constructor
        · rintro ((h | ⟨ha, hb⟩) | ⟨ha, hb⟩)
          · exact Or.inl h
          · exact Or.inr ⟨hb, Or.inl ⟨hkey.symm, ha⟩⟩
          · exact Or.inr ⟨ha, Or.inr hb⟩
        · rintro (h | ⟨ha, ⟨-, hb⟩ | hb⟩)
          · exact Or.inl (Or.inl h)
          · exact Or.inl (Or.inr ⟨hb, ha⟩)
          · exact Or.inr ⟨ha, hb⟩
      · rw [if_neg hkey, hce] at hstep
        obtain ⟨ce', h1, h2, h3, h4⟩ := ih2 _ hstep
        refine ⟨ce', h1, h2, h3, fun t => ?_⟩
        rw [h4 t]
        simp only [List.mem_cons, exists_eq_or_imp]
        constructor
        · rintro (h | ⟨ha, hb⟩)
          · exact Or.inl h
          · exact Or.inr ⟨ha, Or.inr hb⟩
        · rintro (h | ⟨ha, ⟨hm, -⟩ | hb⟩)
          · exact Or.inl h
          · exact absurd hm.symm hkey
          · exact Or.inr ⟨ha, hb⟩

theorem mergeEntry_And {less : entry → entry → Bool} (tree : BTree less) (e : entry) (d : Str) :
    mergeEntry tree e MergeMode.And d = andEntry tree e := by
  unfold mergeEntry
  rw [if_neg (by decide), if_pos rfl]

theorem entriesOf_cons (cls : Bool) (line : Str) (rest : List Str) :
    entriesOf cls (line :: rest)
      = if (parseLine line).1 = [] ∨ (parseLine line).2.length = 0 then entriesOf cls rest
        else if isOkuriAri (parseLine line).1 = cls then
          ⟨(parseLine line).1, (parseLine line).2, none⟩ :: entriesOf cls rest
        else entriesOf cls rest := rfl

theorem mergeLines_And (lines : List Str) :
    ∀ dic : Dictionary, dic.mergeLines lines MergeMode.And
      = { dic with
          okuriAriEntries := (entriesOf true lines).foldl andEntry dic.okuriAriEntries
          okuriNashiEntries := (entriesOf false lines).foldl andEntry dic.okuriNashiEntries } := by
  induction lines with
  | nil => intro dic; rfl
  | cons line rest ih =>
    intro dic
    have step : dic.mergeLines (line :: rest) MergeMode.And
        = (dic.mergeLine line MergeMode.And).mergeLines rest MergeMode.And := rfl
    rw [step, ih, entriesOf_cons, entriesOf_cons]
    unfold Dictionary.mergeLine Dictionary.processCandidates
    by_cases hg : (parseLine line).1 = [] ∨ (parseLine line).2.length = 0
    · simp only [if_pos hg]
    · simp only [if_neg hg, entry.IsOkuriAri, mergeEntry_And]
      cases hoa : isOkuriAri (parseLine line).1 <;> simp

theorem parseLine_cases (s : Str) :
    parseLine s = ([], []) ∨ ((parseLine s).1 ≠ [] ∧ (parseLine s).2 ≠ []) := by
  unfold parseLine
  simp only []
  split
  · exact Or.inl rfl
  · rename_i h1
    split
    · exact Or.inl rfl
    · rename_i h2
      refine Or.inr ⟨?_, ?_⟩
      · intro h
        apply h1
        have h' : (cut s 32).1 = [] := h
        simp [h']
      · intro h
        apply h2
        have h' : parseCandidates (cut s 32).1 (cut s 32).2.1 = [] := h
        simp [h']

theorem entriesOf_mentioned (cls : Bool) (h t : Str) (hc : isOkuriAri h = cls)
    (lines : List Str) :
    (∃ e ∈ entriesOf cls lines, e.Midashi = h ∧ t ∈ texts e.Candidates) ↔ mentioned lines h t := by
  unfold mentioned
  induction lines with
  | nil => simp [entriesOf]
  | cons line rest ih =>
    rw [entriesOf_cons]
    simp only [List.mem_cons, exists_eq_or_imp]
    by_cases hg : (parseLine line).1 = [] ∨ (parseLine line).2.length = 0
    · rw [if_pos hg, ih]
      have hno : ¬ ((parseLine line).1 = h ∧ t ∈ texts (parseLine line).2) := by
        rintro ⟨-, h2⟩
        have hnil : (parseLine line).2 = [] := by
          rcases parseLine_cases line with hp | hp
          · rw [hp]
          · rcases hg with hg | hg
            · exact absurd hg hp.1
            · exact List.length_eq_zero.mp hg
        rw [hnil] at h2
        simp [texts] at h2
      exact ⟨Or.inr, fun hh => hh.resolve_left hno⟩
    · rw [if_neg hg]
      by_cases hoa : isOkuriAri (parseLine line).1 = cls
      · rw [if_pos hoa]
        simp only [List.mem_cons, exists_eq_or_imp]
        rw [ih]
      · rw [if_neg hoa, ih]
        have hno : ¬ ((parseLine line).1 = h ∧ t ∈ texts (parseLine line).2) := by
          rintro ⟨h1, -⟩
          exact hoa (h1 ▸ hc)
        exact ⟨Or.inr, fun hh => hh.resolve_left hno⟩

theorem eq_of_mem_key (items : List entry) (hnd : (items.map (·.Midashi)).Nodup)
    (x y : entry) (hx : x ∈ items) (hy : y ∈ items) (h : x.Midashi = y.Midashi) : x = y :=
  List.inj_on_of_nodup_map hnd hx hy h

theorem get_of_mem {less : entry → entry → Bool} (hk : KeyLaw less) (items : List entry)
    (hnd : (items.map (·.Midashi)).Nodup) (x key : entry) (hx : x ∈ items)
    (h : x.Midashi = key.Midashi) : items.find? (fun y => sameKey less y key) = some x := by
  cases hf : items.find? (fun y => sameKey less y key) with
  | none =>
    exact absurd h ((find_none_iff hk key items).mp hf x hx)
  | some y =>
    have hy := List.mem_of_find?_eq_some hf
    have hym := (hk y key).mp (List.find?_some (p := fun y => sameKey less y key) hf)
    rw [eq_of_mem_key items hnd y x hy hx (hym.trans h.symm)]

/-- The items after `cleanEntries`: the cleaned items that have a candidate left. -/
theorem items_cleanEntries {less : entry → entry → Bool} (hk : KeyLaw less) (tree : BTree less)
    (hnd : (tree.items.map (·.Midashi)).Nodup) :
    (cleanEntries tree).items
      = (tree.items.map entry.clean).filter (fun x => decide (x.Candidates ≠ [])) := by
  have hkeys : (tree.items.map entry.clean).map (·.Midashi) = tree.items.map (·.Midashi) := by
    rw [List.map_map]
    congr 1
    funext x
    simp [clean_eq]
  have hnd' : ((tree.items.map entry.clean).map (·.Midashi)).Nodup := by
    rw [hkeys]; exact hnd
  have hit := foldl_delete hk ((tree.items.map entry.clean).filter
    (fun e => decide (e.Candidates.length = 0))) ⟨tree.items.map entry.clean⟩ hnd'
  unfold cleanEntries
  simp only [] at hit ⊢
  rw [hit]
  apply List.filter_congr
  intro x hx
  rw [Bool.eq_iff_iff]
  simp only [decide_eq_true_eq]
  constructor
  · intro h hnil
    exact h x (List.mem_filter.mpr ⟨hx, by simp [hnil]⟩) rfl
  · intro h r hr hm
    rw [List.mem_filter] at hr
    have hxr := eq_of_mem_key _ hnd' x r hx hr.1 hm
    apply h
    rw [hxr]
    exact List.length_eq_zero.mp (by simpa using hr.2)

/-- The entry of a headword after `cleanEntries`: the cleaned entry, if it has a
candidate left. -/
theorem get_cleanEntries {less : entry → entry → Bool} (hk : KeyLaw less) (tree : BTree less)
    (hnd : (tree.items.map (·.Midashi)).Nodup) (key : entry) :
    (cleanEntries tree).Get key
      = (tree.Get key).bind (fun ce => if ce.clean.Candidates = [] then none else some ce.clean) := by
  have hitems := items_cleanEntries hk tree hnd
  have hmid : ∀ y : entry, y.clean.Midashi = y.Midashi := fun y => by rw [clean_eq]
  have hnd' : ((cleanEntries tree).items.map (·.Midashi)).Nodup := by
    rw [hitems]
    refine List.Nodup.sublist (List.Sublist.map _ (List.filter_sublist _)) ?_
    have hkeys : (tree.items.map entry.clean).map (·.Midashi) = tree.items.map (·.Midashi) := by
      rw [List.map_map]
      congr 1
      funext x
      simp [clean_eq]
    rw [hkeys]
    exact hnd
  cases hget : tree.Get key with
  | none =>
    simp only [Option.none_bind]
    unfold BTree.Get at hget ⊢
    rw [find_none_iff hk] at hget ⊢
    intro x hx
    rw [hitems, List.mem_filter, List.mem_map] at hx
    obtain ⟨⟨y, hy, rfl⟩, -⟩ := hx
    rw [hmid]
    exact hget y hy
  | some ce =>
    obtain ⟨hm, hmem⟩ := get_midashi hk tree key ce hget
    simp only [Option.some_bind]
    by_cases hnil : ce.clean.Candidates = []
    · rw [if_pos hnil]
      unfold BTree.Get
      rw [find_none_iff hk]
      intro x hx hxm
      rw [hitems, List.mem_filter, List.mem_map] at hx
      obtain ⟨⟨y, hy, rfl⟩, hne⟩ := hx
      rw [hmid] at hxm
      have hyce := eq_of_mem_key _ hnd y ce hy hmem (hxm.trans hm.symm)
      rw [hyce] at hne
      simp [hnil] at hne
    · rw [if_neg hnil]
      unfold BTree.Get
      apply get_of_mem hk _ hnd'
      · rw [hitems, List.mem_filter]
        exact ⟨List.mem_map_of_mem _ hmem, by simpa using hnil⟩
      · rw [hmid]; exact hm

/-- The invariant of a tree after the lines of a source were marked on it. -/
theorem treeInv_foldl_andEntry {less : entry → entry → Bool} (hk : KeyLaw less)
    (P : Str → Prop) (es : List entry) :
    ∀ tree : BTree less, TreeInv P tree → TreeInv P (es.foldl andEntry tree) := by
  induction es with
  | nil => intro tree h; exact h
  | cons e es ih => intro tree h; exact ih _ (treeInv_andEntry hk P tree e h)

/-- Intersection on one tree: the entry of a headword after the marking of the lines
and the cleanup. -/
theorem get_intersection {less : entry → entry → Bool} (hk : KeyLaw less) (P : Str → Prop)
    (tree : BTree less) (hT : TreeInv P tree)
    (hmarks : ∀ e ∈ tree.items, ∀ t, andSetHas e.andSet t = false)
    (es : List entry) (key : entry) :
    ((cleanEntries (es.foldl andEntry tree)).Get key).map (·.Candidates)
      = ((tree.Get key).map (·.Candidates)).bind (fun stored =>
          if stored.filter (fun c => decide (∃ e ∈ es, e.Midashi = key.Midashi
                ∧ c.Text ∈ texts e.Candidates)) = [] then none
          else some (stored.filter (fun c => decide (∃ e ∈ es, e.Midashi = key.Midashi
                ∧ c.Text ∈ texts e.Candidates)))) := by
  have hT' := treeInv_foldl_andEntry hk P es tree hT
  obtain ⟨hnone, hsome⟩ := get_foldl_andEntry hk es tree key
  rw [get_cleanEntries hk _ hT'.1]
  cases hget : tree.Get key with
  | none =>
    rw [hnone.mpr hget]
    rfl
  | some ce =>
    obtain ⟨ce', h1, -, h3, h4⟩ := hsome ce hget
    have hce := (get_midashi hk tree key ce hget).2
    have hfil : ce'.clean.Candidates
        = ce.Candidates.filter (fun c => decide (∃ e ∈ es, e.Midashi = key.Midashi
            ∧ c.Text ∈ texts e.Candidates)) := by
      rw [clean_eq, h3]
      apply List.filter_congr
      intro c hc
      rw [Bool.eq_iff_iff, h4, decide_eq_true_eq, hmarks ce hce]
      have hct : c.Text ∈ texts ce.Candidates := List.mem_map_of_mem _ hc
      simp [hct]
    rw [h1]
    simp only [Option.some_bind, Option.map_some']
    rw [hfil]
    split <;> simp [hfil]

/-- C11: on a reachable dictionary without pending mark, merging the lines of a
source in And mode and running the cleanup pass leaves for every headword `h` the
candidates stored before whose text is a text of some line of the source with the
headword `h`, in their order and with their annotations; `Lookup(h)` returns
nothing when `h` was not stored or no such candidate is left. -/
theorem C11_intersection (dic : Dictionary) (lines : List Str) (h : Str)
    (hr : Reachable dic) (hm : dic.noMarks) :
    ((dic.mergeLines lines MergeMode.And).cleanup).Lookup h
      = (dic.Lookup h).bind (fun stored =>
          if stored.filter (fun c => decide (mentioned lines h c.Text)) = [] then none
          else some (stored.filter (fun c => decide (mentioned lines h c.Text)))) := by
  have hinv := inv_reachable dic hr
  have hpred : ∀ cls : Bool, isOkuriAri h = cls →
      (fun c : Candidate => decide (∃ e ∈ entriesOf cls lines,
          e.Midashi = (⟨h, [], none⟩ : entry).Midashi ∧ c.Text ∈ texts e.Candidates))
        = (fun c : Candidate => decide (mentioned lines h c.Text)) := by
    intro cls hc
    funext c
    rw [Bool.eq_iff_iff]
    simp only [decide_eq_true_eq]
    exact entriesOf_mentioned cls h c.Text hc lines
  rw [mergeLines_And]
  unfold Dictionary.cleanup Dictionary.Lookup
  simp only []
  cases hoa : isOkuriAri h with
  | true =>
    simp only [if_true]
    have hmarks : ∀ e ∈ dic.okuriAriEntries.items, ∀ t, andSetHas e.andSet t = false := by
      intro e he t
      rw [andSetHas_eq, hm.1 e he]
      rfl
    rw [get_intersection keyLaw_lessEntryReverse _ dic.okuriAriEntries hinv.1 hmarks
      (entriesOf true lines) ⟨h, [], none⟩, hpred true hoa]
  | false =>
    simp only [Bool.false_eq_true, if_false]
    have hmarks : ∀ e ∈ dic.okuriNashiEntries.items, ∀ t, andSetHas e.andSet t = false := by
      intro e he t
      rw [andSetHas_eq, hm.2 e he]
      rfl
    rw [get_intersection keyLaw_lessEntry _ dic.okuriNashiEntries hinv.2 hmarks
      (entriesOf false lines) ⟨h, [], none⟩, hpred false hoa]

theorem C11_intersection_witness :
    ((((New []).apply (.mergeLine (ascii "k /x;n/y;m/") MergeMode.Add)).mergeLines
          [ascii "k /y/z/", ascii "j /x/"] MergeMode.And).cleanup).Lookup (ascii "k")
        = (((New []).apply (.mergeLine (ascii "k /x;n/y;m/") MergeMode.Add)).Lookup
            (ascii "k")).bind (fun stored =>
              if stored.filter (fun c => decide (mentioned
                  [ascii "k /y/z/", ascii "j /x/"] (ascii "k") c.Text)) = [] then none
              else some (stored.filter (fun c => decide (mentioned
                  [ascii "k /y/z/", ascii "j /x/"] (ascii "k") c.Text))))
      ∧ ((((New []).apply (.mergeLine (ascii "k /x;n/y;m/") MergeMode.Add)).mergeLines
          [ascii "k /y/z/", ascii "j /x/"] MergeMode.And).cleanup).Lookup (ascii "k")
        = some [⟨ascii "y", ascii "m"⟩] :=
  ⟨C11_intersection _ [ascii "k /y/z/", ascii "j /x/"] (ascii "k")
      (Reachable.step _ (.mergeLine (ascii "k /x;n/y;m/") MergeMode.Add) (Reachable.new []))
      (by decide),
   by decide⟩

/-! ## The order of the items -/

theorem strLt_trans : ∀ a b c : Str, strLt a b = true → strLt b c = true → strLt a c = true := by
  intro a
  induction a with
  | nil =>
    intro b c h1 h2
    cases b with
    | nil => simp [strLt] at h1
    | cons y ys =>
      cases c with
      | nil => simp [strLt] at h2
      | cons z zs => simp [strLt]
  | cons x xs ih =>
    intro b c h1 h2
    cases b with
    | nil => simp [strLt] at h1
    | cons y ys =>
      cases c with
      | nil => simp [strLt] at h2
      | cons z zs =>
        simp only [strLt] at h1 h2 ⊢
        by_cases hxy : x < y
        · by_cases hyz : y < z
          · simp [show x < z by omega]
          · by_cases hzy : z < y
            · simp [hyz, hzy] at h2
            · have : y = z := by omega
              subst this
              simp [hxy]
        · by_cases hyx : y < x
          · simp [hxy, hyx] at h1
          · have hxy' : x = y := by omega
            subst hxy'
            simp only [hxy, if_false] at h1
            by_cases hxz : x < z
            · simp [hxz]
            · by_cases hzx : z < x
              · simp [hxz, hzx] at h2
              · simp only [hxz, hzx, if_false] at h2 ⊢
                exact ih ys zs h1 h2

theorem sortLaw_lessEntry : SortLaw lessEntry (fun a b => strLt a b = true) :=
  ⟨fun _ _ => Iff.rfl, strLt_trans, fun a => by simp [strLt_irrefl]⟩

theorem sortLaw_lessEntryReverse : SortLaw lessEntryReverse (fun a b => strLt b a = true) :=
  ⟨fun _ _ => Iff.rfl, fun a b c h1 h2 => strLt_trans c b a h2 h1, fun a => by simp [strLt_irrefl]⟩

theorem mem_insertItem (less : entry → entry → Bool) (item : entry) (items : List entry) :
    ∀ e ∈ insertItem less item items, e = item ∨ e ∈ items := by
  induction items with
  | nil => intro e he; simp [insertItem] at he; exact Or.inl he
  | cons x xs ih =>
    intro e he
    unfold insertItem at he
    split at he
    · rcases List.mem_cons.mp he with h | h
      · exact Or.inl h
      · exact Or.inr h
    · split at he
      · rcases List.mem_cons.mp he with h | h
        · exact Or.inr (h ▸ List.mem_cons_self _ _)
        · rcases ih e h with h' | h'
          · exact Or.inl h'
          · exact Or.inr (List.mem_cons_of_mem _ h')
      · rcases List.mem_cons.mp he with h | h
        · exact Or.inl h
        · exact Or.inr (List.mem_cons_of_mem _ h)

theorem sorted_insertItem {less : entry → entry → Bool} {R : Str → Str → Prop}
    (hs : SortLaw less R) (hk : KeyLaw less) (item : entry) (items : List entry)
    (h : (items.map (·.Midashi)).Pairwise R) :
    ((insertItem less item items).map (·.Midashi)).Pairwise R := by
  induction items with
  | nil => simp [insertItem]
  | cons x xs ih =>
    rw [List.map_cons, List.pairwise_cons] at h
    unfold insertItem
    by_cases h1 : less item x = true
    · rw [if_pos h1]
      have hR : R item.Midashi x.Midashi := (hs.1 item x).mp h1
      simp only [List.map_cons, List.pairwise_cons, List.mem_cons]
      refine ⟨?_, h.1, h.2⟩
      rintro k (rfl | hk')
      · exact hR
      · exact hs.2.1 _ _ _ hR (h.1 k hk')
    · rw [if_neg h1]
      by_cases h2 : less x item = true
      · rw [if_pos h2]
        have hR : R x.Midashi item.Midashi := (hs.1 x item).mp h2
        rw [List.map_cons, List.pairwise_cons]
        refine ⟨?_, ih h.2⟩
        intro k hk'
        obtain ⟨e, he, rfl⟩ := List.mem_map.mp hk'
        rcases mem_insertItem less item xs e he with rfl | he'
        · exact hR
        · exact h.1 _ (List.mem_map_of_mem _ he')
      · rw [if_neg h2]
        have hsame : x.Midashi = item.Midashi := by
          apply (hk x item).mp
          simp [sameKey, h1, h2]
        rw [List.map_cons, List.pairwise_cons, ← hsame]
        exact h

theorem sorted_store {less : entry → entry → Bool} (hk : KeyLaw less) (R : Str → Str → Prop)
    (tree : BTree less) (ce : entry) (h : TreeSorted R tree) : TreeSorted R (tree.store ce) := by
  unfold TreeSorted BTree.store
  rw [keys_replaceItem hk]
  exact h

theorem sorted_delete {less : entry → entry → Bool} (R : Str → Str → Prop)
    (tree : BTree less) (key : entry) (h : TreeSorted R tree) : TreeSorted R (tree.Delete key) :=
  List.Pairwise.sublist (List.Sublist.map _ (List.eraseP_sublist _)) h

theorem sorted_addEntry {less : entry → entry → Bool} {R : Str → Str → Prop}
    (hs : SortLaw less R) (hk : KeyLaw less) (tree : BTree less) (e : entry) (d : Str)
    (h : TreeSorted R tree) : TreeSorted R (addEntry tree e d) := by
  unfold addEntry
  split
  · exact sorted_store hk R tree _ h
  · exact sorted_store hk R _ _ (sorted_insertItem hs hk _ _ h)

theorem sorted_subEntry {less : entry → entry → Bool} (hk : KeyLaw less) (R : Str → Str → Prop)
    (tree : BTree less) (e : entry) (h : TreeSorted R tree) : TreeSorted R (subEntry tree e) := by
  unfold subEntry
  split
  · exact h
  · simp only []
    split
    · exact sorted_delete R _ _ (sorted_store hk R tree _ h)
    · exact sorted_store hk R tree _ h

theorem sorted_subEntryShared {less : entry → entry → Bool} (hk : KeyLaw less)
    (R : Str → Str → Prop) (tree : BTree less) (e : entry) (h : TreeSorted R tree) :
    TreeSorted R (subEntryShared tree e) := by
  unfold subEntryShared
  split
  · exact h
  · simp only []
    split
    · exact sorted_delete R _ _ (sorted_store hk R tree _ h)
    · exact sorted_store hk R tree _ h

theorem sorted_andEntry {less : entry → entry → Bool} (hk : KeyLaw less) (R : Str → Str → Prop)
    (tree : BTree less) (e : entry) (h : TreeSorted R tree) : TreeSorted R (andEntry tree e) := by
  unfold andEntry
  split
  · exact h
  · exact sorted_store hk R tree _ h

theorem sorted_foldl_delete {less : entry → entry → Bool} (R : Str → Str → Prop)
    (del : List entry) :
    ∀ tree : BTree less, TreeSorted R tree → TreeSorted R (del.foldl (fun t e => t.Delete e) tree) := by
  induction del with
  | nil => intro tree h; exact h
  | cons r del ih => intro tree h; exact ih _ (sorted_delete R tree r h)

theorem sorted_cleanEntries {less : entry → entry → Bool} (R : Str → Str → Prop)
    (tree : BTree less) (h : TreeSorted R tree) : TreeSorted R (cleanEntries tree) := by
  unfold cleanEntries
  apply sorted_foldl_delete
  unfold TreeSorted
  have hkeys : (tree.items.map entry.clean).map (·.Midashi) = tree.items.map (·.Midashi) := by
    rw [List.map_map]
    congr 1
    funext x
    simp [clean_eq]
  rw [hkeys]
  exact h

theorem sorted_mergeEntry {less : entry → entry → Bool} {R : Str → Str → Prop}
    (hs : SortLaw less R) (hk : KeyLaw less) (tree : BTree less) (e : entry) (mode : MergeMode)
    (d : Str) (h : TreeSorted R tree) : TreeSorted R (mergeEntry tree e mode d) := by
  unfold mergeEntry
  split
  · exact sorted_subEntry hk R tree e h
  · split
    · exact sorted_andEntry hk R tree e h
    · exact sorted_addEntry hs hk tree e d h

theorem sorted_processCandidates (dic : Dictionary) (midashi : Str) (candidates : List Candidate)
    (mode : MergeMode) (h : dic.Sorted) : (dic.processCandidates midashi candidates mode).Sorted := by
  unfold Dictionary.processCandidates
  split
  · exact h
  · simp only []
    split
    · exact ⟨sorted_mergeEntry sortLaw_lessEntryReverse keyLaw_lessEntryReverse _ _ _ _ h.1, h.2⟩
    · exact ⟨h.1, sorted_mergeEntry sortLaw_lessEntry keyLaw_lessEntry _ _ _ _ h.2⟩

theorem sorted_SubLookup (dic : Dictionary) (midashi : Str) (h : dic.Sorted) :
    (dic.SubLookup midashi).Sorted := by
  unfold Dictionary.SubLookup
  split
  · exact h
  · split
    · exact h
    · simp only []
      split
      · exact ⟨sorted_subEntryShared keyLaw_lessEntryReverse _ _ _ h.1, h.2⟩
      · exact ⟨h.1, sorted_subEntryShared keyLaw_lessEntry _ _ _ h.2⟩

theorem sorted_apply (dic : Dictionary) (op : Op) (h : dic.Sorted) : (dic.apply op).Sorted := by
  cases op with
  | AddCandidates m cs => exact sorted_processCandidates dic m cs _ h
  | SubCandidates m cs => exact sorted_processCandidates dic m cs _ h
  | SubLookup m => exact sorted_SubLookup dic m h
  | AndCandidates m cs => exact sorted_processCandidates dic m cs _ h
  | RemoveCandidates m =>
    show (dic.RemoveCandidates m).Sorted
    unfold Dictionary.RemoveCandidates
    split
    · exact ⟨sorted_delete _ _ _ h.1, h.2⟩
    · exact ⟨h.1, sorted_delete _ _ _ h.2⟩
  | mergeLine line mode => exact sorted_processCandidates dic _ _ mode h
  | cleanup => exact ⟨sorted_cleanEntries _ _ h.1, sorted_cleanEntries _ _ h.2⟩

/-- Every dictionary that a program can hold keeps its items in order. -/
theorem sorted_reachable (dic : Dictionary) (h : Reachable dic) : dic.Sorted := by
  induction h with
  | new opts => exact ⟨List.Pairwise.nil, List.Pairwise.nil⟩
  | step dic op _ ih => exact sorted_apply dic op ih

theorem eq_of_perm_sorted (R : Str → Str → Prop) (htrans : ∀ a b c : Str, R a b → R b c → R a c)
    (hirr : ∀ a : Str, ¬ R a a) (l1 l2 : List entry) (hp : l1.Perm l2)
    (h1 : (l1.map (·.Midashi)).Pairwise R) (h2 : (l2.map (·.Midashi)).Pairwise R) : l1 = l2 := by
  rw [List.pairwise_map] at h1 h2
  haveI : IsAntisymm entry (fun a b => R a.Midashi b.Midashi) :=
    ⟨fun a b hab hba => absurd (htrans _ _ _ hab hba) (hirr _)⟩
  exact List.eq_of_perm_of_sorted hp h1 h2

theorem pairs_eq_of_perm_sorted (R : Str → Str → Prop)
    (htrans : ∀ a b c : Str, R a b → R b c → R a c) (hirr : ∀ a : Str, ¬ R a a)
    (l1 l2 : List entry)
    (hp : (l1.map (fun e => (e.Midashi, e.Candidates))).Perm
      (l2.map (fun e => (e.Midashi, e.Candidates))))
    (h1 : (l1.map (·.Midashi)).Pairwise R) (h2 : (l2.map (·.Midashi)).Pairwise R) :
    l1.map (fun e => (e.Midashi, e.Candidates)) = l2.map (fun e => (e.Midashi, e.Candidates)) := by
  rw [List.pairwise_map] at h1 h2
  haveI : IsAntisymm (Str × List Candidate) (fun a b => R a.1 b.1) :=
    ⟨fun a b hab hba => absurd (htrans _ _ _ hab hba) (hirr _)⟩
  have p1 : (l1.map (fun e => (e.Midashi, e.Candidates))).Pairwise (fun a b => R a.1 b.1) :=
    List.pairwise_map.mpr h1
  have p2 : (l2.map (fun e => (e.Midashi, e.Candidates))).Pairwise (fun a b => R a.1 b.1) :=
    List.pairwise_map.mpr h2
  exact List.eq_of_perm_of_sorted hp p1 p2

/-- The entry lines depend on the headwords and the candidates only, not on the
marks of an intersection in progress. -/
theorem writeEntries_congr : ∀ l1 l2 : List entry,
    l1.map (fun e => (e.Midashi, e.Candidates)) = l2.map (fun e => (e.Midashi, e.Candidates)) →
      writeEntries l1 = writeEntries l2 := by
  intro l1
  induction l1 with
  | nil =>
    intro l2 h
    cases l2 with
    | nil => rfl
    | cons y ys => simp at h
  | cons x xs ih =>
    intro l2 h
    cases l2 with
    | nil => simp at h
    | cons y ys =>
      simp only [List.map_cons, List.cons.injEq, Prod.mk.injEq] at h
      unfold writeEntries writeEntry
      rw [h.1.1, h.1.2, ih ys h.2]

theorem writeEncoding_isValid (opts : List Encoding) :
    Encoding.isValid (writeEncoding opts) = true := by
  unfold writeEncoding
  have key : ∀ (l : List Encoding) (cur : Encoding), Encoding.isValid cur = true →
      Encoding.isValid (l.foldl (fun cur e => if Encoding.isValid e then e else cur) cur)
        = true := by
    intro l
    induction l with
    | nil => intro cur h; exact h
    | cons e l ih =>
      intro cur h
      rw [List.foldl_cons]
      by_cases he : Encoding.isValid e = true
      · rw [if_pos he]; exact ih e he
      · rw [if_neg he]; exact ih cur h
  exact key opts _ (by decide)

/-- `Write` uses an encoder exactly when the encoding it announces is not `utf-8`. -/
theorem writeEncoding_cases (opts : List Encoding) :
    writeEncoding opts = ascii "utf-8"
      ∨ ∃ enc, Encoding.toEncoding (writeEncoding opts) = some enc := by
  have h := writeEncoding_isValid opts
  unfold Encoding.isValid at h
  rw [decide_eq_true_eq] at h
  rcases h with h | h | h | h | h
  · exact Or.inr ⟨japanese.EUCJP, by rw [h]; decide⟩
  · exact Or.inr ⟨japanese.EUCJP, by rw [h]; decide⟩
  · exact Or.inr ⟨japanese.ShiftJIS, by rw [h]; decide⟩
  · exact Or.inr ⟨japanese.ISO2022JP, by rw [h]; decide⟩
  · exact Or.inl h

/-- C13: on a writer that accepts every write, the text that `Write` produces for a
reachable dictionary is the coding line, the line `;; okuri-ari entries.`, the lines
of the okuri-ari entries, the line `;; okuri-nasi entries.` and the lines of the
okuri-nashi entries, each entry line being the headword, a space, the encoded
candidates and a newline. When the encoding chosen is `utf-8`, as it is without
option, these bytes are the output; otherwise the output is what the encoder of
that encoding makes of this text, and one of the two is the case. The okuri-ari
headwords are strictly descending, the okuri-nashi headwords strictly ascending;
and two reachable dictionaries that hold the same headwords with the same
candidates produce the same output. -/
theorem C13_write_order (dic : Dictionary) (encoder : japanese → Str → Option Str)
    (opts : List Encoding) (hr : Reachable dic) :
    (writeEncoding opts = ascii "utf-8" →
        dic.Write encoder opts
          = some (ascii ";; -*- coding: utf-8 -*-\n"
              ++ ascii ";; okuri-ari entries.\n" ++ writeEntries dic.okuriAriEntries.items
              ++ ascii ";; okuri-nasi entries.\n" ++ writeEntries dic.okuriNashiEntries.items))
      ∧ (∀ enc : japanese, Encoding.toEncoding (writeEncoding opts) = some enc →
        dic.Write encoder opts
          = encoder enc (ascii ";; -*- coding: " ++ writeEncoding opts ++ ascii " -*-\n"
              ++ ascii ";; okuri-ari entries.\n" ++ writeEntries dic.okuriAriEntries.items
              ++ ascii ";; okuri-nasi entries.\n" ++ writeEntries dic.okuriNashiEntries.items))
      ∧ (writeEncoding opts = ascii "utf-8"
          ∨ ∃ enc, Encoding.toEncoding (writeEncoding opts) = some enc)
      ∧ writeEncoding [] = ascii "utf-8"
      ∧ (∀ (e : entry) (rest : List entry),
          writeEntries (e :: rest)
            = e.Midashi ++ [32] ++ joinCandidates e.Candidates ++ [10] ++ writeEntries rest)
      ∧ (dic.okuriAriEntries.items.map (·.Midashi)).Pairwise (fun a b => strLt b a = true)
      ∧ (dic.okuriNashiEntries.items.map (·.Midashi)).Pairwise (fun a b => strLt a b = true)
      ∧ ∀ dic2 : Dictionary, Reachable dic2 →
          (dic2.okuriAriEntries.items.map (fun e => (e.Midashi, e.Candidates))).Perm
            (dic.okuriAriEntries.items.map (fun e => (e.Midashi, e.Candidates))) →
          (dic2.okuriNashiEntries.items.map (fun e => (e.Midashi, e.Candidates))).Perm
            (dic.okuriNashiEntries.items.map (fun e => (e.Midashi, e.Candidates))) →
          dic2.Write encoder opts = dic.Write encoder opts := by
  have hs := sorted_reachable dic hr
  refine ⟨?_, ?_, writeEncoding_cases opts, rfl, fun _ _ => rfl, hs.1, hs.2, ?_⟩
  · intro h
    unfold Dictionary.Write
    rw [h]
    rfl
  · intro enc h
    unfold Dictionary.Write
    simp only [h]
  · intro dic2 hr2 hpa hpn
    have hs2 := sorted_reachable dic2 hr2
    have ea := writeEntries_congr _ _ (pairs_eq_of_perm_sorted _ sortLaw_lessEntryReverse.2.1
      sortLaw_lessEntryReverse.2.2 _ _ hpa hs2.1 hs.1)
    have en := writeEntries_congr _ _ (pairs_eq_of_perm_sorted _ sortLaw_lessEntry.2.1
      sortLaw_lessEntry.2.2 _ _ hpn hs2.2 hs.2)
    unfold Dictionary.Write
    rw [ea, en]

theorem C13_write_order_witness :
    ((New []).apply (.mergeLine (ascii "b /x/") MergeMode.Add)
        |>.apply (.mergeLine (ascii "a /y/") MergeMode.Add)
        |>.apply (.mergeLine [0xE3, 0x81, 0x82, 114, 32, 47, 49, 47] MergeMode.Add)
        |>.apply (.mergeLine [0xE3, 0x81, 0x84, 114, 32, 47, 50, 47] MergeMode.Add)).Write
          (fun _ _ => none) []
      = some (ascii ";; -*- coding: utf-8 -*-\n;; okuri-ari entries.\n"
          ++ [0xE3, 0x81, 0x84, 114, 32, 47, 50, 47, 10]
          ++ [0xE3, 0x81, 0x82, 114, 32, 47, 49, 47, 10]
          ++ ascii ";; okuri-nasi entries.\na /y/\nb /x/\n")
      ∧ ((New [ascii ";"]).apply (.mergeLine [0xE3, 0x81, 0x84, 114, 32, 47, 50, 47] MergeMode.Add)
        |>.apply (.mergeLine (ascii "a /y/") MergeMode.Add)
        |>.apply (.AndCandidates (ascii "a") [⟨ascii "y", []⟩])
        |>.apply (.mergeLine [0xE3, 0x81, 0x82, 114, 32, 47, 49, 47] MergeMode.Add)
        |>.apply (.mergeLine (ascii "b /x/") MergeMode.Add)).Write (fun _ _ => none) []
      = ((New []).apply (.mergeLine (ascii "b /x/") MergeMode.Add)
        |>.apply (.mergeLine (ascii "a /y/") MergeMode.Add)
        |>.apply (.mergeLine [0xE3, 0x81, 0x82, 114, 32, 47, 49, 47] MergeMode.Add)
        |>.apply (.mergeLine [0xE3, 0x81, 0x84, 114, 32, 47, 50, 47] MergeMode.Add)).Write
          (fun _ _ => none) [] :=
  ⟨by decide,
   (C13_write_order _ (fun _ _ => none) []
      (Reachable.step _ _ (Reachable.step _ _ (Reachable.step _ _ (Reachable.step _ _
        (Reachable.new []))))) ).2.2.2.2.2.2.2 _
      (Reachable.step _ _ (Reachable.step _ _ (Reachable.step _ _ (Reachable.step _ _
        (Reachable.step _ _ (Reachable.new [ascii ";"]))))))
      (by decide) (by decide)⟩

/-! ## What `Complete` and `Read` do -/

theorem hasPrefix_of_lt (p : Str) : ∀ k : Str, strLt k p = true → HasPrefix k p = false := by
  induction p with
  | nil => intro k h; cases k <;> simp [strLt] at h
  | cons b p ih =>
    intro k h
    cases k with
    | nil => rfl
    | cons a k =>
      simp only [strLt] at h
      unfold HasPrefix
      by_cases hab : a < b
      · simp [show ¬ a = b by omega]
      · by_cases hba : b < a
        · simp [hab, hba] at h
        · simp only [hab, hba, if_false] at h
          simp [ih k h]

theorem hasPrefix_of_range (p u : Str) :
    ∀ k : Str, strLt k p = false → strLt k (p ++ u) = true → HasPrefix k p = true := by
  induction p with
  | nil => intro k _ _; cases k <;> rfl
  | cons b p ih =>
    intro k h1 h2
    cases k with
    | nil => simp [strLt] at h1
    | cons a k =>
      simp only [List.cons_append, strLt] at h1 h2
      unfold HasPrefix
      by_cases hab : a < b
      · simp [hab] at h1
      · by_cases hba : b < a
        · simp [hab, hba] at h2
        · simp only [hab, hba, if_false] at h1 h2
          have : a = b := by omega
          simp [this, ih k h1 h2]

/-- On items in ascending order the range scan of `Complete` collects the headwords
that have the prefix and are less than the upper bound of the scan. -/
theorem completeLoop_eq (p lt : Str) (hlt : ∃ u, lt = p ++ u) (items : List entry)
    (hs : (items.map (·.Midashi)).Pairwise (fun a b => strLt a b = true)) :
    completeLoop p ⟨p, [], none⟩ ⟨lt, [], none⟩ items
      = (items.map (·.Midashi)).filter (fun k => HasPrefix k p && strLt k lt) := by
  obtain ⟨u, rfl⟩ := hlt
  induction items with
  | nil => rfl
  | cons e rest ih =>
    rw [List.map_cons, List.pairwise_cons] at hs
    unfold completeLoop
    simp only [lessEntry, List.map_cons]
    by_cases h1 : strLt e.Midashi p = true
    · rw [if_pos h1, ih hs.2, List.filter_cons_of_neg (by simp [hasPrefix_of_lt p _ h1])]
    · have h1' : strLt e.Midashi p = false := by simpa using h1
      rw [if_neg h1]
      by_cases h2 : strLt e.Midashi (p ++ u) = true
      · rw [if_neg (by simp [h2]), if_pos (hasPrefix_of_range p u _ h1' h2), ih hs.2,
          List.filter_cons_of_pos (by simp [hasPrefix_of_range p u _ h1' h2, h2])]
      · rw [if_pos (by simpa using h2), List.filter_cons_of_neg (by simp [h2])]
        symm
        rw [List.filter_eq_nil_iff]
        intro k hk hh
        simp only [Bool.and_eq_true] at hh
        exact h2 (strLt_trans _ _ _ (hs.1 k hk) hh.2)

/-- What `Complete` returns on a reachable dictionary: the okuri-nashi headwords, in
their ascending order, that have the prefix and are less than the prefix followed
by U+10FFFF. -/
theorem Complete_eq (dic : Dictionary) (p : Str) (hr : Reachable dic) :
    dic.Complete p
      = (dic.okuriNashiEntries.items.map (·.Midashi)).filter
          (fun k => HasPrefix k p && strLt k (p ++ MaxRune)) :=
  completeLoop_eq p (p ++ MaxRune) ⟨MaxRune, rfl⟩ _ (sorted_reachable dic hr).2

theorem scanLines_fuel (fuel : Nat) :
    ∀ (fuel2 : Nat) (data : Str), data.length < fuel → data.length < fuel2 →
      scanLines fuel data = scanLines fuel2 data := by
  induction fuel with
  | zero => intro fuel2 data h _; omega
  | succ n ih =>
    intro fuel2 data h h2
    cases fuel2 with
    | zero => omega
    | succ m =>
      unfold scanLines
      by_cases hd : data.length = 0
      · rw [if_pos hd, if_pos hd]
      · rw [if_neg hd, if_neg hd]
        by_cases hlong :
            MaxScanTokenSize ≤ (data.takeWhile (fun b => decide (b ≠ 10))).length
        · rw [if_pos hlong, if_pos hlong]
        rw [if_neg hlong, if_neg hlong]
        have hlen : ((data.dropWhile (fun b => decide (b ≠ 10))).drop 1).length < data.length := by
          have hsplit := congrArg List.length
            (List.takeWhile_append_dropWhile (fun b => decide (b ≠ 10)) data)
          rw [List.length_append] at hsplit
          rw [List.length_drop]
          cases htw : data.takeWhile (fun b => decide (b ≠ 10)) with
          | nil =>
            rw [htw] at hsplit
            simp only [List.length_nil, Nat.zero_add] at hsplit
            omega
          | cons x xs =>
            rw [htw] at hsplit
            simp only [List.length_cons] at hsplit
            omega
        rw [ih m _ (by omega) (by omega)]

/-- On an input that holds a newline `Read` merges the lines that the scanner
returns, comments apart, and runs the cleanup pass in And mode. -/
theorem Read_of_newline (dic : Dictionary) (input : Str) (mode : MergeMode) (h : 10 ∈ input) :
    dic.Read input mode
      = if mode = MergeMode.And then
          ((scanLines (input.length + 1) input).foldl (readLine mode) dic).cleanup
        else (scanLines (input.length + 1) input).foldl (readLine mode) dic := by
  unfold Dictionary.Read readBytesLine
  simp [h]

/-- A line of `MaxScanTokenSize` bytes or more ends the scan: neither that line nor
what follows it is returned. -/
theorem scanLines_too_long (fuel : Nat) (data : Str)
    (h : MaxScanTokenSize ≤ (data.takeWhile (fun b => decide (b ≠ 10))).length) :
    scanLines fuel data = [] := by
  cases fuel with
  | zero => rfl
  | succ n =>
    unfold scanLines
    by_cases hd : data.length = 0
    · rw [if_pos hd]
    · rw [if_neg hd, if_pos h]

/-- On an input without newline `Read` returns at once and leaves the dictionary as
it was. -/
theorem Read_of_no_newline (dic : Dictionary) (input : Str) (mode : MergeMode)
    (h : 10 ∉ input) : dic.Read input mode = dic := by
  unfold Dictionary.Read readBytesLine
  simp [h]

/-- The completions of the headwords `あい`, `あう`, `あか`, `かき`, inserted out of order. -/
theorem Complete_example :
    (run [] [.mergeLine ([0xE3, 0x81, 0x8B, 0xE3, 0x81, 0x8D] ++ ascii " /x/") MergeMode.Add,
        .mergeLine ([0xE3, 0x81, 0x82, 0xE3, 0x81, 0x8B] ++ ascii " /x/") MergeMode.Add,
        .mergeLine ([0xE3, 0x81, 0x82, 0xE3, 0x81, 0x84] ++ ascii " /x/") MergeMode.Add,
        .mergeLine ([0xE3, 0x81, 0x82, 0xE3, 0x81, 0x86] ++ ascii " /x/") MergeMode.Add]).Complete
          [0xE3, 0x81, 0x82]
      = [[0xE3, 0x81, 0x82, 0xE3, 0x81, 0x84], [0xE3, 0x81, 0x82, 0xE3, 0x81, 0x86],
          [0xE3, 0x81, 0x82, 0xE3, 0x81, 0x8B]] := by
  decide

end Skkdic
